import Mathlib

/-!
# list.hpp: a circular doubly-linked list with a sentinel node

Shallow embedding of `src/list.hpp` (`template <typename T, typename Allocator> class List`).

* Node pointers are natural numbers; the heap is a total map from addresses to node
  contents together with the list of currently allocated blocks and the history of the
  calls `allocate`, `deallocate` and `destroy` made on the allocator.
* The two template parameters are rendered by `Env`: the allocator decides which address
  `allocate` hands out (or that it throws), the value type decides which copy
  constructions throw.
* A `List` object is the pair of its data members `root_` and `size_` (the allocator
  member is the ambient `Env`; all allocator instances compare equal, as for
  `std::allocator`).
* `size_t` and pointers are 64 bits wide.
-/

namespace ListCpp

/-- Width of `size_t` and of a node pointer. -/
def SIZE_BITS : Nat := 64

/-- Content of `struct Node`: `value` is `none` while no `T` has been constructed in the
block (the sentinel, or a node whose value was destroyed). -/
structure Node (T : Type) where
  value : Option T
  next : Nat
  prev : Nat

/-- A call that reached the allocator: `node_traits::allocate` returned the block `p`,
`node_traits::deallocate` released it, or `node_traits::destroy` ended the value in it. -/
inductive Event where
  | allocate (p : Nat) : Event
  | deallocate (p : Nat) : Event
  | destroy (p : Nat) : Event
deriving DecidableEq

/-- The heap and its history: node contents by address, the blocks that are currently
allocated, the number of value constructions attempted so far, and the allocator calls
made so far, oldest first. -/
structure World (T : Type) where
  cell : Nat → Node T
  live : List Nat
  ctors : Nat
  log : List Event

/-- Behaviour of the template parameters. `pick live` is the block `node_traits::allocate`
returns when the blocks `live` are outstanding (`none`: it throws); an allocator never
hands out an outstanding block and every address fits a pointer. `copyThrows n v` tells
whether copy-constructing the value `v` throws when `n` constructions happened before;
`dflt` is the value `T()` and `defaultThrows n` tells whether constructing it throws. -/
structure Env (T : Type) where
  pick : List Nat → Option Nat
  pick_fresh : ∀ live a, pick live = some a → a ∉ live
  pick_lt : ∀ live a, pick live = some a → a < 2 ^ SIZE_BITS
  copyThrows : Nat → T → Bool
  dflt : T
  defaultThrows : Nat → Bool

/-- The data members `root_` and `size_` of a `List` object. -/
structure ListObj where
  root_ : Nat
  size_ : Nat
deriving DecidableEq

/-- Result of a call that can throw: normal return with a value and the new heap, or an
exception that leaves the call with the heap as it is then. -/
inductive Outcome (T : Type) (α : Type) where
  | ok : α → World T → Outcome T α
  | threw : World T → Outcome T α

variable {T : Type}

/-- Assignment `p->next = n`. -/
def World.setNext (w : World T) (p n : Nat) : World T :=
  { w with cell := Function.update w.cell p { w.cell p with next := n } }

/-- Assignment `p->prev = n`. -/
def World.setPrev (w : World T) (p n : Nat) : World T :=
  { w with cell := Function.update w.cell p { w.cell p with prev := n } }

/-- The call `node_traits::allocate(alloc_, 1)`: `none` when it throws. -/
def allocate (E : Env T) (w : World T) : Option (Nat × World T) :=
  match E.pick w.live with
  | none => none
  | some a => some (a, { w with live := a :: w.live, log := w.log ++ [.allocate a] })

/-- The call `node_traits::deallocate(alloc_, p, 1)`. -/
def deallocate (w : World T) (p : Nat) : World T :=
  { w with live := w.live.filter (fun a => a != p), log := w.log ++ [.deallocate p] }

/-- The call `node_traits::construct(alloc_, p, value, prev, next)`, which runs
`Node(const T& value, Node* prev, Node* next)`: the value is copied first (members are
initialised in declaration order), and when that copy throws nothing is written.
`Except.error` carries the heap at the throw. -/
def construct (E : Env T) (w : World T) (p : Nat) (value : T) (prev next : Nat) :
    Except (World T) (World T) :=
  if E.copyThrows w.ctors value then
    .error { w with ctors := w.ctors + 1 }
  else
    .ok { w with
      cell := Function.update w.cell p { value := some value, next := next, prev := prev }
      ctors := w.ctors + 1 }

/-- The call `node_traits::construct(alloc_, p, prev, next)`, which runs
`Node(Node* prev, Node* next)` with the value `T()`. -/
def construct_default (E : Env T) (w : World T) (p : Nat) (prev next : Nat) :
    Except (World T) (World T) :=
  if E.defaultThrows w.ctors then
    .error { w with ctors := w.ctors + 1 }
  else
    .ok { w with
      cell := Function.update w.cell p { value := some E.dflt, next := next, prev := prev }
      ctors := w.ctors + 1 }

/-- The call `node_traits::destroy(alloc_, p)`: ends the lifetime of the stored value. -/
def destroyNode (w : World T) (p : Nat) : World T :=
  { w with
    cell := Function.update w.cell p { w.cell p with value := none }
    log := w.log ++ [.destroy p] }

/-- The private `init()`: allocates the sentinel and closes the empty ring. -/
def init (E : Env T) (w : World T) : Outcome T ListObj :=
  match allocate E w with
  | none => .threw w
  | some (root, w1) =>
    let w2 := w1.setPrev root root
    let w3 := w2.setNext root (w2.cell root).prev
    .ok { root_ := root, size_ := 0 } w3

/-- The private `insert(Node* node)`. -/
def insert_default (E : Env T) (w : World T) (self : ListObj) (node : Nat) :
    Outcome T ListObj :=
  match allocate E w with
  | none => .threw w
  | some (tmp, w1) =>
    match construct_default E w1 tmp node (w1.cell node).next with
    | .error w2 => .threw (deallocate w2 tmp)
    | .ok w2 =>
      let w3 := w2.setNext node tmp
      let w4 := w3.setPrev (w3.cell tmp).next tmp
      .ok { self with size_ := (self.size_ + 1) % 2 ^ SIZE_BITS } w4

/-- The private `insert(Node* node, const T& value)`; the overloads of `push_back` and
`push_front` that take `T&&` call it too. -/
def insert (E : Env T) (w : World T) (self : ListObj) (node : Nat) (value : T) :
    Outcome T ListObj :=
  match allocate E w with
  | none => .threw w
  | some (tmp, w1) =>
    match construct E w1 tmp value node (w1.cell node).next with
    | .error w2 => .threw (deallocate w2 tmp)
    | .ok w2 =>
      let w3 := w2.setNext node tmp
      let w4 := w3.setPrev (w3.cell tmp).next tmp
      .ok { self with size_ := (self.size_ + 1) % 2 ^ SIZE_BITS } w4

/-- The private `del(Node* node)`. -/
def del (w : World T) (self : ListObj) (node : Nat) : ListObj × World T :=
  if node = self.root_ then
    (self, w)
  else
    let w1 := w.setPrev (w.cell node).next (w.cell node).prev
    let w2 := w1.setNext (w1.cell node).prev (w1.cell node).next
    let w3 := destroyNode w2 node
    let w4 := deallocate w3 node
    ({ self with size_ := (self.size_ + 2 ^ SIZE_BITS - 1) % 2 ^ SIZE_BITS }, w4)

/-- The `while (curr != root_)` loop of `destroy()`; `none` when the fuel runs out. -/
def destroy_loop (root : Nat) : Nat → World T → Nat → Option (World T)
  | fuel, w, curr =>
    if curr = root then some w
    else
      match fuel with
      | 0 => none
      | fuel + 1 =>
        let tmp := curr
        let curr := (w.cell curr).next
        destroy_loop root fuel (deallocate (destroyNode w tmp) tmp) curr

/-- The private `destroy()`. -/
def destroy (fuel : Nat) (w : World T) (self : ListObj) : Option (ListObj × World T) :=
  match destroy_loop self.root_ fuel w (w.cell self.root_).next with
  | none => none
  | some w1 => some ({ self with size_ := 0 }, deallocate w1 self.root_)

/-- The member `size()`. -/
def size (self : ListObj) : Nat := self.size_

/-- The member `empty()`. -/
def empty (self : ListObj) : Bool := self.size_ == 0

/-- The member `front()`: `none` when the node holds no constructed value. -/
def front (w : World T) (self : ListObj) : Option T :=
  (w.cell (w.cell self.root_).next).value

/-- The member `back()`. -/
def back (w : World T) (self : ListObj) : Option T :=
  (w.cell (w.cell self.root_).prev).value

/-- The member `push_back()`. -/
def push_back_default (E : Env T) (w : World T) (self : ListObj) : Outcome T ListObj :=
  insert_default E w self (w.cell self.root_).prev

/-- The member `push_back(const T& value)`. -/
def push_back (E : Env T) (w : World T) (self : ListObj) (value : T) : Outcome T ListObj :=
  insert E w self (w.cell self.root_).prev value

/-- The member `push_front(const T& value)`. -/
def push_front (E : Env T) (w : World T) (self : ListObj) (value : T) : Outcome T ListObj :=
  insert E w self self.root_ value

/-- The member `pop_back()`. -/
def pop_back (w : World T) (self : ListObj) : ListObj × World T :=
  del w self (w.cell self.root_).prev

/-- The member `pop_front()`. -/
def pop_front (w : World T) (self : ListObj) : ListObj × World T :=
  del w self (w.cell self.root_).next

/-- The catch block of the bulk constructors: `destroy(); throw;`. The result is `none`
when the loop of `destroy()` does not finish within the fuel. -/
def cleanup (fuel : Nat) (w : World T) (self : ListObj) : Option (Outcome T ListObj) :=
  match destroy fuel w self with
  | none => none
  | some (_, w1) => some (.threw w1)

/-- The constructor `List(const Allocator& alloc)`. -/
def List_alloc (E : Env T) (w : World T) : Outcome T ListObj :=
  init E w

/-- The loop `for (size_t i = 0; i < count; ++i) push_back(value);` with `count` rounds
left. `Except.error` is a throw out of the loop, with the object as it is then. -/
def fill_loop (E : Env T) (value : T) :
    Nat → World T → ListObj → Except (ListObj × World T) (ListObj × World T)
  | 0, w, self => .ok (self, w)
  | count + 1, w, self =>
    match push_back E w self value with
    | .ok self1 w1 => fill_loop E value count w1 self1
    | .threw w1 => .error (self, w1)

/-- The constructor `List(size_t count, const T& value, const Allocator& alloc)`. -/
def List_count_value (E : Env T) (fuel : Nat) (w : World T) (count : Nat) (value : T) :
    Option (Outcome T ListObj) :=
  match init E w with
  | .threw w1 => some (.threw w1)
  | .ok self w1 =>
    match fill_loop E value count w1 self with
    | .ok (self2, w2) => some (.ok self2 w2)
    | .error (self2, w2) => cleanup fuel w2 self2

/-- The loop `for (size_t i = 0; i < count; ++i) push_back();` with `count` rounds left. -/
def count_loop (E : Env T) :
    Nat → World T → ListObj → Except (ListObj × World T) (ListObj × World T)
  | 0, w, self => .ok (self, w)
  | count + 1, w, self =>
    match push_back_default E w self with
    | .ok self1 w1 => count_loop E count w1 self1
    | .threw w1 => .error (self, w1)

/-- The constructor `List(size_t count, const Allocator& alloc)`. -/
def List_count (E : Env T) (fuel : Nat) (w : World T) (count : Nat) :
    Option (Outcome T ListObj) :=
  match init E w with
  | .threw w1 => some (.threw w1)
  | .ok self w1 =>
    match count_loop E count w1 self with
    | .ok (self2, w2) => some (.ok self2 w2)
    | .error (self2, w2) => cleanup fuel w2 self2

/-- The loop `for (size_t i = 0; i < other.size_; ++i, cur = cur->next)
push_back(cur->value);` of the copy constructor with `n` rounds left. The result is
`none` when `cur->value` was never constructed. -/
def copy_loop (E : Env T) :
    Nat → World T → ListObj → Nat → Option (Except (ListObj × World T) (ListObj × World T))
  | 0, w, self, _ => some (.ok (self, w))
  | n + 1, w, self, cur =>
    match (w.cell cur).value with
    | none => none
    | some v =>
      match push_back E w self v with
      | .ok self1 w1 => copy_loop E n w1 self1 (w1.cell cur).next
      | .threw w1 => some (.error (self, w1))

/-- The copy constructor `List(const List& other)`. -/
def List_copy (E : Env T) (fuel : Nat) (w : World T) (other : ListObj) :
    Option (Outcome T ListObj) :=
  match init E w with
  | .threw w1 => some (.threw w1)
  | .ok self w1 =>
    let cur := (w1.cell other.root_).next
    match copy_loop E other.size_ w1 self cur with
    | none => none
    | some (.ok (self2, w2)) => some (.ok self2 w2)
    | some (.error (self2, w2)) => cleanup fuel w2 self2

/-- The loop `for (auto it = initializer.begin(); it != initializer.end(); ++it)
push_back(*it);` over the remaining elements. -/
def init_loop (E : Env T) :
    List T → World T → ListObj → Except (ListObj × World T) (ListObj × World T)
  | [], w, self => .ok (self, w)
  | v :: rest, w, self =>
    match push_back E w self v with
    | .ok self1 w1 => init_loop E rest w1 self1
    | .threw w1 => .error (self, w1)

/-- The constructor `List(std::initializer_list<T> initializer, const Allocator& alloc)`. -/
def List_init (E : Env T) (fuel : Nat) (w : World T) (initializer : List T) :
    Option (Outcome T ListObj) :=
  match init E w with
  | .threw w1 => some (.threw w1)
  | .ok self w1 =>
    match init_loop E initializer w1 self with
    | .ok (self2, w2) => some (.ok self2 w2)
    | .error (self2, w2) => cleanup fuel w2 self2

/-- The argument of `operator=`: a reference that is `*this` itself or a different
`List` object. -/
inductive Ref where
  | self : Ref
  | distinct (other : ListObj) : Ref

/-- The copy assignment `operator=(const List& other)`; the value returned is `*this`
after the call. The temporary `tmp` is destroyed when the function returns. -/
def assign (E : Env T) (fuel : Nat) (w : World T) (this : ListObj) (other : Ref) :
    Option (Outcome T ListObj) :=
  match other with
  | .self => some (.ok this w)
  | .distinct other =>
    match List_copy E fuel w other with
    | none => none
    | some (.threw w1) => some (.threw w1)
    | some (.ok tmp w1) =>
      let this1 : ListObj := { root_ := tmp.root_, size_ := tmp.size_ }
      let tmp1 : ListObj := { root_ := this.root_, size_ := this.size_ }
      match destroy fuel w1 tmp1 with
      | none => none
      | some (_, w2) => some (.ok this1 w2)

/-- The class `ListIterator<IsConst>`: its only member `node_`. -/
structure ListIterator where
  node_ : Nat
deriving DecidableEq

/-- Pre-increment `operator++`. -/
def ListIterator.inc (w : World T) (it : ListIterator) : ListIterator :=
  { node_ := (w.cell it.node_).next }

/-- Pre-decrement `operator--`. -/
def ListIterator.dec (w : World T) (it : ListIterator) : ListIterator :=
  { node_ := (w.cell it.node_).prev }

/-- Comparison `operator==`. -/
def ListIterator.eq (a b : ListIterator) : Bool := a.node_ == b.node_

/-- Comparison `operator!=`. -/
def ListIterator.ne (a b : ListIterator) : Bool := a.node_ != b.node_

/-- Dereference `operator*`: `none` when the node holds no constructed value. -/
def ListIterator.deref (w : World T) (it : ListIterator) : Option T :=
  (w.cell it.node_).value

/-- The member `begin()`. -/
def begin_ (w : World T) (self : ListObj) : ListIterator :=
  { node_ := (w.cell self.root_).next }

/-- The member `end()`. -/
def end_ (self : ListObj) : ListIterator :=
  { node_ := self.root_ }

/-- The adaptor `std::reverse_iterator<iterator>`: it stores the base iterator `current`,
dereferences the position before it, and steps by decrementing it. -/
structure ReverseIterator where
  current : ListIterator
deriving DecidableEq

/-- Pre-increment of a reverse iterator: `--current`. -/
def ReverseIterator.inc (w : World T) (r : ReverseIterator) : ReverseIterator :=
  { current := r.current.dec w }

/-- Dereference of a reverse iterator: `Iter tmp = current; return *--tmp;`. -/
def ReverseIterator.deref (w : World T) (r : ReverseIterator) : Option T :=
  (r.current.dec w).deref w

/-- Comparison `!=` of reverse iterators: the bases differ. -/
def ReverseIterator.ne (a b : ReverseIterator) : Bool := a.current.ne b.current

/-- The member `rbegin()`. -/
def rbegin (self : ListObj) : ReverseIterator :=
  { current := end_ self }

/-- The member `rend()`. -/
def rend (w : World T) (self : ListObj) : ReverseIterator :=
  { current := begin_ w self }

/-- The caller's loop `for (it = first; it != last; ++it) visit(it)`: the results of the
visits in order; `none` when the fuel runs out or a visit has no defined result. -/
def for_each {β : Type} (w : World T) (visit : ListIterator → Option β)
    (last : ListIterator) : Nat → ListIterator → Option (List β)
  | fuel, it =>
    if it.ne last then
      match fuel with
      | 0 => none
      | fuel + 1 =>
        match visit it with
        | none => none
        | some b =>
          match for_each w visit last fuel (it.inc w) with
          | none => none
          | some bs => some (b :: bs)
    else some []

/-- The values visited by `for (it = begin(); it != end(); ++it) *it`. -/
def toList (fuel : Nat) (w : World T) (self : ListObj) : Option (List T) :=
  for_each w (fun it => it.deref w) (end_ self) fuel (begin_ w self)

/-- The nodes of the list: the sentinel, then the nodes the iterators of the forward
traversal reference. -/
def nodes (fuel : Nat) (w : World T) (self : ListObj) : Option (List Nat) :=
  match for_each w (fun it => some it.node_) (end_ self) fuel (begin_ w self) with
  | none => none
  | some ns => some (self.root_ :: ns)

/-- The caller's loop `for (r = rbegin(); r != rend(); ++r) *r` over reverse iterators. -/
def rfor_each (w : World T) (last : ReverseIterator) : Nat → ReverseIterator → Option (List T)
  | fuel, r =>
    if r.ne last then
      match fuel with
      | 0 => none
      | fuel + 1 =>
        match r.deref w with
        | none => none
        | some b =>
          match rfor_each w last fuel (r.inc w) with
          | none => none
          | some bs => some (b :: bs)
    else some []

/-- The values visited by the reverse traversal from `rbegin()` to `rend()`. -/
def toListRev (fuel : Nat) (w : World T) (self : ListObj) : Option (List T) :=
  rfor_each w (rend w self) fuel (rbegin self)

/-- One call of the four end operations. -/
inductive Op (T : Type) where
  | push_back (v : T)
  | push_front (v : T)
  | pop_back
  | pop_front

/-- Applies one call to the object. -/
def Op.apply (E : Env T) (w : World T) (self : ListObj) : Op T → Outcome T ListObj
  | .push_back v => ListCpp.push_back E w self v
  | .push_front v => ListCpp.push_front E w self v
  | .pop_back => let r := ListCpp.pop_back w self; .ok r.1 r.2
  | .pop_front => let r := ListCpp.pop_front w self; .ok r.1 r.2

/-- Applies the calls in order; a throw ends the run. -/
def run (E : Env T) : List (Op T) → World T → ListObj → Outcome T ListObj
  | [], w, self => .ok self w
  | op :: ops, w, self =>
    match op.apply E w self with
    | .ok self1 w1 => run E ops w1 self1
    | .threw w1 => .threw w1

/-- The simulated sequence: the effect of one call on a plain sequence of values. -/
def Op.sim : Op T → List T → List T
  | .push_back v, xs => xs ++ [v]
  | .push_front v, xs => v :: xs
  | .pop_back, xs => xs.dropLast
  | .pop_front, xs => xs.drop 1

/-- The simulated sequence after a run of calls. -/
def simulate : List (Op T) → List T → List T
  | [], xs => xs
  | op :: ops, xs => simulate ops (op.sim xs)

/-- The number of pushes in a run of calls. -/
def pushes : List (Op T) → Nat
  | [] => 0
  | .push_back _ :: ops => pushes ops + 1
  | .push_front _ :: ops => pushes ops + 1
  | .pop_back :: ops => pushes ops
  | .pop_front :: ops => pushes ops

/-- The number of pops that removed an element, in a run of calls started with `n`
elements. -/
def removals : List (Op T) → Nat → Nat
  | [], _ => 0
  | .push_back _ :: ops, n => removals ops (n + 1)
  | .push_front _ :: ops, n => removals ops (n + 1)
  | .pop_back :: ops, 0 => removals ops 0
  | .pop_back :: ops, n + 1 => removals ops n + 1
  | .pop_front :: ops, 0 => removals ops 0
  | .pop_front :: ops, n + 1 => removals ops n + 1

/-- The `List` objects of a program by variable; `none` for a variable that names no
object. -/
abbrev Store := Nat → Option ListObj

/-- One statement of a program that uses `List` objects through the public members. -/
inductive Stmt (T : Type) where
  /-- The declaration `List x(alloc);`. -/
  | default (x : Nat) : Stmt T
  /-- The declaration `List x(count, value, alloc);`. -/
  | count_value (x : Nat) (count : Nat) (value : T) : Stmt T
  /-- The declaration `List x(count, alloc);`. -/
  | count (x : Nat) (count : Nat) : Stmt T
  /-- The declaration `List x(initializer, alloc);`. -/
  | init_list (x : Nat) (initializer : List T) : Stmt T
  /-- The declaration `List x(y);`. -/
  | copy (x y : Nat) : Stmt T
  /-- The assignment `x = y;`. -/
  | assign (x y : Nat) : Stmt T
  /-- One of the calls `x.push_back(v); x.push_front(v); x.pop_back(); x.pop_front();`. -/
  | call (x : Nat) (op : Op T) : Stmt T
  /-- The call `x.push_back();`. -/
  | push_back_default (x : Nat) : Stmt T
  /-- The end of the lifetime of `x`, which runs `~List()`. -/
  | destruct (x : Nat) : Stmt T

/-- Binds the object a constructor call returns to the variable `x`, which must not name
an object yet. -/
def declare (st : Store) (x : Nat) (r : Option (Outcome T ListObj)) :
    Option (Outcome T Store) :=
  match st x with
  | some _ => none
  | none =>
    match r with
    | none => none
    | some (.threw w) => some (.threw w)
    | some (.ok l w) => some (.ok (Function.update st x (some l)) w)

/-- Runs one statement. The result is `none` when the statement uses a variable that
names no object, declares one that does, or has no defined result. -/
def exec (E : Env T) (fuel : Nat) (st : Store) (w : World T) : Stmt T → Option (Outcome T Store)
  | .default x => declare st x (some (List_alloc E w))
  | .count_value x count value => declare st x (List_count_value E fuel w count value)
  | .count x count => declare st x (List_count E fuel w count)
  | .init_list x initializer => declare st x (List_init E fuel w initializer)
  | .copy x y =>
    match st y with
    | none => none
    | some other => declare st x (List_copy E fuel w other)
  | .assign x y =>
    match st x, st y with
    | some this, some other =>
      match ListCpp.assign E fuel w this (if x = y then .self else .distinct other) with
      | none => none
      | some (.threw w1) => some (.threw w1)
      | some (.ok this1 w1) => some (.ok (Function.update st x (some this1)) w1)
    | _, _ => none
  | .call x op =>
    match st x with
    | none => none
    | some self =>
      match op.apply E w self with
      | .threw w1 => some (.threw w1)
      | .ok self1 w1 => some (.ok (Function.update st x (some self1)) w1)
  | .push_back_default x =>
    match st x with
    | none => none
    | some self =>
      match ListCpp.push_back_default E w self with
      | .threw w1 => some (.threw w1)
      | .ok self1 w1 => some (.ok (Function.update st x (some self1)) w1)
  | .destruct x =>
    match st x with
    | none => none
    | some self =>
      match destroy fuel w self with
      | none => none
      | some (_, w1) => some (.ok (Function.update st x none) w1)

/-- Runs the statements in order; a throw ends the program. -/
def execs (E : Env T) (fuel : Nat) : List (Stmt T) → Store → World T → Option (Outcome T Store)
  | [], st, w => some (.ok st w)
  | s :: prog, st, w =>
    match exec E fuel st w s with
    | some (.ok st1 w1) => execs E fuel prog st1 w1
    | r => r

/-- The states a program can reach: it starts in any heap with no `List` object and runs
to the end of its statements. -/
def Reachable (E : Env T) (fuel : Nat) (st : Store) (w : World T) : Prop :=
  ∃ (prog : List (Stmt T)) (w0 : World T), execs E fuel prog (fun _ => none) w0 = some (.ok st w)

/-- The ring shape in terms of the successor and predecessor maps: from `a` the
successors run through `ns` to `z`, and the predecessors run back. -/
def LinkedF (nx pv : Nat → Nat) : Nat → List Nat → Nat → Prop
  | a, [], z => nx a = z ∧ pv z = a
  | a, b :: rest, z => nx a = b ∧ pv b = a ∧ LinkedF nx pv b rest z

/-- The nodes `ns` are linked in this order between `a` and `z` in the heap `w`. -/
def Linked (w : World T) (a : Nat) (ns : List Nat) (z : Nat) : Prop :=
  LinkedF (fun x => (w.cell x).next) (fun x => (w.cell x).prev) a ns z

/-- Well-formedness of a `List` object in a heap, with its data nodes `ns` in ring order
and their values `xs`: the sentinel and the data nodes are distinct allocated blocks,
linked into a ring through the sentinel; every data node holds a constructed value; and
`size_` is the number of data nodes. -/
structure Owns (w : World T) (l : ListObj) (ns : List Nat) (xs : List T) : Prop where
  nodup : (l.root_ :: ns).Nodup
  live : ∀ a ∈ l.root_ :: ns, a ∈ w.live
  lt : ∀ a ∈ l.root_ :: ns, a < 2 ^ SIZE_BITS
  linked : Linked w l.root_ ns l.root_
  vals : ns.map (fun a => (w.cell a).value) = xs.map some
  size : l.size_ = ns.length

/-- The blocks outstanding in `w` other than those in `S` are still outstanding in `w1`,
with the same content. -/
def Frame (S : List Nat) (w w1 : World T) : Prop :=
  ∀ a ∈ w.live, a ∉ S → a ∈ w1.live ∧ w1.cell a = w.cell a

/-- A step from heap `w`, where the object owns the blocks `S`, to heap `w1`, where it
owns `S1`: nothing outside `S` was touched and the blocks in `S1` are old ones of the
object or were not outstanding before. -/
def Ext (S : List Nat) (w : World T) (S1 : List Nat) (w1 : World T) : Prop :=
  Frame S w w1 ∧ ∀ a ∈ S1, a ∈ S ∨ a ∉ w.live

/-- The environment in which copying a value behaves the way constructing `T()` does in
`E`. -/
def Env.defaultAsCopy (E : Env T) : Env T :=
  { E with copyThrows := fun n _ => E.defaultThrows n }

/-- What a constructor call `r` started in heap `w` does: it returns a well-formed object
with the values `xs` in blocks that were not outstanding before, or it throws, or it has
no defined result because the fuel is below `bound`; in each case no block outstanding
before is touched. -/
def Built (w : World T) (r : Option (Outcome T ListObj)) (xs : List T) (bound fuel : Nat) :
    Prop :=
  (∃ l w1 ns, r = some (.ok l w1) ∧ Owns w1 l ns xs ∧ Ext [] w (l.root_ :: ns) w1) ∨
    (∃ w1, r = some (.threw w1) ∧ Ext [] w [] w1) ∨ (r = none ∧ fuel < bound)

/-- Every object of the store is well-formed and no two of them have a block in common;
`g x` lists the blocks of the object `x`. -/
def Inv (w : World T) (st : Store) : Prop :=
  ∃ g : Nat → List Nat,
    (∀ x, st x = none → g x = []) ∧
    (∀ x l, st x = some l → ∃ ns xs, g x = l.root_ :: ns ∧ Owns w l ns xs) ∧
    (∀ x y, x ≠ y → ∀ a ∈ g x, a ∉ g y)

/-- A heap with no allocated block. -/
def World.empty (T : Type) : World T :=
  { cell := fun _ => { value := none, next := 0, prev := 0 }, live := [], ctors := 0,
    log := [] }

/-- An allocator that hands out the address after the highest outstanding one, with a
value type whose copy constructor never throws. -/
def Env.bump (T : Type) (d : T) : Env T where
  pick live :=
    if live.foldr max 0 + 1 < 2 ^ SIZE_BITS then some (live.foldr max 0 + 1) else none
  pick_fresh := by
    intro live a h
    dsimp only at h
    split at h
    · cases h
      intro hmem
      have key : ∀ (l : List Nat) (x : Nat), x ∈ l → x ≤ l.foldr max 0 := by
        intro l
        induction l with
        | nil => simp
        | cons y ys ih =>
          intro x hx
          rcases List.mem_cons.mp hx with rfl | hx
          · simp
          · have := ih x hx
            simp only [List.foldr_cons]
            omega
      have := key live _ hmem
      omega
    · cases h
  pick_lt := by
    intro live a h
    dsimp only at h
    split at h
    · cases h; assumption
    · cases h
  copyThrows := fun _ _ => false
  dflt := d
  defaultThrows := fun _ => false

/-- The value a call returned, `d` when it threw. -/
def Outcome.obj {α : Type} (d : α) : Outcome T α → α
  | .ok a _ => a
  | .threw _ => d

/-- The heap a call left. -/
def Outcome.world {α : Type} : Outcome T α → World T
  | .ok _ w => w
  | .threw w => w

/-- Whether a call returned normally. -/
def Outcome.isOk {α : Type} : Outcome T α → Bool
  | .ok _ _ => true
  | .threw _ => false

/-- Whether a call has a defined result and returned normally. -/
def succeeded {α : Type} : Option (Outcome T α) → Bool
  | some r => r.isOk
  | none => false

/-- The value a call with a defined result returned, `d` otherwise. -/
def resultObj {α : Type} (d : α) : Option (Outcome T α) → α
  | some r => r.obj d
  | none => d

/-- The heap a call with a defined result left, `d` otherwise. -/
def resultWorld {α : Type} (d : World T) : Option (Outcome T α) → World T
  | some r => r.world
  | none => d

/-- The store a program ended with, the empty store when it did not end normally. -/
def finalStore : Option (Outcome T Store) → Store
  | some (.ok st _) => st
  | _ => fun _ => none

/-- The heap a program ended with, `d` when it has no defined result. -/
def finalWorld (d : World T) : Option (Outcome T Store) → World T
  | some r => r.world
  | none => d

/-- A sample environment over `Nat` values. -/
def sampleEnv : Env Nat := Env.bump Nat 0

/-- A sample program: `v0` is built from `{1, 2, 3}` and extended, `v1` holds two sevens
and is then assigned from `v0`, `v2` is a copy of `v0`, and `v3` is filled and emptied
again. -/
def sampleProg : List (Stmt Nat) :=
  [.init_list 0 [1, 2, 3], .call 0 (.push_front 0), .count_value 1 2 7, .assign 1 0,
    .copy 2 0, .call 2 .pop_back, .default 3, .call 3 (.push_back 9), .call 3 .pop_front]

/-- The outcome of the sample program in the empty heap. -/
def sampleRun : Option (Outcome Nat Store) :=
  execs sampleEnv 8 sampleProg (fun _ => none) (World.empty Nat)

/-- The store the sample program ends with. -/
def sampleStore : Store := resultObj (fun _ => none) sampleRun

/-- The heap the sample program ends with. -/
def sampleWorld : World Nat := resultWorld (World.empty Nat) sampleRun

/-- The outcome of `List v4(v0);` after the sample program. -/
def sampleCopy : Option (Outcome Nat Store) :=
  exec sampleEnv 8 sampleStore sampleWorld (.copy 4 0)

/-- A freshly constructed list in the empty heap. -/
def sampleFresh : Outcome Nat ListObj := List_alloc sampleEnv (World.empty Nat)

/-- A sample run of calls, with two pops that meet an empty list. -/
def sampleOps : List (Op Nat) :=
  [.push_back 1, .pop_front, .pop_back, .pop_front, .push_back 2, .push_front 0]

/-- The outcome of the sample calls on the fresh list. -/
def sampleCalls : Outcome Nat ListObj :=
  run sampleEnv sampleOps sampleFresh.world (sampleFresh.obj ⟨0, 0⟩)

/-- The outcome of `push_back(1)`, `push_back(2)`, `push_front(0)` on the fresh list. -/
def sampleScenario : Outcome Nat ListObj :=
  run sampleEnv [.push_back 1, .push_back 2, .push_front 0] sampleFresh.world
    (sampleFresh.obj ⟨0, 0⟩)

/-- The sample environment with a value type whose third construction throws. -/
def sampleThrowEnv : Env Nat :=
  { sampleEnv with copyThrows := fun n _ => n == 2 }

/-- The outcome of `insert(p, 9)` on the list `[0, 1, 2]` of `sampleScenario`, with `p`
the node at address 2, which holds the value 1. -/
def sampleInsert : Outcome Nat ListObj :=
  insert sampleEnv sampleScenario.world (sampleScenario.obj ⟨0, 0⟩) 2 9

/-- The outcome of `insert(p, 9)` on the list `[0, 1, 2, 3]` that `sampleProg` leaves in
the variable 0, with `p` the node at address 2, which holds the value 1. -/
def sampleInsertAt : Outcome Nat ListObj :=
  insert sampleEnv sampleWorld ⟨1, 4⟩ 2 9

/-- The outcome of `push_back(1)`, `push_back(2)` on the fresh list with the value type
whose third construction throws. -/
def sampleThrowCalls : Outcome Nat ListObj :=
  run sampleThrowEnv [.push_back 1, .push_back 2] sampleFresh.world (sampleFresh.obj ⟨0, 0⟩)

/-- Whether a call has a defined result and left by an exception. -/
def failed {α : Type} : Option (Outcome T α) → Bool
  | some (.threw _) => true
  | _ => false

/-- The sample environment with a value type whose sixth construction throws. -/
def sampleFailEnv : Env Nat :=
  { sampleEnv with copyThrows := fun n _ => n == 5 }

/-- A sample program for the value type of `sampleFailEnv`: `v0` is built from
`{1, 2, 3}` and `v1` holds one seven, which takes four constructions. -/
def sampleFailProg : List (Stmt Nat) :=
  [.init_list 0 [1, 2, 3], .count_value 1 1 7]

/-- The outcome of `sampleFailProg` in the empty heap. -/
def sampleFailRun : Option (Outcome Nat Store) :=
  execs sampleFailEnv 8 sampleFailProg (fun _ => none) (World.empty Nat)

/-- The store `sampleFailProg` ends with. -/
def sampleFailStore : Store := resultObj (fun _ => none) sampleFailRun

/-- The heap `sampleFailProg` ends with. -/
def sampleFailWorld : World Nat := resultWorld (World.empty Nat) sampleFailRun

/-- The blocks `node_traits::allocate` returned in a run of allocator calls, in order. -/
def allocations : List Event → List Nat
  | [] => []
  | .allocate p :: es => p :: allocations es
  | .deallocate _ :: es => allocations es
  | .destroy _ :: es => allocations es

/-- The blocks passed to `node_traits::deallocate` in a run of allocator calls, in order. -/
def deallocations : List Event → List Nat
  | [] => []
  | .allocate _ :: es => deallocations es
  | .deallocate p :: es => p :: deallocations es
  | .destroy _ :: es => deallocations es

/-- The blocks passed to `node_traits::destroy` in a run of allocator calls, in order. -/
def destructions : List Event → List Nat
  | [] => []
  | .allocate _ :: es => destructions es
  | .deallocate _ :: es => destructions es
  | .destroy p :: es => p :: destructions es

/-- A call that started in heap `w` and ended in `w1` left none of its own allocations
outstanding: the outstanding blocks are those of `w` with their contents, and among the
allocator calls it made every block it allocated was deallocated, no block twice. -/
def Released (w w1 : World T) : Prop :=
  w1.live = w.live ∧ (∀ a ∈ w.live, w1.cell a = w.cell a) ∧
    ∃ es, w1.log = w.log ++ es ∧ (deallocations es).Nodup ∧
      (allocations es).Perm (deallocations es)

/-- Pre-increment applied `k` times. -/
def ListIterator.advance (w : World T) : Nat → ListIterator → ListIterator
  | 0, it => it
  | k + 1, it => ListIterator.advance w k (it.inc w)

/-- Pre-decrement applied `k` times. -/
def ListIterator.retreat (w : World T) : Nat → ListIterator → ListIterator
  | 0, it => it
  | k + 1, it => ListIterator.retreat w k (it.dec w)

/-! ## Ring shape: splicing and unlinking -/

theorem LinkedF.congr {nx pv nx' pv' : Nat → Nat} :
    ∀ {ns : List Nat} {a z : Nat}, (∀ x ∈ a :: ns, nx' x = nx x) →
      (∀ x ∈ ns ++ [z], pv' x = pv x) → LinkedF nx pv a ns z → LinkedF nx' pv' a ns z
  | [], a, z, hn, hp, h => by
    simp only [LinkedF] at h ⊢
    rw [hn a (by simp), hp z (by simp)]
    exact h
  | b :: rest, a, z, hn, hp, h => by
    simp only [LinkedF] at h ⊢
    refine ⟨by rw [hn a (by simp)]; exact h.1, by rw [hp b (by simp)]; exact h.2.1, ?_⟩
    exact LinkedF.congr (fun x hx => hn x (List.mem_cons_of_mem _ hx))
      (fun x hx => hp x (by simp at hx ⊢; tauto)) h.2.2

theorem LinkedF_append {nx pv : Nat → Nat} :
    ∀ {l1 : List Nat} {a b : Nat} {l2 : List Nat} {z : Nat},
      LinkedF nx pv a (l1 ++ b :: l2) z ↔ LinkedF nx pv a l1 b ∧ LinkedF nx pv b l2 z
  | [], a, b, l2, z => by simp [LinkedF, and_assoc]
  | c :: l1, a, b, l2, z => by
    show (nx a = c ∧ pv c = a ∧ LinkedF nx pv c (l1 ++ b :: l2) z) ↔
      (nx a = c ∧ pv c = a ∧ LinkedF nx pv c l1 b) ∧ LinkedF nx pv b l2 z
    rw [@LinkedF_append nx pv l1, and_assoc, and_assoc]

theorem LinkedF.next_head {nx pv : Nat → Nat} {a z : Nat} {ns : List Nat}
    (h : LinkedF nx pv a ns z) : (ns ++ [z]).head? = some (nx a) := by
  cases ns with
  | nil => simp [LinkedF] at h ⊢; exact h.1.symm
  | cons b rest => simp [LinkedF] at h ⊢; exact h.1.symm

theorem LinkedF.prev_last {nx pv : Nat → Nat} :
    ∀ {ns : List Nat} {a z : Nat}, LinkedF nx pv a ns z → (a :: ns).getLast? = some (pv z)
  | [], a, z, h => by simp [LinkedF] at h ⊢; exact h.2.symm
  | b :: rest, a, z, h => by
    simp only [LinkedF] at h
    have := LinkedF.prev_last h.2.2
    rw [List.getLast?_cons_cons]
    exact this

/-- Splicing a new node `tmp` right after the first node of a segment. -/
theorem LinkedF.insert_head {nx pv : Nat → Nat} {a z tmp : Nat} {post : List Nat}
    (h : LinkedF nx pv a post z) (ha : a ∉ post) (ht : (post ++ [z]).Nodup)
    (htmp : tmp ∉ a :: (post ++ [z])) :
    LinkedF (fun x => if x = tmp then nx a else if x = a then tmp else nx x)
      (fun x => if x = nx a then tmp else if x = tmp then a else pv x) a (tmp :: post) z := by
  have hta : tmp ≠ a := fun e => htmp (by simp [e])
  cases post with
  | nil =>
    simp only [LinkedF] at h ⊢
    obtain ⟨h1, h2⟩ := h
    have htz : tmp ≠ z := fun e => htmp (by simp [e])
    subst h1
    simp [hta, Ne.symm hta, htz, Ne.symm htz]
  | cons b rest =>
    simp only [LinkedF] at h ⊢
    obtain ⟨h1, h2, h3⟩ := h
    have htb : tmp ≠ b := fun e => htmp (by simp [e])
    subst h1
    refine ⟨by simp [Ne.symm hta], by simp [htb], by simp, by simp, ?_⟩
    refine LinkedF.congr ?_ ?_ h3
    · intro x hx
      have hxt : x ≠ tmp := fun e => htmp (by subst e; simp at hx ⊢; tauto)
      have hxa : x ≠ a := fun e => ha (by subst e; simpa using hx)
      simp [hxt, hxa]
    · intro x hx
      have hxt : x ≠ tmp := fun e => htmp (by subst e; simp at hx ⊢; tauto)
      have hxb : x ≠ nx a := by
        intro e
        subst e
        simp only [List.cons_append, List.nodup_cons] at ht
        exact ht.1 hx
      simp [hxt, hxb]

/-- Splicing a new node `tmp` right after the node `node` of a ring segment. -/
theorem LinkedF.insert_after {nx pv : Nat → Nat} {a z tmp node : Nat} {pre post : List Nat}
    (h : LinkedF nx pv a (pre ++ post) z) (hs : (a :: (pre ++ post)).Nodup)
    (ht : (pre ++ post ++ [z]).Nodup) (hnode : (a :: pre).getLast? = some node)
    (htmp : tmp ∉ a :: (pre ++ post ++ [z])) :
    LinkedF (fun x => if x = tmp then nx node else if x = node then tmp else nx x)
      (fun x => if x = nx node then tmp else if x = tmp then node else pv x)
      a (pre ++ tmp :: post) z := by
  rcases List.eq_nil_or_concat pre with rfl | ⟨pre', p, rfl⟩
  · simp only [List.getLast?_singleton, Option.some.injEq] at hnode
    subst hnode
    simp only [List.nil_append] at h hs ht htmp ⊢
    exact LinkedF.insert_head h (by simp at hs; exact hs.1) ht htmp
  · simp only [List.concat_eq_append] at h hs ht htmp hnode ⊢
    have hp : p = node := by
      rw [← List.cons_append, List.getLast?_append] at hnode
      simpa using hnode
    subst hp
    simp only [List.append_assoc, List.singleton_append] at h hs ht htmp ⊢
    rw [LinkedF_append] at h ⊢
    obtain ⟨h1, h2⟩ := h
    have hnx := h2.next_head
    constructor
    · refine LinkedF.congr ?_ ?_ h1
      · intro x hx
        have hxt : x ≠ tmp := fun e => htmp (by subst e; simp at hx ⊢; tauto)
        have hxp : x ≠ p := by
          rintro rfl
          rw [← List.cons_append] at hs
          have := (List.nodup_append.mp hs).2.2
          exact this hx (by simp)
        simp [hxt, hxp]
      · intro x hx
        have hxt : x ≠ tmp := fun e => htmp (by subst e; simp at hx ⊢; tauto)
        have hxn : x ≠ nx p := by
          intro e
          have hmem : nx p ∈ post ++ [z] := List.mem_of_mem_head? hnx
          rw [← e] at hmem
          have hd := (List.nodup_append.mp ht).2.2
          simp only [List.mem_append, List.mem_singleton] at hx
          rcases hx with hx | hx
          · exact hd hx (by simp at hmem ⊢; tauto)
          · subst hx
            have hd2 : (x :: (post ++ [z])).Nodup := (List.nodup_append.mp ht).2.1
            exact (List.nodup_cons.mp hd2).1 hmem
        simp [hxt, hxn]
    · refine LinkedF.insert_head h2 ?_ ?_ ?_
      · have hd2 : (p :: (post ++ [z])).Nodup := (List.nodup_append.mp ht).2.1
        intro hm
        exact (List.nodup_cons.mp hd2).1 (by simp [hm])
      · have hd2 : (p :: (post ++ [z])).Nodup := (List.nodup_append.mp ht).2.1
        exact (List.nodup_cons.mp hd2).2
      · intro hm
        apply htmp
        simp at hm ⊢
        tauto

/-- Unlinking the node right after the first node of a segment. -/
theorem LinkedF.erase_head {nx pv : Nat → Nat} {a z node : Nat} {post : List Nat}
    (h : LinkedF nx pv a (node :: post) z) (ha : a ∉ post)
    (ht : (node :: (post ++ [z])).Nodup) :
    LinkedF (fun x => if x = pv node then nx node else nx x)
      (fun x => if x = nx node then pv node else pv x) a post z := by
  simp only [LinkedF] at h
  obtain ⟨h1, h2, h3⟩ := h
  cases post with
  | nil =>
    simp only [LinkedF] at h3 ⊢
    simp [h2, h3.1]
  | cons b rest =>
    simp only [LinkedF] at h3 ⊢
    obtain ⟨h4, h5, h6⟩ := h3
    refine ⟨by simp [h2, h4], by simp [h2, h4], ?_⟩
    refine LinkedF.congr ?_ ?_ h6
    · intro x hx
      have hxa : x ≠ pv node := by
        rw [h2]; rintro rfl; exact ha hx
      simp [hxa]
    · intro x hx
      have hxb : x ≠ nx node := by
        rw [h4]; rintro rfl
        simp only [List.cons_append, List.nodup_cons] at ht
        exact ht.2.1 hx
      simp [hxb]

/-- Unlinking the node `node` of a ring segment. -/
theorem LinkedF.erase {nx pv : Nat → Nat} {a z node : Nat} {pre post : List Nat}
    (h : LinkedF nx pv a (pre ++ node :: post) z) (hs : (a :: (pre ++ node :: post)).Nodup)
    (ht : (pre ++ node :: (post ++ [z])).Nodup) :
    LinkedF (fun x => if x = pv node then nx node else nx x)
      (fun x => if x = nx node then pv node else pv x) a (pre ++ post) z := by
  rcases List.eq_nil_or_concat pre with rfl | ⟨pre', p, rfl⟩
  · simp only [List.nil_append] at h hs ht ⊢
    refine LinkedF.erase_head h ?_ ht
    intro hm
    simp only [List.nodup_cons, List.mem_cons] at hs
    exact hs.1 (Or.inr hm)
  · simp only [List.concat_eq_append, List.append_assoc, List.singleton_append] at h hs ht ⊢
    rw [LinkedF_append] at h ⊢
    obtain ⟨h1, h2⟩ := h
    have hpv : pv node = p := by simp only [LinkedF] at h2; exact h2.2.1
    have hnx : nx node ∈ post ++ [z] := by
      simp only [LinkedF] at h2
      exact List.mem_of_mem_head? h2.2.2.next_head
    have ht2 : (p :: node :: (post ++ [z])).Nodup := (List.nodup_append.mp ht).2.1
    constructor
    · refine LinkedF.congr ?_ ?_ h1
      · intro x hx
        have hxp : x ≠ pv node := by
          rw [hpv]; rintro rfl
          rw [← List.cons_append] at hs
          exact (List.nodup_append.mp hs).2.2 hx (by simp)
        simp [hxp]
      · intro x hx
        have hxn : x ≠ nx node := by
          rintro rfl
          simp only [List.mem_append, List.mem_singleton] at hx
          rcases hx with hx | hx
          · exact (List.nodup_append.mp ht).2.2 hx (by simp at hnx ⊢; tauto)
          · subst hx
            have := (List.nodup_cons.mp ht2).1
            apply this
            simp at hnx ⊢; tauto
        simp [hxn]
    · refine LinkedF.erase_head h2 ?_ (List.nodup_cons.mp ht2).2
      intro hm
      exact (List.nodup_cons.mp ht2).1 (by simp [hm])

/-! ## Heap cells after each primitive step -/

theorem length_le_of_nodup_of_lt {l : List Nat} {N : Nat} (hd : l.Nodup)
    (hl : ∀ a ∈ l, a < N) : l.length ≤ N := by
  have hsub : l ⊆ List.range N := fun a ha => List.mem_range.mpr (hl a ha)
  have := (List.subperm_of_subset hd hsub).length_le
  simpa using this

section cells
variable (w : World T) (p n x : Nat)

theorem setNext_next : ((w.setNext p n).cell x).next = if x = p then n else (w.cell x).next := by
  unfold World.setNext; by_cases h : x = p <;> simp [Function.update_apply, h]

theorem setNext_prev : ((w.setNext p n).cell x).prev = (w.cell x).prev := by
  unfold World.setNext; by_cases h : x = p <;> simp [Function.update_apply, h]

theorem setNext_value : ((w.setNext p n).cell x).value = (w.cell x).value := by
  unfold World.setNext; by_cases h : x = p <;> simp [Function.update_apply, h]

theorem setPrev_prev : ((w.setPrev p n).cell x).prev = if x = p then n else (w.cell x).prev := by
  unfold World.setPrev; by_cases h : x = p <;> simp [Function.update_apply, h]

theorem setPrev_next : ((w.setPrev p n).cell x).next = (w.cell x).next := by
  unfold World.setPrev; by_cases h : x = p <;> simp [Function.update_apply, h]

theorem setPrev_value : ((w.setPrev p n).cell x).value = (w.cell x).value := by
  unfold World.setPrev; by_cases h : x = p <;> simp [Function.update_apply, h]

theorem destroyNode_next : ((destroyNode w p).cell x).next = (w.cell x).next := by
  unfold destroyNode; by_cases h : x = p <;> simp [Function.update_apply, h]

theorem destroyNode_prev : ((destroyNode w p).cell x).prev = (w.cell x).prev := by
  unfold destroyNode; by_cases h : x = p <;> simp [Function.update_apply, h]

theorem destroyNode_value :
    ((destroyNode w p).cell x).value = if x = p then none else (w.cell x).value := by
  unfold destroyNode; by_cases h : x = p <;> simp [Function.update_apply, h]

theorem deallocate_cell : (deallocate w p).cell = w.cell := rfl

theorem deallocate_live : (deallocate w p).live = w.live.filter (fun a => a != p) := rfl

theorem mem_deallocate : x ∈ (deallocate w p).live ↔ x ∈ w.live ∧ x ≠ p := by
  simp [deallocate]

theorem setNext_live : (w.setNext p n).live = w.live := rfl

theorem setPrev_live : (w.setPrev p n).live = w.live := rfl

theorem destroyNode_live : (destroyNode w p).live = w.live := rfl

end cells

/-- A cell is determined by its three members. -/
theorem Node.ext3 {a b : Node T} (h1 : a.next = b.next) (h2 : a.prev = b.prev)
    (h3 : a.value = b.value) : a = b := by
  cases a; cases b; simp_all

theorem init_ok {E : Env T} {w w1 : World T} {self : ListObj}
    (h : init E w = .ok self w1) :
    E.pick w.live = some self.root_ ∧ self.size_ = 0 ∧ w1.live = self.root_ :: w.live ∧
      (w1.cell self.root_).next = self.root_ ∧ (w1.cell self.root_).prev = self.root_ ∧
      ∀ x, x ≠ self.root_ → w1.cell x = w.cell x := by
  unfold init allocate at h
  cases hp : E.pick w.live with
  | none => simp [hp] at h
  | some root =>
    simp only [hp] at h
    injection h with h1 h2
    subst h1 h2
    refine ⟨rfl, rfl, rfl, ?_, ?_, ?_⟩
    · simp [setNext_next, setPrev_prev]
    · simp [setNext_prev, setPrev_prev]
    · intro x hx
      simp only at hx
      apply Node.ext3 <;> simp [setNext_next, setNext_prev, setNext_value, setPrev_prev,
        setPrev_next, setPrev_value, hx]

theorem insert_ok {E : Env T} {w w1 : World T} {self self1 : ListObj} {node : Nat} {v : T}
    (h : insert E w self node v = .ok self1 w1) :
    ∃ tmp, E.pick w.live = some tmp ∧
      self1 = { self with size_ := (self.size_ + 1) % 2 ^ SIZE_BITS } ∧
      w1.live = tmp :: w.live ∧
      (tmp ≠ node →
        (∀ x, (w1.cell x).next =
          if x = tmp then (w.cell node).next else if x = node then tmp else (w.cell x).next) ∧
        (∀ x, (w1.cell x).prev =
          if x = (w.cell node).next then tmp else if x = tmp then node else (w.cell x).prev) ∧
        (∀ x, (w1.cell x).value = if x = tmp then some v else (w.cell x).value)) := by
  unfold insert allocate at h
  cases hp : E.pick w.live with
  | none => simp [hp] at h
  | some tmp =>
    simp only [hp, construct] at h
    by_cases hc : E.copyThrows w.ctors v = true
    · simp [hc] at h
    · simp only [hc, if_false, Bool.false_eq_true] at h
      injection h with h1 h2
      subst h1 h2
      refine ⟨tmp, rfl, rfl, rfl, ?_⟩
      intro hne
      have hne' : node ≠ tmp := Ne.symm hne
      have htn : ∀ y, ((Function.update w.cell tmp
          { value := some v, next := (w.cell node).next, prev := node } : Nat → Node T) y) =
          if y = tmp then { value := some v, next := (w.cell node).next, prev := node }
          else w.cell y := fun y => by rw [Function.update_apply]
      refine ⟨?_, ?_, ?_⟩
      · intro x
        simp only [setPrev_next, setNext_next, htn]
        by_cases h1 : x = tmp
        · subst h1; simp [hne]
        · by_cases h2 : x = node
          · subst h2; simp [h1]
          · simp [h1, h2]
      · intro x
        simp only [setPrev_prev, setNext_prev, setNext_next, htn, if_neg hne, if_true]
        by_cases h1 : x = (w.cell node).next
        · simp [h1]
        · by_cases h2 : x = tmp
          · subst h2; simp [h1]
          · simp [h1, h2]
      · intro x
        simp only [setPrev_value, setNext_value, htn]
        by_cases h1 : x = tmp
        · subst h1; simp
        · simp [h1]

theorem del_eq {w : World T} {self : ListObj} {node : Nat} (hr : node ≠ self.root_)
    (hn : (w.cell node).next ≠ node) :
    (del w self node).1 =
        { self with size_ := (self.size_ + 2 ^ SIZE_BITS - 1) % 2 ^ SIZE_BITS } ∧
      (del w self node).2.live = w.live.filter (fun a => a != node) ∧
      (∀ x, ((del w self node).2.cell x).next =
        if x = (w.cell node).prev then (w.cell node).next else (w.cell x).next) ∧
      (∀ x, ((del w self node).2.cell x).prev =
        if x = (w.cell node).next then (w.cell node).prev else (w.cell x).prev) ∧
      (∀ x, ((del w self node).2.cell x).value =
        if x = node then none else (w.cell x).value) ∧
      (del w self node).2.ctors = w.ctors := by
  unfold del
  simp only [hr, if_false]
  have hn' : node ≠ (w.cell node).next := Ne.symm hn
  refine ⟨trivial, rfl, ?_, ?_, ?_, rfl⟩
  · intro x
    simp only [deallocate_cell, destroyNode_next, setNext_next, setPrev_next, setPrev_prev,
      if_neg hn']
  · intro x
    simp only [deallocate_cell, destroyNode_prev, setNext_prev, setPrev_prev]
  · intro x
    simp only [deallocate_cell, destroyNode_value, setNext_value, setPrev_value]

/-! ## Well-formed objects: framing -/

theorem Linked.of_same_cells {w w1 : World T} {a z : Nat} {ns : List Nat}
    (hc : ∀ x ∈ a :: (ns ++ [z]), w1.cell x = w.cell x) (h : Linked w a ns z) :
    Linked w1 a ns z := by
  unfold Linked at h ⊢
  refine LinkedF.congr ?_ ?_ h
  · intro x hx
    rw [hc x (by simp at hx ⊢; tauto)]
  · intro x hx
    rw [hc x (by simp at hx ⊢; tauto)]

theorem Owns.frame {w w1 : World T} {self : ListObj} {ns : List Nat} {xs : List T}
    (h : Owns w self ns xs)
    (hf : ∀ a ∈ self.root_ :: ns, a ∈ w1.live ∧ w1.cell a = w.cell a) :
    Owns w1 self ns xs where
  nodup := h.nodup
  live := fun a ha => (hf a ha).1
  lt := h.lt
  linked := by
    refine Linked.of_same_cells ?_ h.linked
    intro x hx
    exact (hf x (by simp at hx ⊢; tauto)).2
  vals := by
    rw [← h.vals]
    apply List.map_congr_left
    intro a ha
    rw [(hf a (List.mem_cons_of_mem _ ha)).2]
  size := h.size

theorem Owns.of_frame {S : List Nat} {w w1 : World T} {self : ListObj} {ns : List Nat}
    {xs : List T} (h : Owns w self ns xs) (hf : Frame S w w1)
    (hd : ∀ a ∈ self.root_ :: ns, a ∉ S) : Owns w1 self ns xs :=
  h.frame fun a ha => hf a (h.live a ha) (hd a ha)

theorem Frame.same (S : List Nat) (w : World T) : Frame S w w :=
  fun _ ha _ => ⟨ha, rfl⟩

theorem Frame.mono {S S1 : List Nat} {w w1 : World T} (h : Frame S w w1)
    (hs : ∀ a ∈ S, a ∈ S1) : Frame S1 w w1 :=
  fun a ha hn => h a ha (fun hm => hn (hs a hm))

theorem Ext.refl (S : List Nat) (w : World T) : Ext S w S w :=
  ⟨Frame.same S w, fun _ ha => Or.inl ha⟩

theorem Ext.trans {S S1 S2 : List Nat} {w w1 w2 : World T} (h1 : Ext S w S1 w1)
    (h2 : Ext S1 w1 S2 w2) : Ext S w S2 w2 := by
  constructor
  · intro a ha hn
    obtain ⟨hl, hc⟩ := h1.1 a ha hn
    have hn1 : a ∉ S1 := by
      intro hm
      rcases h1.2 a hm with h | h
      · exact hn h
      · exact h ha
    obtain ⟨hl2, hc2⟩ := h2.1 a hl hn1
    exact ⟨hl2, hc2.trans hc⟩
  · intro a ha
    rcases h2.2 a ha with h | h
    · exact h1.2 a h
    · by_cases hs : a ∈ S
      · exact Or.inl hs
      · right
        intro hl
        exact h (h1.1 a hl hs).1

theorem Ext.mono_left {S S0 S1 : List Nat} {w w1 : World T} (h : Ext S w S1 w1)
    (hs : ∀ a ∈ S, a ∈ S0) : Ext S0 w S1 w1 :=
  ⟨h.1.mono hs, fun a ha => (h.2 a ha).imp (hs a) id⟩

theorem Ext.mono_right {S S1 S2 : List Nat} {w w1 : World T} (h : Ext S w S1 w1)
    (hs : ∀ a ∈ S2, a ∈ S1) : Ext S w S2 w1 :=
  ⟨h.1, fun a ha => h.2 a (hs a ha)⟩

/-- An object that lives beside the one a step works on stays well-formed and stays
disjoint from it. -/
theorem Owns.of_ext {S S1 : List Nat} {w w1 : World T} {self : ListObj} {ns : List Nat}
    {xs : List T} (h : Owns w self ns xs) (he : Ext S w S1 w1)
    (hd : ∀ a ∈ self.root_ :: ns, a ∉ S) :
    Owns w1 self ns xs ∧ ∀ a ∈ self.root_ :: ns, a ∉ S1 := by
  refine ⟨h.of_frame he.1 hd, ?_⟩
  intro a ha hm
  rcases he.2 a hm with h1 | h1
  · exact hd a ha h1
  · exact h1 (h.live a ha)

theorem Owns.targets_nodup {w : World T} {self : ListObj} {ns : List Nat} {xs : List T}
    (h : Owns w self ns xs) : (ns ++ [self.root_]).Nodup := by
  have := h.nodup
  rw [← List.singleton_append] at this
  exact List.nodup_append_comm.mp this

theorem Owns.length_lt {w : World T} {self : ListObj} {ns : List Nat} {xs : List T}
    (h : Owns w self ns xs) : ns.length < 2 ^ SIZE_BITS := by
  have := length_le_of_nodup_of_lt h.nodup h.lt
  simp only [List.length_cons] at this
  omega

theorem Owns.length_eq {w : World T} {self : ListObj} {ns : List Nat} {xs : List T}
    (h : Owns w self ns xs) : xs.length = ns.length := by
  have := congrArg List.length h.vals
  simpa using this.symm

/-! ## The empty ring -/

theorem Owns.init_spec {E : Env T} {w w1 : World T} {self : ListObj}
    (h : init E w = .ok self w1) :
    Owns w1 self [] [] ∧ Ext [] w [self.root_] w1 ∧ w1.live = self.root_ :: w.live := by
  obtain ⟨hp, hs, hl, hn, hv, hc⟩ := init_ok h
  have hfresh := E.pick_fresh _ _ hp
  refine ⟨⟨by simp, ?_, ?_, ?_, by simp, by simp [hs]⟩, ⟨?_, ?_⟩, hl⟩
  · intro a ha
    simp only [List.mem_singleton] at ha
    subst ha
    simp [hl]
  · intro a ha
    simp only [List.mem_singleton] at ha
    subst ha
    exact E.pick_lt _ _ hp
  · simp only [Linked, LinkedF]
    exact ⟨hn, hv⟩
  · intro a ha _
    refine ⟨by simp [hl, ha], hc a ?_⟩
    rintro rfl
    exact hfresh ha
  · intro a ha
    simp only [List.mem_singleton] at ha
    subst ha
    exact Or.inr hfresh

/-! ## Insertion and removal on a well-formed object -/

theorem vals_split {w : World T} {pre post : List Nat} {xpre xpost : List T}
    (h : (pre ++ post).map (fun a => (w.cell a).value) = (xpre ++ xpost).map some)
    (hl : xpre.length = pre.length) :
    pre.map (fun a => (w.cell a).value) = xpre.map some ∧
      post.map (fun a => (w.cell a).value) = xpost.map some := by
  rw [List.map_append, List.map_append] at h
  exact List.append_inj h (by simp [hl])

theorem Owns.insert_spec {E : Env T} {w w1 : World T} {self self1 : ListObj} {node : Nat} {v : T}
    (pre post : List Nat) (xpre xpost : List T)
    (ho : Owns w self (pre ++ post) (xpre ++ xpost)) (hlen : xpre.length = pre.length)
    (hnode : (self.root_ :: pre).getLast? = some node)
    (h : insert E w self node v = .ok self1 w1) :
    ∃ tmp, tmp ∉ w.live ∧ w1.live = tmp :: w.live ∧ self1.root_ = self.root_ ∧
      Owns w1 self1 (pre ++ tmp :: post) (xpre ++ v :: xpost) ∧
      (∀ x, x ∉ self.root_ :: (pre ++ post) → x ≠ tmp → w1.cell x = w.cell x) ∧
      (∀ x, x ≠ tmp → (w1.cell x).value = (w.cell x).value) := by
  obtain ⟨tmp, hp, hs1, hl, hcells⟩ := insert_ok h
  have hfresh := E.pick_fresh _ _ hp
  have hnode_mem : node ∈ self.root_ :: (pre ++ post) := by
    have := List.mem_of_mem_getLast? hnode
    simp at this ⊢; tauto
  have htn : tmp ≠ node := by
    rintro rfl
    exact hfresh (ho.live _ hnode_mem)
  obtain ⟨hnx, hpv, hval⟩ := hcells htn
  have htmp : tmp ∉ self.root_ :: (pre ++ post ++ [self.root_]) := by
    intro hm
    apply hfresh
    apply ho.live
    simp at hm ⊢; tauto
  have hlk := @LinkedF.insert_after _ _ _ _ tmp _ _ _ ho.linked ho.nodup ho.targets_nodup hnode htmp
  have hnxt_mem : (w.cell node).next ∈ self.root_ :: (pre ++ post) := by
    have h2 := ho.linked
    unfold Linked at h2
    rcases List.eq_nil_or_concat pre with rfl | ⟨pre', p, rfl⟩
    · simp only [List.getLast?_singleton, Option.some.injEq] at hnode
      subst hnode
      have := List.mem_of_mem_head? h2.next_head
      simp at this ⊢; tauto
    · simp only [List.concat_eq_append] at hnode h2 ⊢
      have hp' : p = node := by
        rw [← List.cons_append, List.getLast?_append] at hnode
        simpa using hnode
      subst hp'
      rw [List.append_assoc, List.singleton_append, LinkedF_append] at h2
      have := List.mem_of_mem_head? h2.2.next_head
      simp at this ⊢; tauto
  have hperm : (self.root_ :: (pre ++ tmp :: post)).Perm (tmp :: self.root_ :: (pre ++ post)) :=
    (List.Perm.cons _ List.perm_middle).trans (List.Perm.swap _ _ _)
  have hnd : (tmp :: self.root_ :: (pre ++ post)).Nodup :=
    List.nodup_cons.mpr ⟨fun hm => hfresh (ho.live _ hm), ho.nodup⟩
  have hlt : ∀ a ∈ tmp :: self.root_ :: (pre ++ post), a < 2 ^ SIZE_BITS := by
    intro a ha
    rcases List.mem_cons.mp ha with rfl | ha
    · exact E.pick_lt _ _ hp
    · exact ho.lt a ha
  have hsz := length_le_of_nodup_of_lt hnd hlt
  simp only [List.length_cons, List.length_append] at hsz
  obtain ⟨hv1, hv2⟩ := vals_split ho.vals hlen
  have hroot : self1.root_ = self.root_ := by rw [hs1]
  refine ⟨tmp, hfresh, hl, hroot, ⟨?_, ?_, ?_, ?_, ?_, ?_⟩, ?_, ?_⟩
  · rw [hroot]; exact hperm.nodup_iff.mpr hnd
  · intro a ha
    rw [hroot] at ha
    have := hperm.mem_iff.mp ha
    rw [hl]
    rcases List.mem_cons.mp this with rfl | hm
    · simp
    · exact List.mem_cons_of_mem _ (ho.live a hm)
  · intro a ha
    rw [hroot] at ha
    exact hlt a (hperm.mem_iff.mp ha)
  · rw [hroot]
    unfold Linked
    refine LinkedF.congr ?_ ?_ hlk
    · intro x _; exact hnx x
    · intro x _; exact hpv x
  · rw [List.map_append, List.map_append, List.map_cons, List.map_cons, hval tmp, if_pos rfl,
      ← hv1, ← hv2]
    congr 1
    · apply List.map_congr_left
      intro a ha
      rw [hval a, if_neg]
      rintro rfl
      exact hfresh (ho.live _ (by simp [ha]))
    · congr 1
      apply List.map_congr_left
      intro a ha
      rw [hval a, if_neg]
      rintro rfl
      exact hfresh (ho.live _ (by simp [ha]))
  · rw [hs1]
    simp only [List.length_append, List.length_cons]
    rw [ho.size, List.length_append, Nat.mod_eq_of_lt (by omega)]
    omega
  · intro x hx hxt
    have hxn : x ≠ node := fun e => hx (e ▸ hnode_mem)
    have hxn2 : x ≠ (w.cell node).next := fun e => hx (e ▸ hnxt_mem)
    apply Node.ext3
    · rw [hnx x, if_neg hxt, if_neg hxn]
    · rw [hpv x, if_neg hxn2, if_neg hxt]
    · rw [hval x, if_neg hxt]
  · intro x hxt
    rw [hval x, if_neg hxt]

theorem Owns.del_spec {w : World T} {self : ListObj} {node : Nat} {x : T}
    (pre post : List Nat) (xpre xpost : List T)
    (ho : Owns w self (pre ++ node :: post) (xpre ++ x :: xpost))
    (hlen : xpre.length = pre.length) :
    Owns (del w self node).2 (del w self node).1 (pre ++ post) (xpre ++ xpost) ∧
      (del w self node).2.live = w.live.filter (fun a => a != node) ∧
      (del w self node).1.root_ = self.root_ ∧
      (∀ y, y ∉ self.root_ :: (pre ++ node :: post) →
        ((del w self node).2.cell y) = w.cell y) ∧
      (∀ y, y ≠ node → ((del w self node).2.cell y).value = (w.cell y).value) ∧
      (del w self node).2.ctors = w.ctors := by
  have hnd := ho.nodup
  have htn := ho.targets_nodup
  have hlk := ho.linked
  unfold Linked at hlk
  have hr : node ≠ self.root_ := by
    rintro rfl
    simp at hnd
  have hlk2 := (LinkedF_append.mp hlk).2
  have hnxt_mem : (w.cell node).next ∈ post ++ [self.root_] :=
    List.mem_of_mem_head? hlk2.next_head
  have hprev_mem : (w.cell node).prev ∈ self.root_ :: pre := by
    have h1 := (LinkedF_append.mp hlk).1
    have := List.mem_of_mem_getLast? h1.prev_last
    exact this
  have htn2 : (node :: (post ++ [self.root_])).Nodup := by
    rw [List.append_assoc, List.cons_append] at htn
    exact (List.nodup_append.mp htn).2.1
  have hn : (w.cell node).next ≠ node := by
    intro e
    rw [e] at hnxt_mem
    exact (List.nodup_cons.mp htn2).1 hnxt_mem
  obtain ⟨h1, h2, hnx, hpv, hval, hct⟩ := @del_eq T w self node hr hn
  have hroot : (ListCpp.del w self node).1.root_ = self.root_ := by rw [h1]
  obtain ⟨hv1, hv2⟩ := vals_split ho.vals hlen
  rw [List.map_cons, List.map_cons] at hv2
  have hv3 := (List.cons_eq_cons.mp hv2).2
  have hnode_pre : node ∉ pre := by
    intro hm
    have := (List.nodup_append.mp (List.nodup_cons.mp hnd).2).2.2
    exact this hm (by simp)
  have hnode_post : node ∉ post := by
    intro hm
    exact (List.nodup_cons.mp htn2).1 (by simp [hm])
  have hsub : ∀ a, a ∈ self.root_ :: (pre ++ post) → a ∈ self.root_ :: (pre ++ node :: post) := by
    intro a ha
    simp at ha ⊢; tauto
  have hne : ∀ a, a ∈ self.root_ :: (pre ++ post) → a ≠ node := by
    intro a ha e
    subst e
    rcases List.mem_cons.mp ha with e | hm
    · exact hr e
    · rcases List.mem_append.mp hm with hm | hm
      · exact hnode_pre hm
      · exact hnode_post hm
  have hlen2 := ho.length_lt
  refine ⟨⟨?_, ?_, ?_, ?_, ?_, ?_⟩, h2, hroot, ?_, ?_, hct⟩
  · rw [hroot]
    refine hnd.sublist ?_
    exact List.Sublist.cons₂ _ (List.Sublist.append_left (List.sublist_cons_self _ _) _)
  · intro a ha
    rw [hroot] at ha
    rw [h2]
    exact List.mem_filter.mpr ⟨ho.live a (hsub a ha), by simpa using hne a ha⟩
  · intro a ha
    rw [hroot] at ha
    exact ho.lt a (hsub a ha)
  · rw [hroot]
    unfold Linked
    have := LinkedF.erase hlk hnd (by simpa using htn)
    refine LinkedF.congr ?_ ?_ this
    · intro y _; exact hnx y
    · intro y _; exact hpv y
  · rw [List.map_append, List.map_append, ← hv1, ← hv3]
    congr 1
    · apply List.map_congr_left
      intro a ha
      rw [hval a, if_neg]
      exact hne a (by simp [ha])
    · apply List.map_congr_left
      intro a ha
      rw [hval a, if_neg]
      exact hne a (by simp [ha])
  · rw [h1]
    simp only [List.length_append]
    rw [ho.size]
    simp only [List.length_append, List.length_cons] at hlen2 ⊢
    have : pre.length + (post.length + 1) + 2 ^ SIZE_BITS - 1 =
        (pre.length + post.length) + 2 ^ SIZE_BITS := by omega
    rw [this, Nat.add_mod_right, Nat.mod_eq_of_lt (by omega)]
  · intro y hy
    have hy1 : y ≠ node := fun e => hy (by subst e; simp)
    have hy2 : y ≠ (w.cell node).next := by
      intro e
      apply hy
      rw [e]
      simp at hnxt_mem ⊢; tauto
    have hy3 : y ≠ (w.cell node).prev := by
      intro e
      apply hy
      rw [e]
      simp at hprev_mem ⊢; tauto
    apply Node.ext3
    · rw [hnx y, if_neg hy3]
    · rw [hpv y, if_neg hy2]
    · rw [hval y, if_neg hy1]
  · intro y hy
    rw [hval y, if_neg hy]

/-! ## Traversals of a well-formed object -/

theorem for_each_linked {β : Type} (w : World T) (visit : ListIterator → Option β) :
    ∀ (ns : List Nat) (bs : List β) (a z fuel : Nat), Linked w a ns z → z ∉ ns →
      ns.length ≤ fuel → ns.map (fun x => visit { node_ := x }) = bs.map some →
      for_each w visit { node_ := z } fuel { node_ := (w.cell a).next } = some bs
  | [], bs, a, z, fuel, hl, _, _, hv => by
    simp only [Linked, LinkedF] at hl
    cases bs with
    | nil =>
      unfold for_each
      simp [ListIterator.ne, hl.1]
    | cons b bs => simp at hv
  | n :: ns, bs, a, z, fuel, hl, hz, hf, hv => by
    simp only [Linked, LinkedF] at hl
    cases bs with
    | nil => simp at hv
    | cons b bs =>
      simp only [List.map_cons, List.cons.injEq] at hv
      cases fuel with
      | zero => simp at hf
      | succ fuel =>
        have hne : n ≠ z := fun e => hz (by simp [e])
        have ih := for_each_linked w visit ns bs n z fuel hl.2.2
          (fun hm => hz (List.mem_cons_of_mem _ hm)) (by simpa using hf) hv.2
        unfold for_each
        simp only [ListIterator.ne, hl.1, bne_iff_ne, ne_eq, hne, not_false_eq_true, if_true,
          hv.1, ListIterator.inc, ih]

theorem rfor_each_linked (w : World T) (a : Nat) :
    ∀ (ns : List Nat) (bs : List T) (z fuel : Nat), Linked w a ns z → (ns ++ [z]).Nodup →
      ns.length ≤ fuel → ns.map (fun x => (w.cell x).value) = bs.map some →
      rfor_each w { current := { node_ := (w.cell a).next } } fuel
        { current := { node_ := z } } = some bs.reverse := by
  intro ns
  induction ns using List.reverseRecOn with
  | nil =>
    intro bs z fuel hl _ _ hv
    simp only [Linked, LinkedF] at hl
    cases bs with
    | nil =>
      unfold rfor_each
      simp [ReverseIterator.ne, ListIterator.ne, hl.1]
    | cons b bs => simp at hv
  | append_singleton ms m ih =>
    intro bs z fuel hl hnd hf hv
    unfold Linked at hl
    have hhead := hl.next_head
    rw [LinkedF_append] at hl
    obtain ⟨hl1, hl2⟩ := hl
    simp only [LinkedF] at hl2
    rcases List.eq_nil_or_concat bs with rfl | ⟨bs', b, rfl⟩
    · simp at hv
    · simp only [List.concat_eq_append, List.map_append, List.map_cons, List.map_nil] at hv
      obtain ⟨hv1, hv2⟩ := List.append_inj' hv (by simp)
      simp only [List.cons.injEq, and_true] at hv2
      cases fuel with
      | zero => simp at hf
      | succ fuel =>
        have hne : z ≠ (w.cell a).next := by
          intro e
          have hm : (w.cell a).next ∈ ms ++ [m] := by
            cases ms with
            | nil => simp at hhead ⊢; exact hhead.symm
            | cons c cs => simp at hhead ⊢; left; exact hhead.symm
          rw [← e] at hm
          exact (List.nodup_append.mp hnd).2.2 hm (by simp)
        have ih' := ih bs' m fuel hl1 (List.nodup_append.mp hnd).1
          (by simp at hf; omega) hv1
        unfold rfor_each
        simp only [ReverseIterator.ne, ListIterator.ne, bne_iff_ne, ne_eq, hne,
          not_false_eq_true, if_true, ReverseIterator.deref, ListIterator.dec,
          ListIterator.deref, hl2.2, hv2, ReverseIterator.inc, ih', List.concat_eq_append,
          List.reverse_append, List.reverse_cons, List.reverse_nil, List.nil_append,
          List.singleton_append]

theorem Owns.toList_eq {w : World T} {self : ListObj} {ns : List Nat} {xs : List T}
    (h : Owns w self ns xs) {fuel : Nat} (hf : self.size_ ≤ fuel) :
    toList fuel w self = some xs := by
  unfold toList begin_ end_
  exact for_each_linked w _ ns xs _ _ fuel h.linked (List.nodup_cons.mp h.nodup).1
    (by rw [← h.size]; exact hf) h.vals

theorem Owns.nodes_eq {w : World T} {self : ListObj} {ns : List Nat} {xs : List T}
    (h : Owns w self ns xs) {fuel : Nat} (hf : self.size_ ≤ fuel) :
    nodes fuel w self = some (self.root_ :: ns) := by
  unfold nodes begin_ end_
  rw [for_each_linked w _ ns ns _ _ fuel h.linked (List.nodup_cons.mp h.nodup).1
    (by rw [← h.size]; exact hf) (by simp)]

theorem Owns.toListRev_eq {w : World T} {self : ListObj} {ns : List Nat} {xs : List T}
    (h : Owns w self ns xs) {fuel : Nat} (hf : self.size_ ≤ fuel) :
    toListRev fuel w self = some xs.reverse := by
  unfold toListRev rbegin rend begin_ end_
  exact rfor_each_linked w _ ns xs _ fuel h.linked h.targets_nodup
    (by rw [← h.size]; exact hf) h.vals

theorem Owns.front_eq {w : World T} {self : ListObj} {n : Nat} {ns : List Nat} {x : T}
    {xs : List T} (h : Owns w self (n :: ns) (x :: xs)) : front w self = some x := by
  have hl := h.linked
  simp only [Linked, LinkedF] at hl
  have hv := h.vals
  simp only [List.map_cons, List.cons.injEq] at hv
  unfold front
  rw [hl.1, hv.1]

theorem Owns.back_eq {w : World T} {self : ListObj} {n : Nat} {ns : List Nat} {x : T}
    {xs : List T} (h : Owns w self (ns ++ [n]) (xs ++ [x])) : back w self = some x := by
  have hl := h.linked
  unfold Linked at hl
  have hp := hl.prev_last
  rw [← List.cons_append, List.getLast?_append] at hp
  simp only [List.getLast?_singleton, Option.or_some, Option.some.injEq] at hp
  have hp : n = (w.cell self.root_).prev := by simpa [Option.or] using hp
  have hv := h.vals
  simp only [List.map_append, List.map_cons, List.map_nil] at hv
  obtain ⟨_, hv2⟩ := List.append_inj' hv (by simp)
  simp only [List.cons.injEq, and_true] at hv2
  unfold back
  rw [← hp, hv2]

/-! ## The four end operations -/

theorem Owns.insert_ext {E : Env T} {w w1 : World T} {self self1 : ListObj} {node : Nat}
    {v : T} (pre post : List Nat) (xpre xpost : List T)
    (ho : Owns w self (pre ++ post) (xpre ++ xpost)) (hlen : xpre.length = pre.length)
    (hnode : (self.root_ :: pre).getLast? = some node)
    (h : insert E w self node v = .ok self1 w1) :
    ∃ tmp, tmp ∉ w.live ∧ w1.live = tmp :: w.live ∧ self1.root_ = self.root_ ∧
      Owns w1 self1 (pre ++ tmp :: post) (xpre ++ v :: xpost) ∧
      Ext (self.root_ :: (pre ++ post)) w (self1.root_ :: (pre ++ tmp :: post)) w1 := by
  obtain ⟨tmp, hfresh, hl, hroot, ho1, hc, _⟩ := Owns.insert_spec pre post xpre xpost ho hlen hnode h
  refine ⟨tmp, hfresh, hl, hroot, ho1, ?_, ?_⟩
  · intro a ha hn
    refine ⟨by rw [hl]; exact List.mem_cons_of_mem _ ha, hc a hn ?_⟩
    rintro rfl
    exact hfresh ha
  · intro a ha
    rw [hroot] at ha
    by_cases hat : a = tmp
    · right; rw [hat]; exact hfresh
    · left
      simp at ha ⊢; tauto

theorem Owns.del_ext {w : World T} {self : ListObj} {node : Nat} {x : T}
    (pre post : List Nat) (xpre xpost : List T)
    (ho : Owns w self (pre ++ node :: post) (xpre ++ x :: xpost))
    (hlen : xpre.length = pre.length) :
    Ext (self.root_ :: (pre ++ node :: post)) w
      ((del w self node).1.root_ :: (pre ++ post)) (del w self node).2 := by
  obtain ⟨_, hl, hroot, hc, _⟩ := Owns.del_spec pre post xpre xpost ho hlen
  constructor
  · intro a ha hn
    refine ⟨?_, hc a hn⟩
    rw [hl]
    refine List.mem_filter.mpr ⟨ha, ?_⟩
    simp only [bne_iff_ne, ne_eq]
    rintro rfl
    exact hn (by simp)
  · intro a ha
    rw [hroot] at ha
    left
    simp at ha ⊢; tauto

theorem Owns.push_front_spec {E : Env T} {w w1 : World T} {self self1 : ListObj} {v : T}
    {ns : List Nat} {xs : List T} (ho : Owns w self ns xs)
    (h : push_front E w self v = .ok self1 w1) :
    ∃ tmp, tmp ∉ w.live ∧ w1.live = tmp :: w.live ∧ self1.root_ = self.root_ ∧
      Owns w1 self1 (tmp :: ns) (v :: xs) ∧
      Ext (self.root_ :: ns) w (self1.root_ :: tmp :: ns) w1 :=
  Owns.insert_ext [] ns [] xs ho rfl rfl h

theorem Owns.push_back_spec {E : Env T} {w w1 : World T} {self self1 : ListObj} {v : T}
    {ns : List Nat} {xs : List T} (ho : Owns w self ns xs)
    (h : push_back E w self v = .ok self1 w1) :
    ∃ tmp, tmp ∉ w.live ∧ w1.live = tmp :: w.live ∧ self1.root_ = self.root_ ∧
      Owns w1 self1 (ns ++ [tmp]) (xs ++ [v]) ∧
      Ext (self.root_ :: ns) w (self1.root_ :: (ns ++ [tmp])) w1 := by
  have hp := ho.linked.prev_last
  have ho' : Owns w self (ns ++ []) (xs ++ []) := by simpa using ho
  have := Owns.insert_ext (E := E) (v := v) ns [] xs [] ho' ho.length_eq hp h
  simpa using this

theorem Owns.pop_front_nil {w : World T} {self : ListObj} {xs : List T}
    (ho : Owns w self [] xs) : pop_front w self = (self, w) := by
  have hl := ho.linked
  simp only [Linked, LinkedF] at hl
  unfold pop_front del
  simp [hl.1]

theorem Owns.pop_back_nil {w : World T} {self : ListObj} {xs : List T}
    (ho : Owns w self [] xs) : pop_back w self = (self, w) := by
  have hl := ho.linked
  simp only [Linked, LinkedF] at hl
  unfold pop_back del
  simp [hl.2]

theorem Owns.pop_front_cons {w : World T} {self : ListObj} {n : Nat} {ns : List Nat} {x : T}
    {xs : List T} (ho : Owns w self (n :: ns) (x :: xs)) :
    pop_front w self = del w self n ∧
      Owns (pop_front w self).2 (pop_front w self).1 ns xs ∧
      Ext (self.root_ :: n :: ns) w ((pop_front w self).1.root_ :: ns) (pop_front w self).2 := by
  have hl := ho.linked
  simp only [Linked, LinkedF] at hl
  have he : pop_front w self = ListCpp.del w self n := by unfold pop_front; rw [hl.1]
  rw [he]
  exact ⟨rfl, (Owns.del_spec [] ns [] xs ho rfl).1, Owns.del_ext [] ns [] xs ho rfl⟩

theorem Owns.pop_back_concat {w : World T} {self : ListObj} {n : Nat} {ns : List Nat} {x : T}
    {xs : List T} (ho : Owns w self (ns ++ [n]) (xs ++ [x])) :
    pop_back w self = del w self n ∧
      Owns (pop_back w self).2 (pop_back w self).1 ns xs ∧
      Ext (self.root_ :: (ns ++ [n])) w ((pop_back w self).1.root_ :: ns) (pop_back w self).2 := by
  have hp := ho.linked.prev_last
  rw [← List.cons_append, List.getLast?_append] at hp
  have hp : n = (w.cell self.root_).prev := by simpa [Option.or] using hp
  have he : pop_back w self = ListCpp.del w self n := by unfold pop_back; rw [← hp]
  have hlen : xs.length = ns.length := by
    have := ho.length_eq
    simpa using this
  rw [he]
  have h1 := (Owns.del_spec ns [] xs [] ho hlen).1
  have h2 := Owns.del_ext ns [] xs [] ho hlen
  simp only [List.append_nil] at h1 h2
  exact ⟨rfl, h1, h2⟩

/-- One call keeps the object well-formed, changes its contents the way the simulated
sequence changes, and touches no block of the heap that is not its own. -/
theorem Owns.apply_spec {E : Env T} {w w1 : World T} {self self1 : ListObj} {ns : List Nat}
    {xs : List T} (op : Op T) (ho : Owns w self ns xs)
    (h : op.apply E w self = .ok self1 w1) :
    ∃ ns1, Owns w1 self1 ns1 (op.sim xs) ∧
      Ext (self.root_ :: ns) w (self1.root_ :: ns1) w1 := by
  cases op with
  | push_back v =>
    obtain ⟨tmp, _, _, _, ho1, he⟩ := ho.push_back_spec h
    exact ⟨_, ho1, he⟩
  | push_front v =>
    obtain ⟨tmp, _, _, _, ho1, he⟩ := ho.push_front_spec h
    exact ⟨_, ho1, he⟩
  | pop_back =>
    simp only [Op.apply, Outcome.ok.injEq] at h
    obtain ⟨h1, h2⟩ := h
    subst h1 h2
    rcases List.eq_nil_or_concat ns with rfl | ⟨ns', n, rfl⟩
    · have hx : xs = [] := List.length_eq_zero.mp ho.length_eq
      subst hx
      rw [ho.pop_back_nil]
      exact ⟨[], ho, Ext.refl _ _⟩
    · rcases List.eq_nil_or_concat xs with rfl | ⟨xs', x, rfl⟩
      · have := ho.length_eq
        simp at this
      · simp only [List.concat_eq_append] at ho ⊢
        obtain ⟨_, ho1, he⟩ := ho.pop_back_concat
        refine ⟨ns', ?_, he⟩
        simpa [Op.sim] using ho1
  | pop_front =>
    simp only [Op.apply, Outcome.ok.injEq] at h
    obtain ⟨h1, h2⟩ := h
    subst h1 h2
    cases ns with
    | nil =>
      have hx : xs = [] := List.length_eq_zero.mp ho.length_eq
      subst hx
      rw [ho.pop_front_nil]
      exact ⟨[], ho, Ext.refl _ _⟩
    | cons n ns' =>
      cases xs with
      | nil =>
        have := ho.length_eq
        simp at this
      | cons x xs' =>
        obtain ⟨_, ho1, he⟩ := ho.pop_front_cons
        exact ⟨ns', by simpa [Op.sim] using ho1, he⟩

theorem Owns.run_spec {E : Env T} :
    ∀ (ops : List (Op T)) {w w1 : World T} {self self1 : ListObj} {ns : List Nat}
      {xs : List T}, Owns w self ns xs → run E ops w self = .ok self1 w1 →
      ∃ ns1, Owns w1 self1 ns1 (simulate ops xs) ∧
        Ext (self.root_ :: ns) w (self1.root_ :: ns1) w1
  | [], w, w1, self, self1, ns, xs, ho, h => by
    simp only [ListCpp.run, Outcome.ok.injEq] at h
    obtain ⟨h1, h2⟩ := h
    subst h1 h2
    exact ⟨ns, ho, Ext.refl _ _⟩
  | op :: ops, w, w1, self, self1, ns, xs, ho, h => by
    simp only [ListCpp.run] at h
    cases hop : op.apply E w self with
    | threw w2 => simp [hop] at h
    | ok self2 w2 =>
      simp only [hop] at h
      obtain ⟨ns2, ho2, he2⟩ := ho.apply_spec op hop
      obtain ⟨ns1, ho1, he1⟩ := Owns.run_spec ops ho2 h
      exact ⟨ns1, ho1, he2.trans he1⟩

theorem simulate_length (ops : List (Op T)) :
    ∀ xs : List T, (simulate ops xs).length + removals ops xs.length = xs.length + pushes ops := by
  induction ops with
  | nil => intro xs; simp [simulate, removals, pushes]
  | cons op ops ih =>
    intro xs
    cases op with
    | push_back v =>
      have := ih (xs ++ [v])
      simp only [List.length_append, List.length_singleton] at this
      simp only [simulate, Op.sim, removals, pushes]
      omega
    | push_front v =>
      have := ih (v :: xs)
      simp only [List.length_cons] at this
      simp only [simulate, Op.sim, removals, pushes]
      omega
    | pop_back =>
      rcases List.eq_nil_or_concat xs with rfl | ⟨xs1, x, rfl⟩
      · have := ih []
        simpa [simulate, Op.sim, removals, pushes] using this
      · have := ih xs1
        simp only [simulate, Op.sim, List.concat_eq_append, List.dropLast_concat,
          List.length_append, List.length_singleton, removals, pushes]
        omega
    | pop_front =>
      cases xs with
      | nil =>
        have := ih []
        simpa [simulate, Op.sim, removals, pushes] using this
      | cons x xs1 =>
        have := ih xs1
        simp only [simulate, Op.sim, List.drop_succ_cons, List.drop_zero, List.length_cons,
          removals, pushes]
        omega

/-! ## Failed insertions and `destroy()` -/

theorem insert_threw {E : Env T} {w w1 : World T} {self : ListObj} {node : Nat} {v : T}
    (h : insert E w self node v = .threw w1) : w1.cell = w.cell ∧ w1.live = w.live := by
  unfold insert allocate at h
  cases hp : E.pick w.live with
  | none =>
    simp only [hp, Outcome.threw.injEq] at h
    subst h
    exact ⟨rfl, rfl⟩
  | some tmp =>
    simp only [hp, construct] at h
    by_cases hc : E.copyThrows w.ctors v = true
    · simp only [hc, if_true, Outcome.threw.injEq] at h
      subst h
      refine ⟨rfl, ?_⟩
      have hfresh := E.pick_fresh _ _ hp
      simp only [deallocate, List.filter_cons, bne_self_eq_false, Bool.false_eq_true, if_false]
      rw [List.filter_eq_self]
      intro a ha
      simp only [bne_iff_ne, ne_eq]
      rintro rfl
      exact hfresh ha
    · simp [hc] at h

theorem Owns.of_threw {E : Env T} {w w1 : World T} {self : ListObj} {node : Nat} {v : T}
    {ns : List Nat} {xs : List T} (ho : Owns w self ns xs)
    (h : insert E w self node v = .threw w1) :
    Owns w1 self ns xs ∧ Ext (self.root_ :: ns) w (self.root_ :: ns) w1 := by
  obtain ⟨hc, hl⟩ := insert_threw h
  refine ⟨ho.frame fun a ha => ⟨by rw [hl]; exact ho.live a ha, by rw [hc]⟩, ?_, ?_⟩
  · intro a ha _
    exact ⟨by rw [hl]; exact ha, by rw [hc]⟩
  · intro a ha
    exact Or.inl ha

theorem destroy_loop_spec (root : Nat) :
    ∀ (ns : List Nat) (a : Nat) (w : World T) (fuel : Nat), Linked w a ns root → root ∉ ns →
      (∃ w1, destroy_loop root fuel w (w.cell a).next = some w1 ∧
          (∀ x, x ∈ w1.live ↔ x ∈ w.live ∧ x ∉ ns) ∧ (∀ x, x ∉ ns → w1.cell x = w.cell x) ∧
          (∀ x, (w1.cell x).next = (w.cell x).next ∧ (w1.cell x).prev = (w.cell x).prev) ∧
          w1.ctors = w.ctors ∧ ns.length ≤ fuel) ∨
        (destroy_loop root fuel w (w.cell a).next = none ∧ fuel < ns.length)
  | [], a, w, fuel, hl, _ => by
    simp only [Linked, LinkedF] at hl
    left
    refine ⟨w, ?_, by simp, fun _ _ => rfl, fun _ => ⟨rfl, rfl⟩, rfl, by simp⟩
    unfold destroy_loop
    simp [hl.1]
  | n :: ns, a, w, fuel, hl, hr => by
    simp only [Linked, LinkedF] at hl
    have hne : n ≠ root := fun e => hr (by simp [e])
    cases fuel with
    | zero =>
      right
      refine ⟨?_, by simp⟩
      unfold destroy_loop
      simp [hl.1, hne]
    | succ fuel =>
      have hstep : destroy_loop root (fuel + 1) w (w.cell a).next =
          destroy_loop root fuel (deallocate (destroyNode w n) n)
            ((deallocate (destroyNode w n) n).cell n).next := by
        rw [destroy_loop]
        simp only [hl.1, hne, if_false, deallocate_cell, destroyNode_next]
      have hl' : Linked (deallocate (destroyNode w n) n) n ns root := by
        unfold Linked
        refine LinkedF.congr ?_ ?_ hl.2.2
        · intro x _; simp only [deallocate_cell, destroyNode_next]
        · intro x _; simp only [deallocate_cell, destroyNode_prev]
      rcases destroy_loop_spec root ns n (deallocate (destroyNode w n) n) fuel hl'
          (fun hm => hr (List.mem_cons_of_mem _ hm)) with
        ⟨w1, h1, h2, h3, h4, h5, h6⟩ | ⟨h1, h2⟩
      · left
        refine ⟨w1, by rw [hstep]; exact h1, ?_, ?_, ?_, ?_, by simp; omega⟩
        · intro x
          rw [h2 x, mem_deallocate, destroyNode_live]
          simp only [List.mem_cons, not_or]
          tauto
        · intro x hx
          rw [h3 x (fun hm => hx (List.mem_cons_of_mem _ hm))]
          apply Node.ext3
          · simp only [deallocate_cell, destroyNode_next]
          · simp only [deallocate_cell, destroyNode_prev]
          · simp only [deallocate_cell, destroyNode_value]
            rw [if_neg]
            rintro rfl
            exact hx (by simp)
        · intro x
          rw [(h4 x).1, (h4 x).2]
          simp only [deallocate_cell, destroyNode_next, destroyNode_prev, and_self]
        · rw [h5]; rfl
      · right
        exact ⟨by rw [hstep]; exact h1, by simp; omega⟩

theorem Owns.destroy_spec {w : World T} {self : ListObj} {ns : List Nat} {xs : List T}
    (ho : Owns w self ns xs) (fuel : Nat) :
    (∃ self1 w1, destroy fuel w self = some (self1, w1) ∧ self1.size_ = 0 ∧
        (∀ x, x ∈ w1.live ↔ x ∈ w.live ∧ x ∉ self.root_ :: ns) ∧
        (∀ x, x ∉ ns → w1.cell x = w.cell x) ∧ Ext (self.root_ :: ns) w [] w1 ∧
        self.size_ ≤ fuel) ∨
      (destroy fuel w self = none ∧ fuel < self.size_) := by
  rcases destroy_loop_spec self.root_ ns self.root_ w fuel ho.linked
      (List.nodup_cons.mp ho.nodup).1 with ⟨w1, h1, h2, h3, _, _, h6⟩ | ⟨h1, h2⟩
  · left
    refine ⟨{ self with size_ := 0 }, deallocate w1 self.root_, ?_, rfl, ?_, h3, ⟨?_, ?_⟩, ?_⟩
    · unfold destroy; rw [h1]
    · intro x
      rw [mem_deallocate, h2 x]
      simp only [List.mem_cons, not_or]
      tauto
    · intro a ha hn
      refine ⟨?_, ?_⟩
      · rw [mem_deallocate, h2 a]
        simp only [List.mem_cons, not_or] at hn
        exact ⟨⟨ha, hn.2⟩, hn.1⟩
      · rw [deallocate_cell]
        exact h3 a (fun hm => hn (List.mem_cons_of_mem _ hm))
    · intro a ha; simp at ha
    · rw [ho.size]; exact h6
  · right
    refine ⟨?_, by rw [ho.size]; exact h2⟩
    unfold destroy; rw [h1]

theorem Owns.cleanup_spec {w : World T} {self : ListObj} {ns : List Nat} {xs : List T}
    (ho : Owns w self ns xs) (fuel : Nat) :
    (∃ w1, cleanup fuel w self = some (.threw w1) ∧
        (∀ x, x ∈ w1.live ↔ x ∈ w.live ∧ x ∉ self.root_ :: ns) ∧
        Ext (self.root_ :: ns) w [] w1) ∨
      (cleanup fuel w self = none ∧ fuel < self.size_) := by
  rcases ho.destroy_spec fuel with ⟨self1, w1, h1, _, h3, _, h5, _⟩ | ⟨h1, h2⟩
  · left
    exact ⟨w1, by unfold cleanup; rw [h1], h3, h5⟩
  · right
    exact ⟨by unfold cleanup; rw [h1], h2⟩

/-! ## The bulk constructors -/

theorem Owns.init_loop_spec {E : Env T} :
    ∀ (vs : List T) {w : World T} {self : ListObj} {ns : List Nat} {xs : List T},
      Owns w self ns xs →
      (∃ self1 w1 ns1, init_loop E vs w self = .ok (self1, w1) ∧
          Owns w1 self1 ns1 (xs ++ vs) ∧ Ext (self.root_ :: ns) w (self1.root_ :: ns1) w1) ∨
        (∃ self1 w1 ns1 xs1, init_loop E vs w self = .error (self1, w1) ∧
          Owns w1 self1 ns1 xs1 ∧ Ext (self.root_ :: ns) w (self1.root_ :: ns1) w1 ∧
          self1.size_ ≤ self.size_ + vs.length)
  | [], w, self, ns, xs, ho => by
    left
    exact ⟨self, w, ns, rfl, by simpa using ho, Ext.refl _ _⟩
  | v :: vs, w, self, ns, xs, ho => by
    cases hp : push_back E w self v with
    | threw w1 =>
      right
      obtain ⟨ho1, he1⟩ := ho.of_threw hp
      exact ⟨self, w1, ns, xs, by simp [init_loop, hp], ho1, he1, by omega⟩
    | ok self1 w1 =>
      obtain ⟨tmp, _, _, _, ho1, he1⟩ := ho.push_back_spec hp
      have hsz : self1.size_ = self.size_ + 1 := by
        rw [ho1.size, ho.size]; simp
      rcases Owns.init_loop_spec (E := E) vs ho1 with
        ⟨self2, w2, ns2, h1, h2, h3⟩ | ⟨self2, w2, ns2, xs2, h1, h2, h3, h4⟩
      · left
        refine ⟨self2, w2, ns2, by simp [init_loop, hp, h1], by simpa using h2, he1.trans h3⟩
      · right
        refine ⟨self2, w2, ns2, xs2, by simp [init_loop, hp, h1], h2, he1.trans h3, ?_⟩
        simp only [List.length_cons]
        omega

theorem fill_loop_eq (E : Env T) (v : T) :
    ∀ (n : Nat) (w : World T) (self : ListObj),
      fill_loop E v n w self = init_loop E (List.replicate n v) w self
  | 0, w, self => rfl
  | n + 1, w, self => by
    simp only [fill_loop, List.replicate_succ, init_loop]
    cases push_back E w self v with
    | threw w1 => rfl
    | ok self1 w1 => exact fill_loop_eq E v n w1 self1

theorem push_back_default_eq (E : Env T) (w : World T) (self : ListObj) :
    push_back_default E w self = push_back E.defaultAsCopy w self E.dflt := rfl

theorem count_loop_eq (E : Env T) :
    ∀ (n : Nat) (w : World T) (self : ListObj),
      count_loop E n w self = init_loop E.defaultAsCopy (List.replicate n E.dflt) w self
  | 0, w, self => rfl
  | n + 1, w, self => by
    simp only [count_loop, List.replicate_succ, init_loop, push_back_default_eq]
    cases push_back E.defaultAsCopy w self E.dflt with
    | threw w1 => rfl
    | ok self1 w1 => exact count_loop_eq E n w1 self1

theorem init_defaultAsCopy (E : Env T) (w : World T) : init E.defaultAsCopy w = init E w := rfl

/-- The common shape of the bulk constructors: `init()`, a loop of insertions at the
back, and `destroy()` when the loop throws. -/
theorem built_of_loop (E : Env T) (fuel : Nat) (w : World T) (vs : List T)
    (loop : World T → ListObj → Except (ListObj × World T) (ListObj × World T))
    (hloop : ∀ w self, loop w self = init_loop E vs w self) :
    Built w
      (match init E w with
        | .threw w1 => some (.threw w1)
        | .ok self w1 =>
          match loop w1 self with
          | .ok (self2, w2) => some (.ok self2 w2)
          | .error (self2, w2) => cleanup fuel w2 self2)
      vs vs.length fuel := by
  cases hi : init E w with
  | threw w1 =>
    right; left
    refine ⟨w1, rfl, ?_⟩
    unfold init allocate at hi
    cases hp : E.pick w.live with
    | none =>
      simp only [hp, Outcome.threw.injEq] at hi
      subst hi
      exact Ext.refl _ _
    | some a => simp [hp] at hi
  | ok self w1 =>
    obtain ⟨ho, he, _⟩ := Owns.init_spec hi
    have hs0 : self.size_ = 0 := ho.size
    simp only [hloop]
    rcases Owns.init_loop_spec (E := E) vs ho with
      ⟨self2, w2, ns2, h1, h2, h3⟩ | ⟨self2, w2, ns2, xs2, h1, h2, h3, h4⟩
    · left
      refine ⟨self2, w2, ns2, by rw [h1], by simpa using h2, ?_⟩
      exact (he.trans h3)
    · rw [h1]
      rcases h2.cleanup_spec fuel with ⟨w3, h5, _, h7⟩ | ⟨h5, h6⟩
      · right; left
        exact ⟨w3, h5, (he.trans h3).trans h7⟩
      · right; right
        exact ⟨h5, by omega⟩

theorem List_init_spec (E : Env T) (fuel : Nat) (w : World T) (vs : List T) :
    Built w (List_init E fuel w vs) vs vs.length fuel :=
  built_of_loop E fuel w vs (init_loop E vs) (fun _ _ => rfl)

theorem List_count_value_spec (E : Env T) (fuel : Nat) (w : World T) (n : Nat) (v : T) :
    Built w (List_count_value E fuel w n v) (List.replicate n v) n fuel := by
  have := built_of_loop E fuel w (List.replicate n v)
    (fill_loop E v n) (fun w self => fill_loop_eq E v n w self)
  simpa using this

theorem List_count_spec (E : Env T) (fuel : Nat) (w : World T) (n : Nat) :
    Built w (List_count E fuel w n) (List.replicate n E.dflt) n fuel := by
  have := built_of_loop E.defaultAsCopy fuel w
    (List.replicate n E.dflt) (count_loop E n) (fun w self => count_loop_eq E n w self)
  simpa using this

/-! ## Copy construction and copy assignment -/

theorem Owns.copy_loop_spec {E : Env T} :
    ∀ (rest : List Nat) (ys : List T) (p z : Nat) {w : World T} {self : ListObj}
      {ns : List Nat} {xs : List T}, Owns w self ns xs → Linked w p rest z →
      rest.map (fun a => (w.cell a).value) = ys.map some →
      (∀ a ∈ p :: (rest ++ [z]), a ∈ w.live ∧ a ∉ self.root_ :: ns) →
      (∃ self1 w1 ns1, copy_loop E rest.length w self (w.cell p).next = some (.ok (self1, w1)) ∧
          Owns w1 self1 ns1 (xs ++ ys) ∧ Ext (self.root_ :: ns) w (self1.root_ :: ns1) w1) ∨
        (∃ self1 w1 ns1 xs1,
          copy_loop E rest.length w self (w.cell p).next = some (.error (self1, w1)) ∧
          Owns w1 self1 ns1 xs1 ∧ Ext (self.root_ :: ns) w (self1.root_ :: ns1) w1 ∧
          self1.size_ ≤ self.size_ + rest.length)
  | [], ys, p, z, w, self, ns, xs, ho, _, hv, _ => by
    left
    have : ys = [] := by simpa using hv.symm
    subst this
    exact ⟨self, w, ns, rfl, by simpa using ho, Ext.refl _ _⟩
  | c :: rest, ys, p, z, w, self, ns, xs, ho, hl, hv, hd => by
    simp only [Linked, LinkedF] at hl
    cases ys with
    | nil => simp at hv
    | cons y ys =>
      simp only [List.map_cons, List.cons.injEq] at hv
      simp only [List.length_cons, copy_loop, hl.1, hv.1]
      cases hp : push_back E w self y with
      | threw w1 =>
        right
        obtain ⟨ho1, he1⟩ := ho.of_threw hp
        exact ⟨self, w1, ns, xs, rfl, ho1, he1, by omega⟩
      | ok self1 w1 =>
        obtain ⟨tmp, _, _, _, ho1, he1⟩ := ho.push_back_spec hp
        have hsz : self1.size_ = self.size_ + 1 := by
          rw [ho1.size, ho.size]; simp
        have hfr : ∀ a ∈ p :: (c :: rest ++ [z]), a ∈ w1.live ∧ w1.cell a = w.cell a :=
          fun a ha => he1.1 a (hd a ha).1 (hd a ha).2
        have hcell : w1.cell c = w.cell c := (hfr c (by simp)).2
        have hl1 : Linked w1 c rest z := by
          refine Linked.of_same_cells ?_ hl.2.2
          intro a ha
          exact (hfr a (by simp at ha ⊢; tauto)).2
        have hv1 : rest.map (fun a => (w1.cell a).value) = ys.map some := by
          rw [← hv.2]
          apply List.map_congr_left
          intro a ha
          rw [(hfr a (by simp [ha])).2]
        have hd1 : ∀ a ∈ c :: (rest ++ [z]), a ∈ w1.live ∧ a ∉ self1.root_ :: (ns ++ [tmp]) := by
          intro a ha
          have ha' : a ∈ p :: (c :: rest ++ [z]) := by simp at ha ⊢; tauto
          refine ⟨(hfr a ha').1, ?_⟩
          intro hm
          rcases he1.2 a hm with h | h
          · exact (hd a ha').2 h
          · exact h (hd a ha').1
        simp only
        rcases Owns.copy_loop_spec (E := E) rest ys c z ho1 hl1 hv1 hd1 with
          ⟨self2, w2, ns2, h1, h2, h3⟩ | ⟨self2, w2, ns2, xs2, h1, h2, h3, h4⟩
        · left
          exact ⟨self2, w2, ns2, h1, by simpa using h2, he1.trans h3⟩
        · right
          exact ⟨self2, w2, ns2, xs2, h1, h2, he1.trans h3, by omega⟩

/-- The copy constructor on a well-formed source: the copy holds the same values in
blocks that were not outstanding before, and no outstanding block is touched. -/
theorem Owns.List_copy_spec {E : Env T} {w : World T} {other : ListObj} {ns : List Nat}
    {xs : List T} (ho : Owns w other ns xs) (fuel : Nat) :
    Built w (List_copy E fuel w other) xs other.size_ fuel := by
  unfold List_copy
  cases hi : init E w with
  | threw w1 =>
    right; left
    refine ⟨w1, rfl, ?_⟩
    unfold init allocate at hi
    cases hp : E.pick w.live with
    | none =>
      simp only [hp, Outcome.threw.injEq] at hi
      subst hi
      exact Ext.refl _ _
    | some a => simp [hp] at hi
  | ok self w1 =>
    obtain ⟨hos, he, _⟩ := Owns.init_spec hi
    have hs0 : self.size_ = 0 := hos.size
    obtain ⟨ho1, hdis⟩ := ho.of_ext he (by simp)
    have hd : ∀ a ∈ other.root_ :: (ns ++ [other.root_]),
        a ∈ w1.live ∧ a ∉ self.root_ :: [] := by
      intro a ha
      have ha' : a ∈ other.root_ :: ns := by simp at ha ⊢; tauto
      exact ⟨ho1.live a ha', hdis a ha'⟩
    simp only
    rw [ho.size]
    rcases Owns.copy_loop_spec (E := E) ns xs other.root_ other.root_ hos ho1.linked
        ho1.vals hd with ⟨self2, w2, ns2, h1, h2, h3⟩ | ⟨self2, w2, ns2, xs2, h1, h2, h3, h4⟩
    · left
      rw [h1]
      exact ⟨self2, w2, ns2, rfl, by simpa using h2, he.trans h3⟩
    · rw [h1]
      simp only
      rcases h2.cleanup_spec fuel with ⟨w3, h5, _, h7⟩ | ⟨h5, h6⟩
      · right; left
        exact ⟨w3, h5, (he.trans h3).trans h7⟩
      · right; right
        exact ⟨h5, by omega⟩

theorem Built.of_ok {w w1 : World T} {r : Option (Outcome T ListObj)} {xs : List T}
    {bound fuel : Nat} {l : ListObj} (hb : Built w r xs bound fuel)
    (h : r = some (.ok l w1)) : ∃ ns, Owns w1 l ns xs ∧ Ext [] w (l.root_ :: ns) w1 := by
  rcases hb with ⟨l2, w2, ns, h1, h2, h3⟩ | ⟨w2, h1, _⟩ | ⟨h1, _⟩
  · rw [h1] at h
    simp only [Option.some.injEq, Outcome.ok.injEq] at h
    obtain ⟨e1, e2⟩ := h
    subst e1 e2
    exact ⟨ns, h2, h3⟩
  · rw [h1] at h; simp at h
  · rw [h1] at h; simp at h

theorem Built.defined {w : World T} {r : Option (Outcome T ListObj)} {xs : List T}
    {bound fuel : Nat} (hb : Built w r xs bound fuel) (hf : bound ≤ fuel) :
    ∃ o, r = some o := by
  rcases hb with ⟨l2, w2, ns, h1, _⟩ | ⟨w2, h1, _⟩ | ⟨_, h2⟩
  · exact ⟨_, h1⟩
  · exact ⟨_, h1⟩
  · omega

/-- Copy assignment from a different object, both well-formed and without a common
block. -/
theorem Owns.assign_spec {E : Env T} {w : World T} {this other : ListObj}
    {nsa nsb : List Nat} {xsa xsb : List T} (ha : Owns w this nsa xsa)
    (hb : Owns w other nsb xsb) (hdis : ∀ a ∈ other.root_ :: nsb, a ∉ this.root_ :: nsa)
    (fuel : Nat) :
    (∃ l w1 ns, assign E fuel w this (.distinct other) = some (.ok l w1) ∧
        Owns w1 l ns xsb ∧ Owns w1 other nsb xsb ∧
        Ext (this.root_ :: nsa) w (l.root_ :: ns) w1 ∧ (∀ a ∈ l.root_ :: ns, a ∉ w.live) ∧
        (∀ a ∈ other.root_ :: nsb, a ∉ l.root_ :: ns)) ∨
      (∃ w1, assign E fuel w this (.distinct other) = some (.threw w1) ∧
        Owns w1 this nsa xsa ∧ Owns w1 other nsb xsb ∧ Ext [] w [] w1) ∨
      (assign E fuel w this (.distinct other) = none ∧
        (fuel < this.size_ ∨ fuel < other.size_)) := by
  unfold assign
  rcases hb.List_copy_spec (E := E) fuel with ⟨tmp, w1, ns, h1, h2, h3⟩ | ⟨w1, h1, h2⟩ | ⟨h1, h2⟩
  · simp only [h1]
    obtain ⟨ha1, _⟩ := ha.of_ext h3 (by simp)
    obtain ⟨hb1, hbd⟩ := hb.of_ext h3 (by simp)
    have hfresh : ∀ a ∈ tmp.root_ :: ns, a ∉ w.live := by
      intro a ham
      rcases h3.2 a ham with h | h
      · simp at h
      · exact h
    have htd : ∀ a ∈ tmp.root_ :: ns, a ∉ this.root_ :: nsa :=
      fun a ham hm => hfresh a ham (ha.live a hm)
    have heta : ({ root_ := this.root_, size_ := this.size_ } : ListObj) = this := rfl
    have heta2 : ({ root_ := tmp.root_, size_ := tmp.size_ } : ListObj) = tmp := rfl
    rw [heta, heta2]
    rcases ha1.destroy_spec fuel with ⟨s2, w2, h4, _, _, _, h8, _⟩ | ⟨h4, h5⟩
    · left
      simp only [h4]
      refine ⟨tmp, w2, ns, rfl, (h2.of_ext h8 htd).1, (hb1.of_ext h8 hdis).1, ⟨?_, ?_⟩,
        hfresh, hbd⟩
      · intro a ham hn
        obtain ⟨hl1, hc1⟩ := h3.1 a ham (by simp)
        obtain ⟨hl2, hc2⟩ := h8.1 a hl1 hn
        exact ⟨hl2, hc2.trans hc1⟩
      · intro a ham
        exact Or.inr (hfresh a ham)
    · right; right
      simp only [h4]
      exact ⟨trivial, Or.inl h5⟩
  · right; left
    simp only [h1]
    exact ⟨w1, rfl, (ha.of_ext h2 (by simp)).1, (hb.of_ext h2 (by simp)).1, h2⟩
  · right; right
    simp only [h1]
    exact ⟨trivial, Or.inr h2⟩

/-! ## Programs over several objects -/

theorem Ext.fresh {S1 : List Nat} {w w1 : World T} (h : Ext [] w S1 w1) :
    ∀ a ∈ S1, a ∉ w.live := by
  intro a ha
  rcases h.2 a ha with h | h
  · simp at h
  · exact h

theorem Ext.keep {S S1 : List Nat} {w w1 : World T} (h : Ext [] w S1 w1) :
    Ext S w S w1 :=
  ⟨h.1.mono (by simp), fun _ ha => Or.inl ha⟩

theorem Inv.update {w w1 : World T} {st : Store} {g : Nat → List Nat}
    (h1 : ∀ x, st x = none → g x = [])
    (h2 : ∀ x l, st x = some l → ∃ ns xs, g x = l.root_ :: ns ∧ Owns w l ns xs)
    (h3 : ∀ x y, x ≠ y → ∀ a ∈ g x, a ∉ g y)
    (x : Nat) (o : Option ListObj) (S1 : List Nat) (he : Ext (g x) w S1 w1)
    (ho : ∀ l, o = some l → ∃ ns xs, S1 = l.root_ :: ns ∧ Owns w1 l ns xs)
    (hn : o = none → S1 = []) : Inv w1 (Function.update st x o) := by
  have key : ∀ y, y ≠ x → ∀ l, st y = some l →
      ∃ ns xs, g y = l.root_ :: ns ∧ Owns w1 l ns xs ∧ ∀ a ∈ g y, a ∉ S1 := by
    intro y hy l hl
    obtain ⟨ns, xs, hg, hown⟩ := h2 y l hl
    have hd : ∀ a ∈ l.root_ :: ns, a ∉ g x := by
      rw [← hg]; exact h3 y x hy
    obtain ⟨k1, k2⟩ := hown.of_ext he hd
    exact ⟨ns, xs, hg, k1, by rw [hg]; exact k2⟩
  have key2 : ∀ y, y ≠ x → ∀ a ∈ g y, a ∉ S1 := by
    intro y hy a ha
    cases hs : st y with
    | none => rw [h1 y hs] at ha; simp at ha
    | some l =>
      obtain ⟨_, _, _, _, k⟩ := key y hy l hs
      exact k a ha
  refine ⟨Function.update g x S1, ?_, ?_, ?_⟩
  · intro y hy
    by_cases hyx : y = x
    · subst hyx
      simp only [Function.update_same] at hy ⊢
      exact hn hy
    · simp only [Function.update_noteq hyx] at hy ⊢
      exact h1 y hy
  · intro y l hy
    by_cases hyx : y = x
    · subst hyx
      simp only [Function.update_same] at hy ⊢
      exact ho l hy
    · simp only [Function.update_noteq hyx] at hy ⊢
      obtain ⟨ns, xs, k1, k2, _⟩ := key y hyx l hy
      exact ⟨ns, xs, k1, k2⟩
  · intro y z hyz a ha
    by_cases hyx : y = x
    · subst hyx
      have hzx : z ≠ y := Ne.symm hyz
      simp only [Function.update_same, Function.update_noteq hzx] at ha ⊢
      intro hm
      exact key2 z hzx a hm ha
    · by_cases hzx : z = x
      · subst hzx
        simp only [Function.update_same, Function.update_noteq hyx] at ha ⊢
        exact key2 y hyx a ha
      · simp only [Function.update_noteq hyx, Function.update_noteq hzx] at ha ⊢
        exact h3 y z hyz a ha

theorem declare_ok {st st1 : Store} {x : Nat} {r : Option (Outcome T ListObj)} {w1 : World T}
    (h : declare st x r = some (.ok st1 w1)) :
    st x = none ∧ ∃ l, r = some (.ok l w1) ∧ st1 = Function.update st x (some l) := by
  unfold declare at h
  cases hx : st x with
  | some l => simp [hx] at h
  | none =>
    simp only [hx] at h
    cases r with
    | none => simp at h
    | some o =>
      cases o with
      | threw w => simp at h
      | ok l w =>
        simp only [Option.some.injEq, Outcome.ok.injEq] at h
        obtain ⟨e1, e2⟩ := h
        subst e1 e2
        exact ⟨rfl, l, rfl, rfl⟩

theorem Inv.declare {w w1 : World T} {st st1 : Store} {x : Nat}
    {r : Option (Outcome T ListObj)} {xs : List T} {bound fuel : Nat} (hi : Inv w st)
    (hb : Built w r xs bound fuel) (h : declare st x r = some (.ok st1 w1)) : Inv w1 st1 := by
  obtain ⟨hx, l, hr, hs⟩ := declare_ok h
  obtain ⟨g, h1, h2, h3⟩ := hi
  obtain ⟨ns, ho, he⟩ := hb.of_ok hr
  rw [hs]
  refine Inv.update h1 h2 h3 x (some l) (l.root_ :: ns) (by rw [h1 x hx]; exact he) ?_ (by simp)
  intro l' hl'
  simp only [Option.some.injEq] at hl'
  subst hl'
  exact ⟨ns, xs, rfl, ho⟩

theorem init_built (E : Env T) (w : World T) (fuel : Nat) :
    Built w (some (List_alloc E w)) [] 0 fuel := by
  have := List_init_spec E fuel w []
  unfold List_init at this
  unfold List_alloc
  cases hi : init E w with
  | threw w1 => simpa [hi] using this
  | ok l w1 => simpa [hi, init_loop] using this

/-- One statement keeps every object of the program well-formed and the objects
disjoint. -/
theorem Inv.exec {E : Env T} {fuel : Nat} {w w1 : World T} {st st1 : Store} (hi : Inv w st) :
    ∀ (s : Stmt T), exec E fuel st w s = some (.ok st1 w1) → Inv w1 st1
  | .default x, h => hi.declare (init_built E w fuel) h
  | .count_value x n v, h => hi.declare (List_count_value_spec E fuel w n v) h
  | .count x n, h => hi.declare (List_count_spec E fuel w n) h
  | .init_list x vs, h => hi.declare (List_init_spec E fuel w vs) h
  | .copy x y, h => by
    simp only [ListCpp.exec] at h
    cases hy : st y with
    | none => simp [hy] at h
    | some other =>
      simp only [hy] at h
      obtain ⟨g, h1, h2, h3⟩ := hi
      obtain ⟨ns, xs, _, ho⟩ := h2 y other hy
      exact Inv.declare ⟨g, h1, h2, h3⟩ (ho.List_copy_spec (E := E) fuel) h
  | .assign x y, h => by
    simp only [ListCpp.exec] at h
    cases hx : st x with
    | none => simp [hx] at h
    | some this =>
      cases hy : st y with
      | none => simp [hx, hy] at h
      | some other =>
        simp only [hx, hy] at h
        obtain ⟨g, h1, h2, h3⟩ := hi
        obtain ⟨nsa, xsa, hga, hoa⟩ := h2 x this hx
        by_cases hxy : x = y
        · simp only [hxy, if_true, assign, Option.some.injEq, Outcome.ok.injEq] at h
          obtain ⟨e1, e2⟩ := h
          subst e1 e2
          refine Inv.update h1 h2 h3 y (some this) (g y) (Ext.refl _ _) ?_ (by simp)
          intro l hl
          simp only [Option.some.injEq] at hl
          subst hl
          exact ⟨nsa, xsa, by rw [← hxy]; exact hga, hoa⟩
        · simp only [hxy, if_false] at h
          obtain ⟨nsb, xsb, hgb, hob⟩ := h2 y other hy
          have hdis : ∀ a ∈ other.root_ :: nsb, a ∉ this.root_ :: nsa := by
            rw [← hga, ← hgb]
            exact h3 y x (Ne.symm hxy)
          rcases hoa.assign_spec (E := E) hob hdis fuel with
            ⟨l2, w3, ns, k1, k2, _, k4, _⟩ | ⟨w3, k1, _⟩ | ⟨k1, _⟩
          · rw [k1] at h
            simp only [Option.some.injEq, Outcome.ok.injEq] at h
            obtain ⟨e1, e2⟩ := h
            subst e1 e2
            refine Inv.update h1 h2 h3 x (some l2) (l2.root_ :: ns) (by rw [hga]; exact k4) ?_
              (by simp)
            intro l hl
            simp only [Option.some.injEq] at hl
            subst hl
            exact ⟨ns, xsb, rfl, k2⟩
          · rw [k1] at h; simp at h
          · rw [k1] at h; simp at h
  | .call x op, h => by
    simp only [ListCpp.exec] at h
    cases hx : st x with
    | none => simp [hx] at h
    | some self =>
      simp only [hx] at h
      cases hop : op.apply E w self with
      | threw w2 => simp [hop] at h
      | ok self1 w2 =>
        simp only [hop, Option.some.injEq, Outcome.ok.injEq] at h
        obtain ⟨e1, e2⟩ := h
        subst e1 e2
        obtain ⟨g, h1, h2, h3⟩ := hi
        obtain ⟨ns, xs, hg, ho⟩ := h2 x self hx
        obtain ⟨ns1, ho1, he1⟩ := ho.apply_spec op hop
        refine Inv.update h1 h2 h3 x (some self1) (self1.root_ :: ns1) (by rw [hg]; exact he1) ?_
          (by simp)
        intro l hl
        simp only [Option.some.injEq] at hl
        subst hl
        exact ⟨ns1, _, rfl, ho1⟩
  | .push_back_default x, h => by
    simp only [ListCpp.exec] at h
    cases hx : st x with
    | none => simp [hx] at h
    | some self =>
      simp only [hx] at h
      cases hop : ListCpp.push_back_default E w self with
      | threw w2 => simp [hop] at h
      | ok self1 w2 =>
        simp only [hop, Option.some.injEq, Outcome.ok.injEq] at h
        obtain ⟨e1, e2⟩ := h
        subst e1 e2
        obtain ⟨g, h1, h2, h3⟩ := hi
        obtain ⟨ns, xs, hg, ho⟩ := h2 x self hx
        rw [push_back_default_eq] at hop
        obtain ⟨tmp, _, _, _, ho1, he1⟩ := ho.push_back_spec hop
        refine Inv.update h1 h2 h3 x (some self1) (self1.root_ :: (ns ++ [tmp]))
          (by rw [hg]; exact he1) ?_ (by simp)
        intro l hl
        simp only [Option.some.injEq] at hl
        subst hl
        exact ⟨_, _, rfl, ho1⟩
  | .destruct x, h => by
    simp only [ListCpp.exec] at h
    cases hx : st x with
    | none => simp [hx] at h
    | some self =>
      simp only [hx] at h
      obtain ⟨g, h1, h2, h3⟩ := hi
      obtain ⟨ns, xs, hg, ho⟩ := h2 x self hx
      rcases ho.destroy_spec fuel with ⟨s2, w2, k1, _, _, _, k5, _⟩ | ⟨k1, _⟩
      · rw [k1] at h
        simp only [Option.some.injEq, Outcome.ok.injEq] at h
        obtain ⟨e1, e2⟩ := h
        subst e1 e2
        exact Inv.update h1 h2 h3 x none [] (by rw [hg]; exact k5) (by simp) (by simp)
      · rw [k1] at h; simp at h

theorem Inv.execs {E : Env T} {fuel : Nat} :
    ∀ (prog : List (Stmt T)) {w w1 : World T} {st st1 : Store}, Inv w st →
      execs E fuel prog st w = some (.ok st1 w1) → Inv w1 st1
  | [], w, w1, st, st1, hi, h => by
    simp only [ListCpp.execs, Option.some.injEq, Outcome.ok.injEq] at h
    obtain ⟨e1, e2⟩ := h
    subst e1 e2
    exact hi
  | s :: prog, w, w1, st, st1, hi, h => by
    simp only [ListCpp.execs] at h
    cases hs : ListCpp.exec E fuel st w s with
    | none => simp [hs] at h
    | some r =>
      cases r with
      | threw w2 => simp [hs] at h
      | ok st2 w2 =>
        simp only [hs] at h
        exact Inv.execs prog (hi.exec s hs) h

theorem Reachable.inv {E : Env T} {fuel : Nat} {st : Store} {w : World T}
    (h : Reachable E fuel st w) : Inv w st := by
  obtain ⟨prog, w0, hp⟩ := h
  refine Inv.execs prog ?_ hp
  exact ⟨fun _ => [], fun _ _ => rfl, fun x l hx => by simp at hx, fun _ _ _ a ha => by simp at ha⟩

/-! ## Results of calls on sample inputs -/

theorem Outcome.eq_ok_of_isOk {α : Type} (d : α) (r : Outcome T α) (h : r.isOk = true) :
    r = .ok (r.obj d) r.world := by
  cases r with
  | ok a w => rfl
  | threw w => simp [Outcome.isOk] at h

theorem eq_ok_of_succeeded {α : Type} (d : α) (dw : World T) (r : Option (Outcome T α))
    (h : succeeded r = true) : r = some (.ok (resultObj d r) (resultWorld dw r)) := by
  cases r with
  | none => simp [succeeded] at h
  | some o =>
    cases o with
    | ok a w => rfl
    | threw w => simp [succeeded, Outcome.isOk] at h

theorem reachable_of_succeeded (E : Env T) (fuel : Nat) (prog : List (Stmt T)) (w0 : World T)
    (h : succeeded (execs E fuel prog (fun _ => none) w0) = true) :
    Reachable E fuel (resultObj (fun _ => none) (execs E fuel prog (fun _ => none) w0))
      (resultWorld w0 (execs E fuel prog (fun _ => none) w0)) :=
  ⟨prog, w0, eq_ok_of_succeeded _ _ _ h⟩

/-! ## Consequences of well-formedness used by the contract -/

theorem Built.elim {w : World T} {r : Option (Outcome T ListObj)} {xs : List T}
    {bound fuel : Nat} (hb : Built w r xs bound fuel) (hf : bound ≤ fuel) :
    ∃ o, r = some o ∧
      ∀ l w1, o = .ok l w1 → ∃ ns, Owns w1 l ns xs ∧ Ext [] w (l.root_ :: ns) w1 := by
  obtain ⟨o, ho⟩ := hb.defined hf
  refine ⟨o, ho, ?_⟩
  intro l w1 hl
  exact hb.of_ok (by rw [ho, hl])

theorem Owns.front_back {w : World T} {self : ListObj} {ns : List Nat} {xs : List T}
    (ho : Owns w self ns xs) (hne : xs ≠ []) :
    front w self = xs.head? ∧ back w self = xs.getLast? := by
  have hlen := ho.length_eq
  constructor
  · cases xs with
    | nil => exact absurd rfl hne
    | cons x xs1 =>
      cases ns with
      | nil => simp at hlen
      | cons n ns1 => simpa using ho.front_eq
  · rcases List.eq_nil_or_concat xs with rfl | ⟨xs1, x, rfl⟩
    · exact absurd rfl hne
    · rcases List.eq_nil_or_concat ns with rfl | ⟨ns1, n, rfl⟩
      · simp at hlen
      · simp only [List.concat_eq_append] at ho ⊢
        rw [ho.back_eq]
        simp

theorem Inv.owns {w : World T} {st : Store} (hi : Inv w st) {x : Nat} {l : ListObj}
    (hx : st x = some l) : ∃ ns xs, Owns w l ns xs := by
  obtain ⟨g, _, h2, _⟩ := hi
  obtain ⟨ns, xs, _, ho⟩ := h2 x l hx
  exact ⟨ns, xs, ho⟩

theorem Inv.owns_pair {w : World T} {st : Store} (hi : Inv w st) {x y : Nat} {a b : ListObj}
    (hxy : x ≠ y) (hx : st x = some a) (hy : st y = some b) :
    ∃ nsa xsa nsb xsb, Owns w a nsa xsa ∧ Owns w b nsb xsb ∧
      (∀ c ∈ b.root_ :: nsb, c ∉ a.root_ :: nsa) := by
  obtain ⟨g, _, h2, h3⟩ := hi
  obtain ⟨nsa, xsa, hga, hoa⟩ := h2 x a hx
  obtain ⟨nsb, xsb, hgb, hob⟩ := h2 y b hy
  refine ⟨nsa, xsa, nsb, xsb, hoa, hob, ?_⟩
  rw [← hga, ← hgb]
  exact h3 y x (Ne.symm hxy)

/-- Calls on one object leave an object that shares no block with it as it was. -/
theorem Owns.untouched {E : Env T} {w w1 : World T} {a a1 b : ListObj} {nsa nsb : List Nat}
    {xsa xsb : List T} (ha : Owns w a nsa xsa) (hb : Owns w b nsb xsb)
    (hd : ∀ c ∈ b.root_ :: nsb, c ∉ a.root_ :: nsa) (ops : List (Op T))
    (h : run E ops w a = .ok a1 w1) : Owns w1 b nsb xsb := by
  obtain ⟨ns1, _, he⟩ := Owns.run_spec ops ha h
  exact (hb.of_ext he hd).1

/-- After `b = a` or `List b(a)` the two objects are well-formed with equal contents and
share no block. -/
theorem copy_made {E : Env T} {fuel : Nat} {st0 st : Store} {w0 w : World T} {a b : Nat}
    {A B : ListObj} (hi : Inv w0 st0) (hab : a ≠ b)
    (hc : exec E fuel st0 w0 (.assign b a) = some (.ok st w) ∨
      exec E fuel st0 w0 (.copy b a) = some (.ok st w))
    (hA : st a = some A) (hB : st b = some B) :
    ∃ nsA nsB xs, Owns w A nsA xs ∧ Owns w B nsB xs ∧
      (∀ c ∈ B.root_ :: nsB, c ∉ A.root_ :: nsA) := by
  rcases hc with hc | hc
  · simp only [ListCpp.exec] at hc
    cases hb0 : st0 b with
    | none => simp [hb0] at hc
    | some B0 =>
      cases ha0 : st0 a with
      | none => simp [hb0, ha0] at hc
      | some A0 =>
        simp only [hb0, ha0, if_neg (Ne.symm hab)] at hc
        obtain ⟨nsa, xsa, nsb, xsb, hoa, hob, hdis⟩ := hi.owns_pair hab ha0 hb0
        have hdis' : ∀ c ∈ A0.root_ :: nsa, c ∉ B0.root_ :: nsb :=
          fun c hc1 hc2 => hdis c hc2 hc1
        rcases hob.assign_spec (E := E) hoa hdis' fuel with
          ⟨l2, w3, ns, k1, k2, k3, _, _, k6⟩ | ⟨w3, k1, _⟩ | ⟨k1, _⟩
        · rw [k1] at hc
          simp only [Option.some.injEq, Outcome.ok.injEq] at hc
          obtain ⟨e1, e2⟩ := hc
          subst e1 e2
          simp only [Function.update_same, Function.update_noteq hab, ha0,
            Option.some.injEq] at hA hB
          subst hA hB
          exact ⟨_, ns, _, k3, k2, fun c hc1 hc2 => k6 c hc2 hc1⟩
        · rw [k1] at hc; simp at hc
        · rw [k1] at hc; simp at hc
  · simp only [ListCpp.exec] at hc
    cases ha0 : st0 a with
    | none => simp [ha0] at hc
    | some A0 =>
      simp only [ha0] at hc
      obtain ⟨hb0, l, hr, hs⟩ := declare_ok hc
      obtain ⟨nsa, xsa, hoa⟩ := hi.owns ha0
      obtain ⟨ns, k1, k2⟩ := (hoa.List_copy_spec (E := E) fuel).of_ok hr
      subst hs
      simp only [Function.update_same, Function.update_noteq hab, ha0,
        Option.some.injEq] at hA hB
      subst hA hB
      refine ⟨nsa, ns, xsa, (hoa.of_ext k2 (by simp)).1, k1, ?_⟩
      intro c hc1 hc2
      exact k2.fresh c hc1 (hoa.live c hc2)

/-! ## The contract of the public members -/

/-- C1: for every sequence of `push_back(v)`, `push_front(v)`, `pop_back()` and
`pop_front()` calls on a freshly constructed empty list that returns without an exception,
`size()` is the length of the simulated sequence, which is the number of pushes minus the
number of pops that removed an element, and the walk from `begin()` to `end()` with `++`
visits exactly the simulated sequence, in order. -/
theorem push_pop_refines_sequence (E : Env T) (w0 w1 w : World T) (l0 l : ListObj)
    (ops : List (Op T)) (h0 : List_alloc E w0 = .ok l0 w1)
    (h : run E ops w1 l0 = .ok l w) :
    size l = (simulate ops []).length ∧
      removals ops 0 ≤ pushes ops ∧ size l = pushes ops - removals ops 0 ∧
      ∀ fuel, size l ≤ fuel → toList fuel w l = some (simulate ops []) := by
  obtain ⟨ho0, _, _⟩ := Owns.init_spec h0
  obtain ⟨ns, ho, _⟩ := Owns.run_spec ops ho0 h
  have hlen := ho.length_eq
  have hsz : size l = (simulate ops []).length := by
    unfold size; rw [ho.size, hlen]
  have hcount := simulate_length ops ([] : List T)
  simp only [List.length_nil, Nat.zero_add] at hcount
  refine ⟨hsz, by omega, by omega, ?_⟩
  intro fuel hf
  exact ho.toList_eq hf

theorem push_pop_refines_sequence_witness :
    sampleFresh = .ok (sampleFresh.obj ⟨0, 0⟩) sampleFresh.world ∧
      sampleCalls = .ok (sampleCalls.obj ⟨0, 0⟩) sampleCalls.world ∧
      size (sampleCalls.obj ⟨0, 0⟩) = 3 - 1 ∧
      toList 2 sampleCalls.world (sampleCalls.obj ⟨0, 0⟩) = some [0, 2] :=
  have h := push_pop_refines_sequence sampleEnv (World.empty Nat) sampleFresh.world
    sampleCalls.world (sampleFresh.obj ⟨0, 0⟩) (sampleCalls.obj ⟨0, 0⟩) sampleOps
    (Outcome.eq_ok_of_isOk ⟨0, 0⟩ sampleFresh (by decide!))
    (Outcome.eq_ok_of_isOk ⟨0, 0⟩ sampleCalls (by decide!))
  ⟨Outcome.eq_ok_of_isOk ⟨0, 0⟩ sampleFresh (by decide!),
    Outcome.eq_ok_of_isOk ⟨0, 0⟩ sampleCalls (by decide!), h.2.2.1,
    h.2.2.2 2 (by decide!)⟩

/-- C2: for every non-empty list of a reachable program state, `front()` is the first and
`back()` the last value of the walk from `begin()` to `end()`; and after `push_back(1)`,
`push_back(2)`, `push_front(0)` on a freshly constructed list the walk yields `[0, 1, 2]`,
`size()` is 3, `front()` is 0 and `back()` is 2. -/
theorem front_back_are_ends (E : Env T) (fuel : Nat) (st : Store) (w : World T) (x : Nat)
    (l : ListObj) (hr : Reachable E fuel st w) (hx : st x = some l)
    (hne : empty l = false) :
    (∃ y ys, toList (size l) w l = some (y :: ys) ∧ front w l = some y ∧
        back w l = (y :: ys).getLast?) ∧
      ∀ (EN : Env Nat) (v0 v1 v3 : World Nat) (l0 l3 : ListObj),
        List_alloc EN v0 = .ok l0 v1 →
        run EN [.push_back 1, .push_back 2, .push_front 0] v1 l0 = .ok l3 v3 →
        toList 3 v3 l3 = some [0, 1, 2] ∧ size l3 = 3 ∧ front v3 l3 = some 0 ∧
          back v3 l3 = some 2 := by
  constructor
  · obtain ⟨ns, xs, ho⟩ := hr.inv.owns hx
    have hlen := ho.length_eq
    have hsz := ho.size
    cases xs with
    | nil =>
      simp only [List.length_nil] at hlen
      rw [← hlen] at hsz
      simp [empty, hsz] at hne
    | cons y ys =>
      obtain ⟨hf, hb⟩ := ho.front_back (by simp)
      exact ⟨y, ys, ho.toList_eq (Nat.le_refl _), by simpa using hf, hb⟩
  · intro EN v0 v1 v3 l0 l3 h0 h
    obtain ⟨ho0, _, _⟩ := Owns.init_spec h0
    obtain ⟨ns, ho, _⟩ := Owns.run_spec _ ho0 h
    have hsim : simulate [Op.push_back 1, Op.push_back 2, Op.push_front 0] ([] : List Nat) =
        [0, 1, 2] := rfl
    rw [hsim] at ho
    have hlen := ho.length_eq
    have hsz : l3.size_ = 3 := by rw [ho.size, ← hlen]; rfl
    obtain ⟨hf, hb⟩ := ho.front_back (by simp)
    exact ⟨ho.toList_eq (by omega), hsz, by simpa using hf, by simpa using hb⟩

theorem front_back_are_ends_witness :
    Reachable sampleEnv 8 sampleStore sampleWorld ∧ sampleStore 0 = some ⟨1, 4⟩ ∧
      empty ⟨1, 4⟩ = false ∧
      (∃ y ys, toList (size ⟨1, 4⟩) sampleWorld ⟨1, 4⟩ = some (y :: ys) ∧
        front sampleWorld ⟨1, 4⟩ = some y ∧ back sampleWorld ⟨1, 4⟩ = (y :: ys).getLast?) ∧
      toList 3 sampleScenario.world (sampleScenario.obj ⟨0, 0⟩) = some [0, 1, 2] ∧
      size (sampleScenario.obj ⟨0, 0⟩) = 3 ∧
      front sampleScenario.world (sampleScenario.obj ⟨0, 0⟩) = some 0 ∧
      back sampleScenario.world (sampleScenario.obj ⟨0, 0⟩) = some 2 :=
  have hr : Reachable sampleEnv 8 sampleStore sampleWorld :=
    reachable_of_succeeded sampleEnv 8 sampleProg (World.empty Nat) (by decide!)
  have h := front_back_are_ends sampleEnv 8 sampleStore sampleWorld 0 ⟨1, 4⟩ hr (by decide!)
    (by decide)
  ⟨hr, by decide!, by decide, h.1,
    h.2 sampleEnv (World.empty Nat) sampleFresh.world sampleScenario.world
      (sampleFresh.obj ⟨0, 0⟩) (sampleScenario.obj ⟨0, 0⟩)
      (Outcome.eq_ok_of_isOk ⟨0, 0⟩ sampleFresh (by decide!))
      (Outcome.eq_ok_of_isOk ⟨0, 0⟩ sampleScenario (by decide!))⟩

/-- C3: the list constructed from an initializer sequence `xs` has `size()` equal to the
length of `xs`, the walk from `begin()` to `end()` yields `xs` in order and the walk from
`rbegin()` to `rend()` yields the reverse of `xs`. The constructor has a defined outcome,
and this holds whenever it returns without an exception. -/
theorem initializer_list_round_trip (E : Env T) (fuel : Nat) (w0 : World T) (xs : List T)
    (hf : xs.length ≤ fuel) :
    ∃ o, List_init E fuel w0 xs = some o ∧
      ∀ l w, o = .ok l w →
        size l = xs.length ∧ toList fuel w l = some xs ∧
          toListRev fuel w l = some xs.reverse := by
  obtain ⟨o, ho, hok⟩ := (List_init_spec E fuel w0 xs).elim hf
  refine ⟨o, ho, ?_⟩
  intro l w hl
  obtain ⟨ns, hown, _⟩ := hok l w hl
  have hsz : l.size_ = xs.length := by rw [hown.size, hown.length_eq]
  exact ⟨hsz, hown.toList_eq (by omega), hown.toListRev_eq (by omega)⟩

theorem initializer_list_round_trip_witness :
    [4, 5, 6].length ≤ 3 ∧
      succeeded (List_init sampleEnv 3 (World.empty Nat) [4, 5, 6]) = true ∧
      ∃ o, List_init sampleEnv 3 (World.empty Nat) [4, 5, 6] = some o ∧
        ∀ l w, o = .ok l w →
          size l = [4, 5, 6].length ∧ toList 3 w l = some [4, 5, 6] ∧
            toListRev 3 w l = some [4, 5, 6].reverse :=
  ⟨by decide, by decide!,
    initializer_list_round_trip sampleEnv 3 (World.empty Nat) [4, 5, 6] (by decide)⟩

/-- C4: for every list `A` of a reachable program state the copy constructor `List(A)`
has a defined outcome, and when it returns the copy `B`, `B.size()` equals `A.size()`,
the walk over `B` yields the values of `A` in the same order, every node of `B`, its
sentinel included, is a block that was not outstanding before and is no node of `A`, and
`A` (a const argument) has the same nodes with the same contents and the same walk as
before. -/
theorem copy_constructor_deep_copy (E : Env T) (fuel0 fuel : Nat) (st : Store) (w : World T)
    (y : Nat) (A : ListObj) (hr : Reachable E fuel0 st w) (hy : st y = some A)
    (hf : size A ≤ fuel) :
    ∃ o, List_copy E fuel w A = some o ∧
      ∀ B w1, o = .ok B w1 →
        size B = size A ∧
          (∃ xs, toList fuel w A = some xs ∧ toList fuel w1 B = some xs ∧
            toList fuel w1 A = some xs) ∧
          ∃ nA nB, nodes fuel w A = some nA ∧ nodes fuel w1 A = some nA ∧
            nodes fuel w1 B = some nB ∧
            (∀ a ∈ nB, a ∉ nA ∧ a ∉ w.live ∧ a ∈ w1.live) ∧
            ∀ a ∈ nA, a ∈ w1.live ∧ w1.cell a = w.cell a := by
  obtain ⟨nsA, xsA, hoA⟩ := hr.inv.owns hy
  have hfA : A.size_ ≤ fuel := hf
  obtain ⟨o, ho, hok⟩ := (hoA.List_copy_spec (E := E) fuel).elim hfA
  refine ⟨o, ho, ?_⟩
  intro B w1 hB
  obtain ⟨nsB, hoB, he⟩ := hok B w1 hB
  have hoA1 := (hoA.of_ext he (by simp)).1
  have hsz : B.size_ = A.size_ := by
    rw [hoB.size, hoA.size, ← hoB.length_eq, ← hoA.length_eq]
  have hfB : B.size_ ≤ fuel := by omega
  refine ⟨hsz, ⟨xsA, hoA.toList_eq hfA, hoB.toList_eq hfB, hoA1.toList_eq hfA⟩,
    A.root_ :: nsA, B.root_ :: nsB, hoA.nodes_eq hfA, hoA1.nodes_eq hfA, hoB.nodes_eq hfB,
    ?_, ?_⟩
  · intro a ha
    have hfresh := he.fresh a ha
    exact ⟨fun hm => hfresh (hoA.live a hm), hfresh, hoB.live a ha⟩
  · intro a ha
    exact he.1 a (hoA.live a ha) (by simp)

theorem copy_constructor_deep_copy_witness :
    Reachable sampleEnv 8 sampleStore sampleWorld ∧ sampleStore 0 = some ⟨1, 4⟩ ∧
      size ⟨1, 4⟩ ≤ 4 ∧ succeeded (List_copy sampleEnv 4 sampleWorld ⟨1, 4⟩) = true ∧
      ∃ o, List_copy sampleEnv 4 sampleWorld ⟨1, 4⟩ = some o ∧
        ∀ B w1, o = .ok B w1 → size B = size ⟨1, 4⟩ :=
  have hr : Reachable sampleEnv 8 sampleStore sampleWorld :=
    reachable_of_succeeded sampleEnv 8 sampleProg (World.empty Nat) (by decide!)
  ⟨hr, by decide!, by decide, by decide!,
    (copy_constructor_deep_copy sampleEnv 8 4 sampleStore sampleWorld 0 ⟨1, 4⟩ hr
      (by decide!) (by decide)).imp fun _ h => ⟨h.1, fun B w1 hB => (h.2 B w1 hB).1⟩⟩

/-- C5: after `b = a` or `List b(a)` with two different variables, the objects `A` and
`B` hold the same values, and every run of `push_back`, `push_front`, `pop_back` and
`pop_front` calls on `A` leaves the walk over `B` and its agreement with `B.size()` as
they were, and every such run on `B` leaves those of `A` as they were. -/
theorem copy_independence (E : Env T) (fuel0 : Nat) (st0 st : Store) (w0 w : World T)
    (a b : Nat) (A B : ListObj) (hr : Reachable E fuel0 st0 w0) (hab : a ≠ b)
    (hc : exec E fuel0 st0 w0 (.assign b a) = some (.ok st w) ∨
      exec E fuel0 st0 w0 (.copy b a) = some (.ok st w))
    (hA : st a = some A) (hB : st b = some B) (ops : List (Op T)) :
    ∃ xs, size A = xs.length ∧ size B = xs.length ∧
      (∀ fuel, xs.length ≤ fuel → toList fuel w A = some xs ∧ toList fuel w B = some xs) ∧
      (∀ A1 w1, run E ops w A = .ok A1 w1 →
        ∀ fuel, xs.length ≤ fuel → toList fuel w1 B = some xs) ∧
      ∀ B1 w1, run E ops w B = .ok B1 w1 →
        ∀ fuel, xs.length ≤ fuel → toList fuel w1 A = some xs := by
  obtain ⟨nsA, nsB, xs, hoA, hoB, hd⟩ := copy_made hr.inv hab hc hA hB
  have hsA : A.size_ = xs.length := by rw [hoA.size, hoA.length_eq]
  have hsB : B.size_ = xs.length := by rw [hoB.size, hoB.length_eq]
  refine ⟨xs, hsA, hsB, ?_, ?_, ?_⟩
  · intro fuel hf
    exact ⟨hoA.toList_eq (by omega), hoB.toList_eq (by omega)⟩
  · intro A1 w1 h fuel hf
    exact (hoA.untouched hoB hd ops h).toList_eq (by omega)
  · intro B1 w1 h fuel hf
    exact (hoB.untouched hoA (fun c hc1 hc2 => hd c hc2 hc1) ops h).toList_eq (by omega)

theorem copy_independence_witness :
    Reachable sampleEnv 8 sampleStore sampleWorld ∧ (0 : Nat) ≠ 4 ∧
      succeeded sampleCopy = true ∧
      resultObj (fun _ => none) sampleCopy 0 = some ⟨1, 4⟩ ∧
      resultObj (fun _ => none) sampleCopy 4 = some ⟨19, 4⟩ ∧
      ∃ xs : List Nat, size ⟨1, 4⟩ = xs.length ∧ size ⟨19, 4⟩ = xs.length ∧
        (∀ fuel, xs.length ≤ fuel →
          toList fuel (resultWorld sampleWorld sampleCopy) ⟨1, 4⟩ = some xs ∧
            toList fuel (resultWorld sampleWorld sampleCopy) ⟨19, 4⟩ = some xs) ∧
        (∀ A1 w1, run sampleEnv sampleOps (resultWorld sampleWorld sampleCopy) ⟨1, 4⟩ =
            .ok A1 w1 → ∀ fuel, xs.length ≤ fuel → toList fuel w1 ⟨19, 4⟩ = some xs) ∧
        ∀ B1 w1, run sampleEnv sampleOps (resultWorld sampleWorld sampleCopy) ⟨19, 4⟩ =
            .ok B1 w1 → ∀ fuel, xs.length ≤ fuel → toList fuel w1 ⟨1, 4⟩ = some xs :=
  have hr : Reachable sampleEnv 8 sampleStore sampleWorld :=
    reachable_of_succeeded sampleEnv 8 sampleProg (World.empty Nat) (by decide!)
  have hc : exec sampleEnv 8 sampleStore sampleWorld (.copy 4 0) =
      some (.ok (resultObj (fun _ => none) sampleCopy) (resultWorld sampleWorld sampleCopy)) :=
    eq_ok_of_succeeded (fun _ => none) sampleWorld sampleCopy (by decide!)
  ⟨hr, by decide, by decide!, by decide!, by decide!,
    copy_independence sampleEnv 8 sampleStore (resultObj (fun _ => none) sampleCopy)
      sampleWorld (resultWorld sampleWorld sampleCopy) 0 4 ⟨1, 4⟩ ⟨19, 4⟩ hr (by decide)
      (Or.inr hc) (by decide!) (by decide!) sampleOps⟩

/-- C6: copy assignment. When the argument is the object itself the call returns at once
and nothing changes. For two different objects `A` and `B` of a reachable program state
the call `A = B` has a defined outcome, and when it returns, `A.size()` and the walk over
`A` are the size and the walk `B` had before, and `B` has the same size and walk as
before. -/
theorem copy_assignment (E : Env T) (fuel0 fuel : Nat) (st : Store) (w : World T)
    (a b : Nat) (A B : ListObj) (hr : Reachable E fuel0 st w) (hab : a ≠ b)
    (hA : st a = some A) (hB : st b = some B) (hfa : size A ≤ fuel) (hfb : size B ≤ fuel) :
    assign E fuel w A .self = some (.ok A w) ∧
      ∃ o, assign E fuel w A (.distinct B) = some o ∧
        ∀ A1 w1, o = .ok A1 w1 →
          size A1 = size B ∧
            ∃ xs, toList fuel w B = some xs ∧ toList fuel w1 A1 = some xs ∧
              toList fuel w1 B = some xs := by
  refine ⟨rfl, ?_⟩
  obtain ⟨nsa, xsa, nsb, xsb, hoa, hob, hd⟩ := hr.inv.owns_pair hab hA hB
  have hfa' : A.size_ ≤ fuel := hfa
  have hfb' : B.size_ ≤ fuel := hfb
  rcases hoa.assign_spec (E := E) hob hd fuel with
    ⟨l, w1, ns, k1, k2, k3, _⟩ | ⟨w1, k1, _⟩ | ⟨_, k2⟩
  · refine ⟨_, k1, ?_⟩
    intro A1 w2 h
    simp only [Outcome.ok.injEq] at h
    obtain ⟨e1, e2⟩ := h
    subst e1 e2
    have hsz : l.size_ = B.size_ := by
      rw [k2.size, hob.size, ← k2.length_eq, ← hob.length_eq]
    exact ⟨hsz, xsb, hob.toList_eq hfb', k2.toList_eq (by omega), k3.toList_eq hfb'⟩
  · refine ⟨_, k1, ?_⟩
    intro A1 w2 h
    simp at h
  · omega

theorem copy_assignment_witness :
    Reachable sampleEnv 8 sampleStore sampleWorld ∧ (2 : Nat) ≠ 0 ∧
      sampleStore 2 = some ⟨14, 3⟩ ∧ sampleStore 0 = some ⟨1, 4⟩ ∧
      size ⟨14, 3⟩ ≤ 4 ∧ size ⟨1, 4⟩ ≤ 4 ∧
      succeeded (assign sampleEnv 4 sampleWorld ⟨14, 3⟩ (.distinct ⟨1, 4⟩)) = true ∧
      assign sampleEnv 4 sampleWorld ⟨14, 3⟩ .self = some (.ok ⟨14, 3⟩ sampleWorld) ∧
      ∃ o, assign sampleEnv 4 sampleWorld ⟨14, 3⟩ (.distinct ⟨1, 4⟩) = some o ∧
        ∀ A1 w1, o = .ok A1 w1 →
          size A1 = size ⟨1, 4⟩ ∧
            ∃ xs, toList 4 sampleWorld ⟨1, 4⟩ = some xs ∧ toList 4 w1 A1 = some xs ∧
              toList 4 w1 ⟨1, 4⟩ = some xs :=
  have hr : Reachable sampleEnv 8 sampleStore sampleWorld :=
    reachable_of_succeeded sampleEnv 8 sampleProg (World.empty Nat) (by decide!)
  ⟨hr, by decide, by decide!, by decide!, by decide, by decide, by decide!,
    copy_assignment sampleEnv 8 4 sampleStore sampleWorld 2 0 ⟨14, 3⟩ ⟨1, 4⟩ hr (by decide)
      (by decide!) (by decide!) (by decide) (by decide)⟩

/-- C7: the constructor `List(n, v)` has a defined outcome, and when it returns,
`size()` is `n` and the walk from `begin()` to `end()` yields exactly `n` elements, each
equal to `v`. -/
theorem count_value_constructor (E : Env T) (fuel : Nat) (w0 : World T) (n : Nat) (v : T)
    (hf : n ≤ fuel) :
    ∃ o, List_count_value E fuel w0 n v = some o ∧
      ∀ l w, o = .ok l w → size l = n ∧ toList fuel w l = some (List.replicate n v) := by
  obtain ⟨o, ho, hok⟩ := (List_count_value_spec E fuel w0 n v).elim hf
  refine ⟨o, ho, ?_⟩
  intro l w hl
  obtain ⟨ns, hown, _⟩ := hok l w hl
  have hsz : l.size_ = n := by
    rw [hown.size, ← hown.length_eq, List.length_replicate]
  exact ⟨hsz, hown.toList_eq (by omega)⟩

theorem count_value_constructor_witness :
    3 ≤ 3 ∧ succeeded (List_count_value sampleEnv 3 (World.empty Nat) 3 7) = true ∧
      ∃ o, List_count_value sampleEnv 3 (World.empty Nat) 3 7 = some o ∧
        ∀ l w, o = .ok l w → size l = 3 ∧ toList 3 w l = some (List.replicate 3 7) :=
  ⟨by decide, by decide!,
    count_value_constructor sampleEnv 3 (World.empty Nat) 3 7 (by decide)⟩

/-- C8: on every empty list of a reachable program state `pop_back()` and `pop_front()`
return the object and the heap as they were: `size()` stays 0, the `next` and `prev` of
the sentinel still point to the sentinel, and the outstanding blocks and their contents
are the same. -/
theorem pop_on_empty_is_noop (E : Env T) (fuel : Nat) (st : Store) (w : World T) (x : Nat)
    (l : ListObj) (hr : Reachable E fuel st w) (hx : st x = some l) (he : empty l = true) :
    pop_back w l = (l, w) ∧ pop_front w l = (l, w) ∧
      size (pop_back w l).1 = 0 ∧ size (pop_front w l).1 = 0 ∧
      ((pop_back w l).2.cell l.root_).next = l.root_ ∧
      ((pop_back w l).2.cell l.root_).prev = l.root_ ∧
      ((pop_front w l).2.cell l.root_).next = l.root_ ∧
      ((pop_front w l).2.cell l.root_).prev = l.root_ ∧
      (pop_back w l).2.live = w.live ∧ (pop_front w l).2.live = w.live := by
  obtain ⟨ns, xs, ho⟩ := hr.inv.owns hx
  have hs0 : l.size_ = 0 := by simpa [empty] using he
  have hns : ns = [] := List.length_eq_zero.mp (by rw [← ho.size]; exact hs0)
  subst hns
  have hl := ho.linked
  simp only [Linked, LinkedF] at hl
  rw [ho.pop_back_nil, ho.pop_front_nil]
  exact ⟨rfl, rfl, hs0, hs0, hl.1, hl.2, hl.1, hl.2, rfl, rfl⟩

theorem pop_on_empty_is_noop_witness :
    Reachable sampleEnv 8 sampleStore sampleWorld ∧ sampleStore 3 = some ⟨18, 0⟩ ∧
      empty ⟨18, 0⟩ = true ∧ pop_back sampleWorld ⟨18, 0⟩ = (⟨18, 0⟩, sampleWorld) ∧
      pop_front sampleWorld ⟨18, 0⟩ = (⟨18, 0⟩, sampleWorld) :=
  have hr : Reachable sampleEnv 8 sampleStore sampleWorld :=
    reachable_of_succeeded sampleEnv 8 sampleProg (World.empty Nat) (by decide!)
  have h := pop_on_empty_is_noop sampleEnv 8 sampleStore sampleWorld 3 ⟨18, 0⟩ hr
    (by decide!) (by decide)
  ⟨hr, by decide!, by decide, h.1, h.2.1⟩

/-- C9: the list the constructor `List(alloc)` returns is empty: `empty()` is true,
`size()` is 0 and `begin() == end()`. -/
theorem fresh_list_is_empty (E : Env T) (w0 w : World T) (l : ListObj)
    (h : List_alloc E w0 = .ok l w) :
    empty l = true ∧ size l = 0 ∧ (begin_ w l).eq (end_ l) = true ∧
      (begin_ w l).ne (end_ l) = false := by
  obtain ⟨_, hs, _, hn, _, _⟩ := init_ok h
  simp [empty, size, hs, begin_, end_, ListIterator.eq, ListIterator.ne, hn]

theorem fresh_list_is_empty_witness :
    sampleFresh = .ok (sampleFresh.obj ⟨0, 0⟩) sampleFresh.world ∧
      empty (sampleFresh.obj ⟨0, 0⟩) = true ∧ size (sampleFresh.obj ⟨0, 0⟩) = 0 :=
  have h := fresh_list_is_empty sampleEnv (World.empty Nat) sampleFresh.world
    (sampleFresh.obj ⟨0, 0⟩) (Outcome.eq_ok_of_isOk ⟨0, 0⟩ sampleFresh (by decide!))
  ⟨Outcome.eq_ok_of_isOk ⟨0, 0⟩ sampleFresh (by decide!), h.1, h.2.1⟩

/-- C10: on every list with at least two elements of a reachable program state,
`pop_front()` removes exactly the first data node: the remaining data nodes are the same
blocks in the same order, each still outstanding and holding the value it held, so an
iterator that references one of them dereferences to the same value as before; the
removed node is the only block whose value is destroyed and the only block that is
deallocated. -/
theorem pop_front_keeps_other_nodes (E : Env T) (fuel : Nat) (st : Store) (w : World T)
    (x : Nat) (l : ListObj) (hr : Reachable E fuel st w) (hx : st x = some l)
    (h2 : 2 ≤ size l) :
    ∃ n m ns, nodes (size l) w l = some (l.root_ :: n :: m :: ns) ∧
      nodes (size l) (pop_front w l).2 (pop_front w l).1 = some (l.root_ :: m :: ns) ∧
      size (pop_front w l).1 = size l - 1 ∧
      (∀ a ∈ m :: ns, a ≠ n ∧ a ∈ (pop_front w l).2.live ∧
        (∃ v, ({ node_ := a } : ListIterator).deref w = some v ∧
          ({ node_ := a } : ListIterator).deref (pop_front w l).2 = some v)) ∧
      (∀ a, a ∈ (pop_front w l).2.live ↔ a ∈ w.live ∧ a ≠ n) ∧
      (∀ a, a ≠ n → ((pop_front w l).2.cell a).value = (w.cell a).value) ∧
      ((pop_front w l).2.cell n).value = none ∧ (w.cell n).value ≠ none := by
  obtain ⟨ns0, xs0, ho⟩ := hr.inv.owns hx
  have hsz : ns0.length = l.size_ := ho.size.symm
  have hlen := ho.length_eq
  have h2' : 2 ≤ l.size_ := h2
  match ns0, xs0, ho, hsz, hlen with
  | [], _, _, hsz, _ => simp at hsz; omega
  | [_], _, _, hsz, _ => simp at hsz; omega
  | n :: m :: ns, [], _, _, hlen => simp at hlen
  | n :: m :: ns, y :: ys, ho, hsz, hlen =>
    obtain ⟨he, ho1, _⟩ := ho.pop_front_cons
    obtain ⟨_, hlive, hroot, _, hval, _⟩ := Owns.del_spec [] (m :: ns) [] ys ho rfl
    rw [← he] at hlive hroot hval
    have hs1 : (pop_front w l).1.size_ = l.size_ - 1 := by
      rw [ho1.size, ← hsz]; simp
    have hnd := ho.nodup
    refine ⟨n, m, ns, ho.nodes_eq (Nat.le_refl _), ?_, hs1, ?_, ?_, ?_, ?_, ?_⟩
    · have := ho1.nodes_eq (show (pop_front w l).1.size_ ≤ size l by unfold size; omega)
      rw [hroot] at this
      exact this
    · intro a ha
      have hne : a ≠ n := by
        rintro rfl
        simp only [List.nodup_cons] at hnd
        exact hnd.2.1 ha
      have hv := ho1.vals
      have hmem : (w.cell a).value ∈ (m :: ns).map (fun c => (w.cell c).value) :=
        List.mem_map_of_mem _ ha
      have hv0 := ho.vals
      simp only [List.map_cons, List.cons.injEq] at hv0
      have hv1 : (m :: ns).map (fun c => (w.cell c).value) = ys.map some := by
        simpa using hv0.2
      rw [hv1] at hmem
      obtain ⟨v, _, hv2⟩ := List.mem_map.mp hmem
      refine ⟨hne, ho1.live a (by rw [hroot]; exact List.mem_cons_of_mem _ ha), v, ?_, ?_⟩
      · exact hv2.symm
      · simp only [ListIterator.deref]
        rw [hval a hne]; exact hv2.symm
    · intro a
      rw [hlive]
      simp
    · exact hval
    · have hr' : n ≠ l.root_ := by
        rintro rfl
        simp at hnd
      have hl := ho.linked
      simp only [Linked, LinkedF] at hl
      have hn : (w.cell n).next ≠ n := by
        rw [hl.2.2.1]
        rintro rfl
        simp at hnd
      have := (@del_eq T w l n hr' hn).2.2.2.2.1 n
      rw [← he] at this
      simpa using this
    · have hv0 := ho.vals
      simp only [List.map_cons, List.cons.injEq] at hv0
      rw [hv0.1]
      simp

theorem pop_front_keeps_other_nodes_witness :
    Reachable sampleEnv 8 sampleStore sampleWorld ∧ sampleStore 0 = some ⟨1, 4⟩ ∧
      2 ≤ size ⟨1, 4⟩ ∧ size (pop_front sampleWorld ⟨1, 4⟩).1 = size ⟨1, 4⟩ - 1 :=
  have hr : Reachable sampleEnv 8 sampleStore sampleWorld :=
    reachable_of_succeeded sampleEnv 8 sampleProg (World.empty Nat) (by decide!)
  ⟨hr, by decide!, by decide,
    (pop_front_keeps_other_nodes sampleEnv 8 sampleStore sampleWorld 0 ⟨1, 4⟩ hr (by decide!)
      (by decide)).elim fun _ h => h.elim fun _ h => h.elim fun _ h => h.2.2.1⟩

/-! ## Ring shape: walking in both directions -/

theorem LinkedF.inverse {nx pv : Nat → Nat} :
    ∀ {ns : List Nat} {a z : Nat}, LinkedF nx pv a ns z →
      (∀ x ∈ a :: ns, pv (nx x) = x) ∧ (∀ x ∈ ns ++ [z], nx (pv x) = x)
  | [], a, z, h => by
    simp only [LinkedF] at h
    constructor
    · intro x hx
      simp only [List.mem_singleton] at hx
      subst hx
      rw [h.1, h.2]
    · intro x hx
      simp only [List.nil_append, List.mem_singleton] at hx
      subst hx
      rw [h.2, h.1]
  | b :: rest, a, z, h => by
    simp only [LinkedF] at h
    obtain ⟨h1, h2, h3⟩ := h
    obtain ⟨i1, i2⟩ := LinkedF.inverse h3
    constructor
    · intro x hx
      rcases List.mem_cons.mp hx with rfl | hx
      · rw [h1, h2]
      · exact i1 x hx
    · intro x hx
      rw [List.cons_append] at hx
      rcases List.mem_cons.mp hx with rfl | hx
      · rw [h2, h1]
      · exact i2 x hx

theorem LinkedF.reversed {nx pv : Nat → Nat} :
    ∀ {ns : List Nat} {a z : Nat}, LinkedF nx pv a ns z → LinkedF pv nx z ns.reverse a
  | [], a, z, h => by
    simp only [LinkedF, List.reverse_nil] at h ⊢
    exact ⟨h.2, h.1⟩
  | b :: rest, a, z, h => by
    simp only [LinkedF] at h
    obtain ⟨h1, h2, h3⟩ := h
    rw [List.reverse_cons, LinkedF_append]
    refine ⟨LinkedF.reversed h3, ?_⟩
    simp only [LinkedF]
    exact ⟨h2, h1⟩

theorem LinkedF.iterate {nx pv : Nat → Nat} :
    ∀ {ns : List Nat} {a z : Nat} (k : Nat), LinkedF nx pv a ns z → k ≤ ns.length →
      (ns ++ [z])[k]? = some (nx^[k + 1] a)
  | ns, a, z, 0, h, _ => by
    have := h.next_head
    rw [List.head?_eq_getElem?] at this
    simpa using this
  | [], a, z, k + 1, _, hk => by simp at hk
  | b :: rest, a, z, k + 1, h, hk => by
    simp only [LinkedF] at h
    obtain ⟨h1, _, h3⟩ := h
    have ih := LinkedF.iterate k h3 (by simpa using hk)
    rw [List.cons_append, List.getElem?_cons_succ, ih, Function.iterate_succ_apply (n := k + 1),
      h1]

theorem advance_node (w : World T) :
    ∀ (k : Nat) (it : ListIterator),
      (it.advance w k).node_ = (fun p => (w.cell p).next)^[k] it.node_
  | 0, it => rfl
  | k + 1, it => by
    rw [ListIterator.advance, advance_node w k, Function.iterate_succ_apply]
    rfl

theorem retreat_node (w : World T) :
    ∀ (k : Nat) (it : ListIterator),
      (it.retreat w k).node_ = (fun p => (w.cell p).prev)^[k] it.node_
  | 0, it => rfl
  | k + 1, it => by
    rw [ListIterator.retreat, retreat_node w k, Function.iterate_succ_apply]
    rfl

/-- From the sentinel, `k + 1` steps of `++` reach the `k`-th element of the data nodes
followed by the sentinel, and `k + 1` steps of `--` reach the `k`-th element of the data
nodes in reverse order followed by the sentinel. -/
theorem Owns.steps {w : World T} {l : ListObj} {ns : List Nat} {xs : List T}
    (ho : Owns w l ns xs) (k : Nat) (hk : k ≤ ns.length) :
    (ns ++ [l.root_])[k]? = some ((end_ l).advance w (k + 1)).node_ ∧
      (ns.reverse ++ [l.root_])[k]? = some ((end_ l).retreat w (k + 1)).node_ := by
  have hl := ho.linked
  unfold Linked at hl
  constructor
  · rw [advance_node]
    exact hl.iterate k hk
  · rw [retreat_node]
    exact hl.reversed.iterate k (by simpa using hk)

theorem Owns.links_inverse {w : World T} {l : ListObj} {ns : List Nat} {xs : List T}
    (ho : Owns w l ns xs) :
    ∀ n ∈ l.root_ :: ns,
      (w.cell (w.cell n).next).prev = n ∧ (w.cell (w.cell n).prev).next = n := by
  have hl := ho.linked
  unfold Linked at hl
  obtain ⟨h1, h2⟩ := hl.inverse
  intro n hn
  refine ⟨h1 n hn, h2 n ?_⟩
  simp at hn ⊢
  tauto

/-! ## Invariants of the ring -/

/-- C13: in every reachable program state and for every list of it, the walk along
`next` from the sentinel back to the sentinel visits distinct data nodes whose number is
the size counter, and every node `n` of the ring satisfies `n.prev.next == n` and
`n.next.prev == n`. -/
theorem ring_is_consistent (E : Env T) (fuel : Nat) (st : Store) (w : World T) (x : Nat)
    (l : ListObj) (hr : Reachable E fuel st w) (hx : st x = some l) :
    ∃ ns, nodes (size l) w l = some (l.root_ :: ns) ∧ (l.root_ :: ns).Nodup ∧
      ns.length = size l ∧
      ∀ n ∈ l.root_ :: ns,
        (w.cell (w.cell n).prev).next = n ∧ (w.cell (w.cell n).next).prev = n := by
  obtain ⟨ns, xs, ho⟩ := hr.inv.owns hx
  refine ⟨ns, ho.nodes_eq (Nat.le_refl _), ho.nodup, ho.size.symm, ?_⟩
  intro n hn
  exact ⟨(ho.links_inverse n hn).2, (ho.links_inverse n hn).1⟩

theorem ring_is_consistent_witness :
    Reachable sampleEnv 8 sampleStore sampleWorld ∧ sampleStore 0 = some ⟨1, 4⟩ ∧
      ∃ ns, nodes (size ⟨1, 4⟩) sampleWorld ⟨1, 4⟩ = some (1 :: ns) ∧ (1 :: ns).Nodup ∧
        ns.length = size ⟨1, 4⟩ ∧
        ∀ n ∈ 1 :: ns,
          (sampleWorld.cell (sampleWorld.cell n).prev).next = n ∧
            (sampleWorld.cell (sampleWorld.cell n).next).prev = n :=
  have hr : Reachable sampleEnv 8 sampleStore sampleWorld :=
    reachable_of_succeeded sampleEnv 8 sampleProg (World.empty Nat) (by decide!)
  ⟨hr, by decide!,
    ring_is_consistent sampleEnv 8 sampleStore sampleWorld 0 ⟨1, 4⟩ hr (by decide!)⟩

/-- C14, as the code has it: in every reachable program state, `size() + 1` steps along
`next` from the sentinel return to the sentinel and no smaller positive number of steps
does; the same holds along `prev`. -/
theorem ring_closes_after_size_plus_one (E : Env T) (fuel : Nat) (st : Store) (w : World T)
    (x : Nat) (l : ListObj) (hr : Reachable E fuel st w) (hx : st x = some l) :
    (end_ l).advance w (size l + 1) = end_ l ∧ (end_ l).retreat w (size l + 1) = end_ l ∧
      ∀ k, 0 < k → k ≤ size l →
        (end_ l).advance w k ≠ end_ l ∧ (end_ l).retreat w k ≠ end_ l := by
  obtain ⟨ns, xs, ho⟩ := hr.inv.owns hx
  have hsz : size l = ns.length := ho.size
  have hroot : l.root_ ∉ ns := (List.nodup_cons.mp ho.nodup).1
  have key : ∀ (it : ListIterator) (p : Nat), it.node_ = p → it = { node_ := p } := by
    intro it p h; cases it; simp_all
  refine ⟨?_, ?_, ?_⟩
  · obtain ⟨h1, _⟩ := ho.steps ns.length (Nat.le_refl _)
    rw [List.getElem?_append_right (Nat.le_refl _)] at h1
    simp only [Nat.sub_self, List.getElem?_cons_zero, Option.some.injEq] at h1
    rw [hsz]
    exact key _ _ h1.symm
  · obtain ⟨_, h2⟩ := ho.steps ns.length (Nat.le_refl _)
    rw [List.getElem?_append_right (by simp)] at h2
    simp only [List.length_reverse, Nat.sub_self, List.getElem?_cons_zero,
      Option.some.injEq] at h2
    rw [hsz]
    exact key _ _ h2.symm
  · intro k hk0 hk
    obtain ⟨j, rfl⟩ : ∃ j, k = j + 1 := ⟨k - 1, by omega⟩
    have hj : j < ns.length := by omega
    obtain ⟨h1, h2⟩ := ho.steps j (by omega)
    rw [List.getElem?_append_left hj] at h1
    rw [List.getElem?_append_left (by simpa using hj)] at h2
    constructor
    · intro e
      rw [e] at h1
      exact hroot (List.mem_iff_getElem?.mpr ⟨_, h1⟩)
    · intro e
      rw [e] at h2
      exact hroot (List.mem_reverse.mp (List.mem_iff_getElem?.mpr ⟨_, h2⟩))

theorem ring_closes_after_size_plus_one_witness :
    Reachable sampleEnv 8 sampleStore sampleWorld ∧ sampleStore 0 = some ⟨1, 4⟩ ∧
      (end_ ⟨1, 4⟩).advance sampleWorld (size ⟨1, 4⟩ + 1) = end_ ⟨1, 4⟩ ∧
      (end_ ⟨1, 4⟩).retreat sampleWorld (size ⟨1, 4⟩ + 1) = end_ ⟨1, 4⟩ :=
  have hr : Reachable sampleEnv 8 sampleStore sampleWorld :=
    reachable_of_succeeded sampleEnv 8 sampleProg (World.empty Nat) (by decide!)
  have h := ring_closes_after_size_plus_one sampleEnv 8 sampleStore sampleWorld 0 ⟨1, 4⟩ hr
    (by decide!)
  ⟨hr, by decide!, h.1, h.2.1⟩

/-- C14 as stated fails: the list `v0` of the sample program has four elements, and four
steps along `next` from its sentinel, or four along `prev`, do not end at the sentinel. -/
theorem ring_closes_after_size_counterexample :
    Reachable sampleEnv 8 sampleStore sampleWorld ∧ sampleStore 0 = some ⟨1, 4⟩ ∧
      size ⟨1, 4⟩ = 4 ∧
      (end_ ⟨1, 4⟩).advance sampleWorld (size ⟨1, 4⟩) ≠ end_ ⟨1, 4⟩ ∧
      (end_ ⟨1, 4⟩).retreat sampleWorld (size ⟨1, 4⟩) ≠ end_ ⟨1, 4⟩ :=
  ⟨reachable_of_succeeded sampleEnv 8 sampleProg (World.empty Nat) (by decide!),
    by decide!, by decide, by decide!, by decide!⟩

/-- C18: for every list of a reachable program state the walk from `rbegin()` to
`rend()` yields the reverse of the walk from `begin()` to `end()`; and the `k`-th step of
`--` from the sentinel reaches the node that the `k`-th step of `++` reaches counted from
the other end of the data nodes. -/
theorem reverse_walk_is_reverse (E : Env T) (fuel0 fuel : Nat) (st : Store) (w : World T)
    (x : Nat) (l : ListObj) (hr : Reachable E fuel0 st w) (hx : st x = some l)
    (hf : size l ≤ fuel) :
    (∃ xs, toList fuel w l = some xs ∧ toListRev fuel w l = some xs.reverse) ∧
      ∃ ns, nodes fuel w l = some (l.root_ :: ns) ∧
        ∀ k, k < ns.length →
          ns[k]? = some ((end_ l).advance w (k + 1)).node_ ∧
            ns.reverse[k]? = some ((end_ l).retreat w (k + 1)).node_ := by
  obtain ⟨ns, xs, ho⟩ := hr.inv.owns hx
  have hf' : l.size_ ≤ fuel := hf
  refine ⟨⟨xs, ho.toList_eq hf', ho.toListRev_eq hf'⟩, ns, ho.nodes_eq hf', ?_⟩
  intro k hk
  obtain ⟨h1, h2⟩ := ho.steps k (by omega)
  rw [List.getElem?_append_left hk] at h1
  rw [List.getElem?_append_left (by simpa using hk)] at h2
  exact ⟨h1, h2⟩

theorem reverse_walk_is_reverse_witness :
    Reachable sampleEnv 8 sampleStore sampleWorld ∧ sampleStore 0 = some ⟨1, 4⟩ ∧
      size ⟨1, 4⟩ ≤ 4 ∧
      ∃ xs, toList 4 sampleWorld ⟨1, 4⟩ = some xs ∧
        toListRev 4 sampleWorld ⟨1, 4⟩ = some xs.reverse :=
  have hr : Reachable sampleEnv 8 sampleStore sampleWorld :=
    reachable_of_succeeded sampleEnv 8 sampleProg (World.empty Nat) (by decide!)
  ⟨hr, by decide!, by decide,
    (reverse_walk_is_reverse sampleEnv 8 4 sampleStore sampleWorld 0 ⟨1, 4⟩ hr (by decide!)
      (by decide)).1⟩

/-- C19: for every list of a reachable program state and every iterator that references
a node of its ring, the sentinel included, `--` after `++` and `++` after `--` give an
iterator equal to it; on a non-empty list `--end()` references the last data node, whose
value is `back()`, and `++` from there equals `end()`. -/
theorem increment_decrement_inverse (E : Env T) (fuel : Nat) (st : Store) (w : World T)
    (x : Nat) (l : ListObj) (hr : Reachable E fuel st w) (hx : st x = some l) :
    ∃ ns, nodes (size l) w l = some (l.root_ :: ns) ∧
      (∀ n ∈ l.root_ :: ns,
        ((({ node_ := n } : ListIterator).inc w).dec w).eq { node_ := n } = true ∧
          ((({ node_ := n } : ListIterator).dec w).inc w).eq { node_ := n } = true) ∧
      (empty l = false →
        ns.getLast? = some ((end_ l).dec w).node_ ∧
          ((end_ l).dec w).deref w = back w l ∧
          (((end_ l).dec w).inc w).eq (end_ l) = true) := by
  obtain ⟨ns, xs, ho⟩ := hr.inv.owns hx
  refine ⟨ns, ho.nodes_eq (Nat.le_refl _), ?_, ?_⟩
  · intro n hn
    obtain ⟨h1, h2⟩ := ho.links_inverse n hn
    simp [ListIterator.eq, ListIterator.inc, ListIterator.dec, h1, h2]
  · intro hne
    have hl := ho.linked
    unfold Linked at hl
    have hp := hl.prev_last
    have hns : ns ≠ [] := by
      rintro rfl
      have := ho.size
      simp [empty, this] at hne
    obtain ⟨h1, _⟩ := ho.links_inverse l.root_ (by simp)
    obtain ⟨_, h2⟩ := ho.links_inverse l.root_ (by simp)
    refine ⟨?_, rfl, ?_⟩
    · cases ns with
      | nil => exact absurd rfl hns
      | cons n ns1 =>
        rw [List.getLast?_cons_cons] at hp
        exact hp
    · simp [ListIterator.eq, ListIterator.inc, ListIterator.dec, end_, h2]

theorem increment_decrement_inverse_witness :
    Reachable sampleEnv 8 sampleStore sampleWorld ∧ sampleStore 0 = some ⟨1, 4⟩ ∧
      ∃ ns, nodes (size ⟨1, 4⟩) sampleWorld ⟨1, 4⟩ = some (1 :: ns) ∧
        ∀ n ∈ 1 :: ns,
          ((({ node_ := n } : ListIterator).inc sampleWorld).dec sampleWorld).eq
              { node_ := n } = true ∧
            ((({ node_ := n } : ListIterator).dec sampleWorld).inc sampleWorld).eq
              { node_ := n } = true :=
  have hr : Reachable sampleEnv 8 sampleStore sampleWorld :=
    reachable_of_succeeded sampleEnv 8 sampleProg (World.empty Nat) (by decide!)
  ⟨hr, by decide!,
    (increment_decrement_inverse sampleEnv 8 sampleStore sampleWorld 0 ⟨1, 4⟩ hr
      (by decide!)).imp fun _ h => ⟨h.1, h.2.1⟩⟩

/-! ## The internal insertions -/

theorem insert_default_eq (E : Env T) (w : World T) (self : ListObj) (node : Nat) :
    insert_default E w self node = insert E.defaultAsCopy w self node E.dflt := rfl

theorem insert_ok_log {E : Env T} {w w1 : World T} {self self1 : ListObj} {node : Nat} {v : T}
    (h : insert E w self node v = .ok self1 w1) :
    ∃ tmp, E.pick w.live = some tmp ∧ E.copyThrows w.ctors v = false ∧
      w1.live = tmp :: w.live ∧ w1.log = w.log ++ [.allocate tmp] ∧
      w1.ctors = w.ctors + 1 := by
  unfold insert allocate at h
  cases hp : E.pick w.live with
  | none => simp [hp] at h
  | some tmp =>
    simp only [hp, construct] at h
    by_cases hc : E.copyThrows w.ctors v = true
    · simp [hc] at h
    · simp only [hc, if_false, Bool.false_eq_true] at h
      injection h with h1 h2
      subst h1 h2
      exact ⟨tmp, rfl, by simpa using hc, rfl, rfl, rfl⟩

theorem insert_threw_log {E : Env T} {w w1 : World T} {self : ListObj} {node : Nat} {v : T}
    (h : insert E w self node v = .threw w1) :
    (E.pick w.live = none ∧ w1 = w) ∨
      ∃ tmp, E.pick w.live = some tmp ∧ E.copyThrows w.ctors v = true ∧
        w1.ctors = w.ctors + 1 ∧ w1.log = w.log ++ [.allocate tmp, .deallocate tmp] := by
  unfold insert allocate at h
  cases hp : E.pick w.live with
  | none =>
    simp only [hp, Outcome.threw.injEq] at h
    exact Or.inl ⟨rfl, h.symm⟩
  | some tmp =>
    simp only [hp, construct] at h
    by_cases hc : E.copyThrows w.ctors v = true
    · simp only [hc, if_true, Outcome.threw.injEq] at h
      subst h
      exact Or.inr ⟨tmp, rfl, hc, rfl, by simp [deallocate]⟩
    · simp [hc] at h

/-- Every node of a ring ends a prefix of the ring that starts at the sentinel. -/
theorem split_at_node {root p : Nat} {ns : List Nat} (hp : p ∈ root :: ns) :
    ∃ pre post, ns = pre ++ post ∧ (root :: pre).getLast? = some p := by
  obtain ⟨s, t, hst⟩ := List.append_of_mem hp
  cases s with
  | nil =>
    simp only [List.nil_append, List.cons.injEq] at hst
    exact ⟨[], ns, rfl, by simp [hst.1]⟩
  | cons r s1 =>
    simp only [List.cons_append, List.cons.injEq] at hst
    refine ⟨s1 ++ [p], t, by simp [hst.2], ?_⟩
    rw [← List.cons_append, List.getLast?_append]
    simp

/-- C15, as the code has it: on every list of a reachable program state and for every
node `p` of its ring, the sentinel included, `insert(p, value)` and `insert(p)` allocate
one node and splice it immediately after `p`: afterwards `new.prev == p`,
`p.next == new`, `new.next` is the former successor of `p` and the `prev` of that
successor is `new`; the walk over the nodes has `new` right behind `p`, and `size_` is
one more. -/
theorem insert_splices_after (E : Env T) (fuel : Nat) (st : Store) (w w1 : World T)
    (x : Nat) (l l1 : ListObj) (all : List Nat) (p : Nat) (v : T)
    (hr : Reachable E fuel st w) (hx : st x = some l)
    (hall : nodes (size l) w l = some all) (hp : p ∈ all)
    (h : insert E w l p v = .ok l1 w1 ∨ (v = E.dflt ∧ insert_default E w l p = .ok l1 w1)) :
    ∃ new, new ∉ w.live ∧ w1.live = new :: w.live ∧ w1.log = w.log ++ [.allocate new] ∧
      (w1.cell new).value = some v ∧
      (w1.cell new).prev = p ∧ (w1.cell p).next = new ∧
      (w1.cell new).next = (w.cell p).next ∧ (w1.cell (w.cell p).next).prev = new ∧
      size l1 = size l + 1 ∧
      ∃ pre post, all = pre ++ p :: post ∧
        nodes (size l1) w1 l1 = some (pre ++ p :: new :: post) := by
  obtain ⟨ns, xs, ho⟩ := hr.inv.owns hx
  have hall' := ho.nodes_eq (Nat.le_refl l.size_)
  have heq : all = l.root_ :: ns := by
    unfold size at hall
    rw [hall] at hall'
    exact Option.some.inj hall'
  subst heq
  obtain ⟨pre, post, hns, hlast⟩ := split_at_node hp
  subst hns
  have hxl := ho.length_eq
  have hsplit : xs = xs.take pre.length ++ xs.drop pre.length := (List.take_append_drop _ _).symm
  have hlen : (xs.take pre.length).length = pre.length := by
    rw [List.length_take, hxl, List.length_append]; omega
  have hE : ∃ E1 : Env T, insert E1 w l p v = .ok l1 w1 := by
    rcases h with h | ⟨hv, h⟩
    · exact ⟨E, h⟩
    · rw [insert_default_eq, ← hv] at h
      exact ⟨_, h⟩
  obtain ⟨E1, h1⟩ := hE
  obtain ⟨t1, hp1, _, hlive, hlog, _⟩ := insert_ok_log h1
  obtain ⟨t2, hp2, _, _, hcells⟩ := insert_ok h1
  obtain ⟨t3, hfresh, hlive3, hroot, ho1, _, _⟩ :=
    Owns.insert_spec pre post (xs.take pre.length) (xs.drop pre.length)
      (by rw [← hsplit]; exact ho) hlen hlast h1
  obtain rfl : t2 = t1 := by
    rw [hp1] at hp2
    exact (Option.some.inj hp2).symm
  obtain rfl : t3 = t2 := by
    rw [hlive] at hlive3
    exact (List.cons.inj hlive3).1.symm
  have hpl : p ∈ w.live := ho.live p (by
    have := List.mem_of_mem_getLast? hlast
    simp at this ⊢; tauto)
  have htp : t3 ≠ p := by
    rintro rfl
    exact hfresh hpl
  obtain ⟨hnx, hpv, hval⟩ := hcells htp
  have hsz : l1.size_ = l.size_ + 1 := by
    rw [ho1.size, ho.size]
    simp only [List.length_append, List.length_cons]
    omega
  refine ⟨t3, hfresh, hlive, hlog, ?_, ?_, ?_, ?_, ?_, hsz, ?_⟩
  · rw [hval t3, if_pos rfl]
  · rw [hpv t3]
    by_cases e : t3 = (w.cell p).next
    · exfalso
      have hl := ho.linked
      unfold Linked at hl
      have hmem : (w.cell p).next ∈ l.root_ :: (pre ++ post) := by
        obtain ⟨i1, _⟩ := hl.inverse
        rcases List.eq_nil_or_concat pre with rfl | ⟨pre1, q, rfl⟩
        · simp only [List.getLast?_singleton, Option.some.injEq] at hlast
          subst hlast
          have := List.mem_of_mem_head? hl.next_head
          simp at this ⊢; tauto
        · simp only [List.concat_eq_append] at hlast hl ⊢
          have hq : q = p := by
            rw [← List.cons_append, List.getLast?_append] at hlast
            simpa using hlast
          subst hq
          rw [List.append_assoc, List.singleton_append, LinkedF_append] at hl
          have := List.mem_of_mem_head? hl.2.next_head
          simp at this ⊢; tauto
      rw [← e] at hmem
      exact hfresh (ho.live _ hmem)
    · rw [if_neg e, if_pos rfl]
  · rw [hnx p, if_neg (Ne.symm htp), if_pos rfl]
  · rw [hnx t3, if_pos rfl]
  · rw [hpv, if_pos rfl]
  · obtain ⟨s, t, hst⟩ : ∃ s t, l.root_ :: pre = s ++ [p] ∧ True := by
      have hne : l.root_ :: pre ≠ [] := by simp
      refine ⟨(l.root_ :: pre).dropLast, trivial, ?_, trivial⟩
      have := List.dropLast_append_getLast? p (by simpa using hlast)
      exact this.symm
    refine ⟨s, post, ?_, ?_⟩
    · rw [← List.cons_append, hst.1]; simp
    · have := ho1.nodes_eq (Nat.le_refl l1.size_)
      unfold size
      rw [this, hroot, ← List.cons_append, hst.1]
      simp

theorem insert_splices_after_witness :
    Reachable sampleEnv 8 sampleStore sampleWorld ∧ sampleStore 0 = some ⟨1, 4⟩ ∧
      nodes (size ⟨1, 4⟩) sampleWorld ⟨1, 4⟩ = some [1, 5, 2, 3, 4] ∧
      (2 : Nat) ∈ [1, 5, 2, 3, 4] ∧
      sampleInsertAt =
        Outcome.ok (Outcome.obj (ListObj.mk 0 0) sampleInsertAt) (Outcome.world sampleInsertAt) ∧
      ∃ new, new ∉ sampleWorld.live ∧
        ((Outcome.world sampleInsertAt).cell new).prev = 2 ∧
        ((Outcome.world sampleInsertAt).cell 2).next = new :=
  have hr : Reachable sampleEnv 8 sampleStore sampleWorld :=
    reachable_of_succeeded sampleEnv 8 sampleProg (World.empty Nat) (by decide!)
  have hi : sampleInsertAt =
      Outcome.ok (Outcome.obj (ListObj.mk 0 0) sampleInsertAt) (Outcome.world sampleInsertAt) :=
    Outcome.eq_ok_of_isOk (ListObj.mk 0 0) sampleInsertAt (by decide!)
  have h := insert_splices_after sampleEnv 8 sampleStore sampleWorld
    (Outcome.world sampleInsertAt) 0 (ListObj.mk 1 4)
    (Outcome.obj (ListObj.mk 0 0) sampleInsertAt) [1, 5, 2, 3, 4] 2 9 hr (by decide!)
    (by decide!) (by decide) (Or.inl hi)
  ⟨hr, by decide!, by decide!, by decide, hi,
    h.elim fun new hn => ⟨new, hn.1, hn.2.2.2.2.1, hn.2.2.2.2.2.1⟩⟩
/-- C15 as stated fails: on the list `[0, 1, 2]` with `p` the node of the value 1 (address
2), `insert(p, 9)` returns with the new node at address 5; its `next` is the node of the
value 2 (address 3), not `p`, the `prev` of `p` is still the node of the value 0 (address
4), and the walk yields `[0, 1, 9, 2]`. -/
theorem insert_splices_before_counterexample :
    toList 3 sampleScenario.world (sampleScenario.obj ⟨0, 0⟩) = some [0, 1, 2] ∧
      nodes 3 sampleScenario.world (sampleScenario.obj ⟨0, 0⟩) = some [1, 4, 2, 3] ∧
      sampleInsert.isOk = true ∧ sampleInsert.world.live = 5 :: sampleScenario.world.live ∧
      ¬ ((sampleInsert.world.cell 5).next = 2 ∧ (sampleInsert.world.cell 2).prev = 5) ∧
      (sampleInsert.world.cell 5).next = 3 ∧ (sampleInsert.world.cell 2).prev = 4 ∧
      toList 4 sampleInsert.world (sampleInsert.obj ⟨0, 0⟩) = some [0, 1, 9, 2] := by
  refine ⟨?_, ?_, ?_, ?_, ?_, ?_, ?_, ?_⟩ <;> decide!

/-! ## Splicing an existing node -/

/-- C16: when the allocator hands out a block `tmp` and the construction of the value
throws, `push_back(value)` and `push_front(value)` leave by the exception; the heap they
leave has every cell, so every `next`, `prev` and stored value, and the outstanding
blocks as before, and the allocator calls they made are the allocation of `tmp` and its
deallocation. The object is not written: its `size_` is read only after the
construction. The call `push_back()` leaves the same heap when constructing `T()`
throws. -/
theorem failed_push_changes_nothing (E : Env T) (w : World T) (l : ListObj) (v : T)
    (tmp : Nat) (hp : E.pick w.live = some tmp) (hc : E.copyThrows w.ctors v = true) :
    ∃ w1, push_back E w l v = .threw w1 ∧ push_front E w l v = .threw w1 ∧
      w1.cell = w.cell ∧ w1.live = w.live ∧
      w1.log = w.log ++ [.allocate tmp, .deallocate tmp] ∧
      (∀ fuel, toList fuel w1 l = toList fuel w l ∧ nodes fuel w1 l = nodes fuel w l) ∧
      (E.defaultThrows w.ctors = true → push_back_default E w l = .threw w1) := by
  have key : ∀ node, insert E w l node v =
      .threw (deallocate { w with
        live := tmp :: w.live, log := w.log ++ [.allocate tmp], ctors := w.ctors + 1 } tmp) := by
    intro node
    unfold insert allocate
    simp only [hp, construct, hc, if_true]
  have hcell : (deallocate { w with
      live := tmp :: w.live, log := w.log ++ [.allocate tmp], ctors := w.ctors + 1 } tmp).cell =
      w.cell := rfl
  refine ⟨_, key _, key _, hcell, ?_, by simp [deallocate], ?_, ?_⟩
  · have hfresh := E.pick_fresh _ _ hp
    simp only [deallocate, List.filter_cons, bne_self_eq_false, Bool.false_eq_true, if_false]
    rw [List.filter_eq_self]
    intro a ha
    simp only [bne_iff_ne, ne_eq]
    rintro rfl
    exact hfresh ha
  · have hwalk : ∀ {β : Type} (f : Nat → Option β) (last : ListIterator) (fuel : Nat)
        (it : ListIterator) (w2 : World T), w2.cell = w.cell →
        for_each w2 (fun i => f i.node_) last fuel it =
          for_each w (fun i => f i.node_) last fuel it := by
      intro β f last fuel
      induction fuel with
      | zero =>
        intro it w2 _
        unfold for_each
        rfl
      | succ k ih =>
        intro it w2 h2
        rw [for_each, for_each]
        simp only [ListIterator.inc, h2, ih _ w2 h2]
    intro fuel
    constructor
    · unfold toList begin_
      have := hwalk (fun n => (w.cell n).value) (end_ l) fuel
        { node_ := (w.cell l.root_).next } _ hcell
      simpa [ListIterator.deref, hcell] using this
    · unfold nodes begin_
      have := hwalk (fun n => some n) (end_ l) fuel { node_ := (w.cell l.root_).next } _ hcell
      simp only [hcell]
      rw [this]
  · intro hd
    unfold push_back_default insert_default allocate
    simp only [hp, construct_default, hd, if_true]

theorem failed_push_changes_nothing_witness :
    sampleThrowEnv.pick sampleThrowCalls.world.live = some 4 ∧
      sampleThrowEnv.copyThrows sampleThrowCalls.world.ctors 3 = true ∧
      ∃ w1, push_back sampleThrowEnv sampleThrowCalls.world ⟨1, 2⟩ 3 = .threw w1 ∧
        push_front sampleThrowEnv sampleThrowCalls.world ⟨1, 2⟩ 3 = .threw w1 ∧
        w1.cell = sampleThrowCalls.world.cell ∧ w1.live = sampleThrowCalls.world.live :=
  ⟨by decide!, by decide!,
    (failed_push_changes_nothing sampleThrowEnv sampleThrowCalls.world ⟨1, 2⟩ 3 4
      (by decide!) (by decide!)).imp fun _ h => ⟨h.1, h.2.1, h.2.2.1, h.2.2.2.1⟩⟩

/-- The loop of `destroy()` on a ring segment: with enough fuel it runs one round for
each node of the segment, in order. -/
theorem destroy_loop_eq (root : Nat) :
    ∀ (ns : List Nat) (a : Nat) (w : World T) (fuel : Nat), Linked w a ns root → root ∉ ns →
      ns.length ≤ fuel →
      destroy_loop root fuel w (w.cell a).next =
        some (ns.foldl (fun w1 n => deallocate (destroyNode w1 n) n) w)
  | [], a, w, fuel, hl, _, _ => by
    simp only [Linked, LinkedF] at hl
    unfold destroy_loop
    simp [hl.1]
  | n :: ns, a, w, fuel, hl, hr, hf => by
    simp only [Linked, LinkedF] at hl
    have hne : n ≠ root := fun e => hr (by simp [e])
    cases fuel with
    | zero => simp at hf
    | succ fuel =>
      have hstep : destroy_loop root (fuel + 1) w (w.cell a).next =
          destroy_loop root fuel (deallocate (destroyNode w n) n)
            ((deallocate (destroyNode w n) n).cell n).next := by
        rw [destroy_loop]
        simp only [hl.1, hne, if_false, deallocate_cell, destroyNode_next]
      have hl' : Linked (deallocate (destroyNode w n) n) n ns root := by
        unfold Linked
        refine LinkedF.congr ?_ ?_ hl.2.2
        · intro x _; simp only [deallocate_cell, destroyNode_next]
        · intro x _; simp only [deallocate_cell, destroyNode_prev]
      rw [hstep, destroy_loop_eq root ns n _ fuel hl'
        (fun hm => hr (List.mem_cons_of_mem _ hm)) (by simpa using hf)]
      rfl

theorem destroy_fold_log :
    ∀ (ns : List Nat) (w : World T),
      (ns.foldl (fun w1 n => deallocate (destroyNode w1 n) n) w).log =
        w.log ++ ns.flatMap (fun n => [Event.destroy n, Event.deallocate n])
  | [], w => by simp
  | n :: ns, w => by
    rw [List.foldl_cons, destroy_fold_log ns]
    simp [deallocate, destroyNode]

theorem destroy_fold_live :
    ∀ (ns : List Nat) (w : World T),
      (ns.foldl (fun w1 n => deallocate (destroyNode w1 n) n) w).live =
        w.live.filter (fun a => decide (a ∉ ns))
  | [], w => by simp
  | n :: ns, w => by
    rw [List.foldl_cons, destroy_fold_live ns]
    simp only [deallocate, destroyNode, List.filter_filter]
    apply List.filter_congr
    intro x _
    by_cases hx : x = n <;> simp [hx]

theorem allocations_append (es fs : List Event) :
    allocations (es ++ fs) = allocations es ++ allocations fs := by
  induction es with
  | nil => rfl
  | cons e es ih => cases e <;> simp [allocations, ih]

theorem deallocations_append (es fs : List Event) :
    deallocations (es ++ fs) = deallocations es ++ deallocations fs := by
  induction es with
  | nil => rfl
  | cons e es ih => cases e <;> simp [deallocations, ih]

theorem destructions_append (es fs : List Event) :
    destructions (es ++ fs) = destructions es ++ destructions fs := by
  induction es with
  | nil => rfl
  | cons e es ih => cases e <;> simp [destructions, ih]

theorem allocations_teardown (ns : List Nat) :
    allocations (ns.flatMap (fun n => [Event.destroy n, Event.deallocate n])) = [] := by
  induction ns with
  | nil => rfl
  | cons n ns ih => simpa [allocations] using ih

theorem deallocations_teardown (ns : List Nat) :
    deallocations (ns.flatMap (fun n => [Event.destroy n, Event.deallocate n])) = ns := by
  induction ns with
  | nil => rfl
  | cons n ns ih => simpa [deallocations] using ih

theorem destructions_teardown (ns : List Nat) :
    destructions (ns.flatMap (fun n => [Event.destroy n, Event.deallocate n])) = ns := by
  induction ns with
  | nil => rfl
  | cons n ns ih => simpa [destructions] using ih

theorem allocations_map (ns : List Nat) : allocations (ns.map Event.allocate) = ns := by
  induction ns with
  | nil => rfl
  | cons n ns ih => simpa [allocations] using ih

theorem deallocations_map (ns : List Nat) : deallocations (ns.map Event.allocate) = [] := by
  induction ns with
  | nil => rfl
  | cons n ns ih => simpa [deallocations] using ih

/-- What `destroy()` does on a ring: defined exactly when the fuel covers the data nodes,
with the heap it leaves. -/
theorem destroy_eq {w : World T} {l : ListObj} {ns : List Nat}
    (hl : Linked w l.root_ ns l.root_) (hn : l.root_ ∉ ns) (fuel : Nat) :
    (ns.length ≤ fuel → destroy fuel w l = some ({ l with size_ := 0 },
        deallocate (ns.foldl (fun w1 n => deallocate (destroyNode w1 n) n) w) l.root_)) ∧
      (fuel < ns.length → destroy fuel w l = none) := by
  constructor
  · intro hf
    unfold destroy
    rw [destroy_loop_eq l.root_ ns l.root_ w fuel hl hn hf]
  · intro hf
    rcases destroy_loop_spec l.root_ ns l.root_ w fuel hl hn with ⟨_, _, _, _, _, _, h⟩ | ⟨h, _⟩
    · omega
    · unfold destroy
      rw [h]

/-- C17: on a well-formed list, with the data nodes `ns` linked into a ring through the
sentinel, all distinct, and `size_` their number, `destroy()` ends: its loop is still
running after fewer than `size_` rounds and leaves after `size_` rounds. The allocator
calls it makes are `destroy(n)`, `deallocate(n)` for each data node `n` in ring order and
then `deallocate(root_)`: each data node is destroyed once and deallocated once, the
sentinel is deallocated once, `size_ + 1` blocks in all, and no block is allocated. The
object is left with `size_ == 0` and the blocks of the list are no longer outstanding. -/
theorem destroy_releases_every_node (w : World T) (l : ListObj) (ns : List Nat)
    (hl : Linked w l.root_ ns l.root_) (hn : (l.root_ :: ns).Nodup)
    (hs : size l = ns.length) :
    nodes (size l) w l = some (l.root_ :: ns) ∧
      (∀ fuel, fuel < size l → destroy fuel w l = none) ∧
      ∃ l1 w1 es, (∀ fuel, size l ≤ fuel → destroy fuel w l = some (l1, w1)) ∧
        size l1 = 0 ∧ l1.root_ = l.root_ ∧ w1.log = w.log ++ es ∧
        es = ns.flatMap (fun n => [Event.destroy n, Event.deallocate n]) ++
          [Event.deallocate l.root_] ∧
        destructions es = ns ∧ deallocations es = ns ++ [l.root_] ∧ allocations es = [] ∧
        (deallocations es).Nodup ∧ (deallocations es).length = size l + 1 ∧
        (destructions es).length = size l ∧
        (∀ a, a ∈ w1.live ↔ a ∈ w.live ∧ a ∉ l.root_ :: ns) ∧
        ∀ a, a ∉ ns → w1.cell a = w.cell a := by
  have hr : l.root_ ∉ ns := (List.nodup_cons.mp hn).1
  have hs' : l.size_ = ns.length := hs
  obtain ⟨h1, h2⟩ : (∀ fuel, ns.length ≤ fuel → destroy fuel w l = some ({ l with size_ := 0 },
        deallocate (ns.foldl (fun w1 n => deallocate (destroyNode w1 n) n) w) l.root_)) ∧
      (∀ fuel, fuel < ns.length → destroy fuel w l = none) :=
    ⟨fun fuel => (destroy_eq hl hr fuel).1, fun fuel => (destroy_eq hl hr fuel).2⟩
  have hd : deallocations (ns.flatMap (fun n => [Event.destroy n, Event.deallocate n]) ++
      [Event.deallocate l.root_]) = ns ++ [l.root_] := by
    rw [deallocations_append, deallocations_teardown]; rfl
  have hx : destructions (ns.flatMap (fun n => [Event.destroy n, Event.deallocate n]) ++
      [Event.deallocate l.root_]) = ns := by
    rw [destructions_append, destructions_teardown]; simp [destructions]
  refine ⟨?_, ?_, { l with size_ := 0 },
    deallocate (ns.foldl (fun w1 n => deallocate (destroyNode w1 n) n) w) l.root_,
    ns.flatMap (fun n => [Event.destroy n, Event.deallocate n]) ++ [Event.deallocate l.root_],
    ?_, rfl, rfl, ?_, rfl, hx, hd, ?_, ?_, ?_, ?_, ?_, ?_⟩
  · unfold nodes begin_ end_
    rw [for_each_linked w _ ns ns _ _ (size l) hl hr (by rw [hs]) (by simp)]
  · intro fuel hf
    exact h2 fuel (by rw [← hs]; exact hf)
  · intro fuel hf
    exact h1 fuel (by rw [← hs]; exact hf)
  · show (ns.foldl (fun w1 n => deallocate (destroyNode w1 n) n) w).log ++ _ = _
    rw [destroy_fold_log, List.append_assoc]
  · rw [allocations_append, allocations_teardown]; rfl
  · rw [hd]
    have := List.nodup_cons.mp hn
    rw [List.nodup_append]
    refine ⟨this.2, by simp, ?_⟩
    intro a ha hb
    simp only [List.mem_singleton] at hb
    subst hb
    exact this.1 ha
  · rw [hd, hs]; simp
  · rw [hx, hs]
  · intro a
    rw [mem_deallocate, destroy_fold_live]
    simp only [List.mem_filter, decide_eq_true_eq, List.mem_cons, not_or]
    tauto
  · intro a ha
    rcases destroy_loop_spec l.root_ ns l.root_ w ns.length hl hr with
      ⟨w1, k1, _, k3, _, _, _⟩ | ⟨_, k⟩
    · rw [destroy_loop_eq l.root_ ns l.root_ w ns.length hl hr (le_refl _)] at k1
      simp only [Option.some.injEq] at k1
      rw [deallocate_cell, k1]
      exact k3 a ha
    · omega

theorem destroy_releases_every_node_witness :
    Linked sampleWorld (ListObj.mk 1 4).root_ [5, 2, 3, 4] (ListObj.mk 1 4).root_ ∧
      ((ListObj.mk 1 4).root_ :: [5, 2, 3, 4]).Nodup ∧
      size (ListObj.mk 1 4) = [5, 2, 3, 4].length ∧
      (∀ fuel, fuel < size (ListObj.mk 1 4) → destroy fuel sampleWorld (ListObj.mk 1 4) = none) ∧
      ∃ l1 w1 es,
        (∀ fuel, size (ListObj.mk 1 4) ≤ fuel →
          destroy fuel sampleWorld (ListObj.mk 1 4) = some (l1, w1)) ∧
        size l1 = 0 ∧ w1.log = sampleWorld.log ++ es ∧
        deallocations es = [5, 2, 3, 4] ++ [1] :=
  have hl : Linked sampleWorld (ListObj.mk 1 4).root_ [5, 2, 3, 4] (ListObj.mk 1 4).root_ :=
    ⟨by decide!, by decide!, by decide!, by decide!, by decide!, by decide!, by decide!,
      by decide!, by decide!, by decide!⟩
  have h := destroy_releases_every_node sampleWorld (ListObj.mk 1 4) [5, 2, 3, 4] hl
    (by decide) (by decide)
  ⟨hl, by decide, by decide, h.2.1,
    h.2.2.imp fun _ h1 => h1.imp fun _ h2 => h2.imp fun _ h3 =>
      ⟨h3.1, h3.2.1, h3.2.2.2.1, h3.2.2.2.2.2.2.1⟩⟩

/-! ## Allocator calls of the bulk constructors -/

theorem destroy_fold_cell :
    ∀ (ns : List Nat) (w : World T) (a : Nat), a ∉ ns →
      (ns.foldl (fun w1 n => deallocate (destroyNode w1 n) n) w).cell a = w.cell a
  | [], w, a, _ => rfl
  | n :: ns, w, a, ha => by
    rw [List.foldl_cons, destroy_fold_cell ns _ a (fun hm => ha (List.mem_cons_of_mem _ hm))]
    have hne : a ≠ n := fun e => ha (by simp [e])
    simp [deallocate, destroyNode, Function.update_noteq hne]

theorem init_ok_log {E : Env T} {w w1 : World T} {self : ListObj}
    (h : init E w = .ok self w1) :
    w1.log = w.log ++ [.allocate self.root_] ∧ w1.ctors = w.ctors := by
  unfold init allocate at h
  cases hp : E.pick w.live with
  | none => simp [hp] at h
  | some root =>
    simp only [hp] at h
    injection h with h1 h2
    subst h1 h2
    exact ⟨rfl, rfl⟩

theorem init_threw {E : Env T} {w w1 : World T} (h : init E w = .threw w1) : w1 = w := by
  unfold init allocate at h
  cases hp : E.pick w.live with
  | none =>
    simp only [hp, Outcome.threw.injEq] at h
    exact h.symm
  | some a => simp [hp] at h

/-- The loop of the bulk constructors with the allocator calls it makes: either every
value is constructed, or the loop ends at the first call of `push_back` that throws, with
the nodes `added` before it in the ring. -/
theorem Owns.init_loop_trace {E : Env T} :
    ∀ (vs : List T) {w : World T} {self : ListObj} {ns : List Nat} {xs : List T},
      Owns w self ns xs →
      (∃ self1 w1, init_loop E vs w self = .ok (self1, w1) ∧
          ∀ i x, vs[i]? = some x → E.copyThrows (w.ctors + i) x = false) ∨
        (∃ self1 w1 added fail xs1, init_loop E vs w self = .error (self1, w1) ∧
          self1.root_ = self.root_ ∧ Owns w1 self1 (ns ++ added) xs1 ∧
          w1.live = added.reverse ++ w.live ∧ (∀ a ∈ added, a ∉ w.live) ∧
          w1.log = w.log ++ added.map Event.allocate ++ fail ∧
          (fail = [] ∨ ∃ tmp, tmp ∉ w.live ∧ tmp ∉ added ∧
            fail = [.allocate tmp, .deallocate tmp]) ∧
          (∀ a ∈ w.live, a ∉ self.root_ :: ns → w1.cell a = w.cell a) ∧
          ∀ i x, i < added.length → vs[i]? = some x → E.copyThrows (w.ctors + i) x = false)
  | [], w, self, ns, xs, ho => by
    left
    exact ⟨self, w, rfl, by simp⟩
  | v :: vs, w, self, ns, xs, ho => by
    cases hp : push_back E w self v with
    | threw w1 =>
      right
      obtain ⟨ho1, _⟩ := ho.of_threw hp
      obtain ⟨hc, hlv⟩ := insert_threw hp
      refine ⟨self, w1, [], ?_, xs, by simp [init_loop, hp], rfl, by simpa using ho1,
        by simpa using hlv, by simp, ?_, ?_, fun a _ _ => by rw [hc], by simp⟩
      · exact if h : E.pick w.live = none then [] else
          [.allocate ((E.pick w.live).getD 0), .deallocate ((E.pick w.live).getD 0)]
      · rcases insert_threw_log hp with ⟨h1, h2⟩ | ⟨tmp, h1, _, _, h4⟩
        · simp [h1, h2]
        · simp [h1, h4]
      · rcases insert_threw_log hp with ⟨h1, h2⟩ | ⟨tmp, h1, _, _, h4⟩
        · left; simp [h1]
        · right
          exact ⟨tmp, E.pick_fresh _ _ h1, by simp, by simp [h1]⟩
    | ok self1 w1 =>
      obtain ⟨tmp, hfresh, hlv, hroot, ho1, he1⟩ := ho.push_back_spec hp
      obtain ⟨tmp', _, hct, hlv', hlog, hctors⟩ := insert_ok_log hp
      obtain rfl : tmp' = tmp := by
        rw [hlv] at hlv'
        exact (List.cons.inj hlv').1.symm
      rcases Owns.init_loop_trace (E := E) vs ho1 with
        ⟨self2, w2, h1, h2⟩ | ⟨self2, w2, added, fail, xs2, h1, h2, h3, h4, h5, h6, h7, h8, h9⟩
      · left
        refine ⟨self2, w2, by simp [init_loop, hp, h1], ?_⟩
        intro i x hi
        cases i with
        | zero =>
          simp only [List.getElem?_cons_zero, Option.some.injEq] at hi
          subst hi
          exact hct
        | succ i =>
          simp only [List.getElem?_cons_succ] at hi
          have := h2 i x hi
          rw [hctors] at this
          rw [← this]
          congr 1
          omega
      · right
        refine ⟨self2, w2, tmp' :: added, fail, xs2, by simp [init_loop, hp, h1],
          h2.trans hroot, by simpa using h3, ?_, ?_, ?_, ?_, ?_, ?_⟩
        · rw [h4, hlv]; simp
        · intro a ha
          rcases List.mem_cons.mp ha with rfl | ha
          · exact hfresh
          · intro hm
            exact h5 a ha (by rw [hlv]; exact List.mem_cons_of_mem _ hm)
        · rw [h6, hlog]; simp
        · rcases h7 with h7 | ⟨t, k1, k2, k3⟩
          · exact Or.inl h7
          · right
            rw [hlv] at k1
            simp only [List.mem_cons, not_or] at k1
            exact ⟨t, k1.2, by simp [k1.1, k2], k3⟩
        · intro a ha hn
          have hat : a ≠ tmp' := fun e => hfresh (e ▸ ha)
          have h1' : w2.cell a = w1.cell a := by
            apply h8 a (by rw [hlv]; exact List.mem_cons_of_mem _ ha)
            rw [hroot]
            simp only [List.mem_cons, List.mem_append, List.not_mem_nil, or_false,
              not_or] at hn ⊢
            exact ⟨hn.1, hn.2, hat⟩
          rw [h1']
          exact (he1.1 a ha hn).2
        · intro i x hi hx
          cases i with
          | zero =>
            simp only [List.getElem?_cons_zero, Option.some.injEq] at hx
            subst hx
            exact hct
          | succ i =>
            simp only [List.getElem?_cons_succ] at hx
            have := h9 i x (by simpa using hi) hx
            rw [hctors] at this
            rw [← this]
            congr 1
            omega

theorem copy_loop_eq_init_loop {E : Env T} :
    ∀ (rest : List Nat) (ys : List T) (p z : Nat) {w : World T} {self : ListObj}
      {ns : List Nat} {xs : List T}, Owns w self ns xs → Linked w p rest z →
      rest.map (fun a => (w.cell a).value) = ys.map some →
      (∀ a ∈ p :: (rest ++ [z]), a ∈ w.live ∧ a ∉ self.root_ :: ns) →
      copy_loop E rest.length w self (w.cell p).next = some (init_loop E ys w self)
  | [], ys, p, z, w, self, ns, xs, ho, _, hv, _ => by
    have : ys = [] := by simpa using hv.symm
    subst this
    rfl
  | c :: rest, ys, p, z, w, self, ns, xs, ho, hl, hv, hd => by
    simp only [Linked, LinkedF] at hl
    cases ys with
    | nil => simp at hv
    | cons y ys =>
      simp only [List.map_cons, List.cons.injEq] at hv
      simp only [List.length_cons, copy_loop, hl.1, hv.1, init_loop]
      cases hp : push_back E w self y with
      | threw w1 => rfl
      | ok self1 w1 =>
        obtain ⟨tmp, _, _, _, ho1, he1⟩ := ho.push_back_spec hp
        have hfr : ∀ a ∈ p :: (c :: rest ++ [z]), a ∈ w1.live ∧ w1.cell a = w.cell a :=
          fun a ha => he1.1 a (hd a ha).1 (hd a ha).2
        have hl1 : Linked w1 c rest z := by
          refine Linked.of_same_cells ?_ hl.2.2
          intro a ha
          exact (hfr a (by simp at ha ⊢; tauto)).2
        have hv1 : rest.map (fun a => (w1.cell a).value) = ys.map some := by
          rw [← hv.2]
          apply List.map_congr_left
          intro a ha
          rw [(hfr a (by simp [ha])).2]
        have hd1 : ∀ a ∈ c :: (rest ++ [z]), a ∈ w1.live ∧ a ∉ self1.root_ :: (ns ++ [tmp]) := by
          intro a ha
          have ha' : a ∈ p :: (c :: rest ++ [z]) := by simp at ha ⊢; tauto
          refine ⟨(hfr a ha').1, ?_⟩
          intro hm
          rcases he1.2 a hm with h | h
          · exact (hd a ha').2 h
          · exact h (hd a ha').1
        exact copy_loop_eq_init_loop (E := E) rest ys c z ho1 hl1 hv1 hd1

/-- The copy constructor on a well-formed source with the values `xs` runs like the
initializer-list constructor on `xs`. -/
theorem Owns.List_copy_eq_init {E : Env T} {w : World T} {other : ListObj} {ns : List Nat}
    {xs : List T} (ho : Owns w other ns xs) (fuel : Nat) :
    List_copy E fuel w other = List_init E fuel w xs := by
  unfold List_copy List_init
  cases hi : init E w with
  | threw w1 => rfl
  | ok self w1 =>
    obtain ⟨hos, he, _⟩ := Owns.init_spec hi
    obtain ⟨ho1, hdis⟩ := ho.of_ext he (by simp)
    have hd : ∀ a ∈ other.root_ :: (ns ++ [other.root_]),
        a ∈ w1.live ∧ a ∉ self.root_ :: [] := by
      intro a ha
      have ha' : a ∈ other.root_ :: ns := by simp at ha ⊢; tauto
      exact ⟨ho1.live a ha', hdis a ha'⟩
    simp only
    rw [ho.size, copy_loop_eq_init_loop (E := E) ns xs other.root_ other.root_ hos ho1.linked
      ho1.vals hd]
    cases init_loop E xs w1 self with
    | ok r => rfl
    | error r => rfl

theorem List_count_value_eq_init (E : Env T) (fuel : Nat) (w : World T) (n : Nat) (v : T) :
    List_count_value E fuel w n v = List_init E fuel w (List.replicate n v) := by
  unfold List_count_value List_init
  cases init E w with
  | threw w1 => rfl
  | ok self w1 =>
    simp only [fill_loop_eq]

theorem Released.idle (w : World T) : Released w w :=
  ⟨rfl, fun _ _ => rfl, [], by simp, by simp [deallocations], by simp [allocations, deallocations]⟩

/-- The initializer-list constructor either returns or throws with all of its own
allocations released; it throws when one of the constructions it reaches would throw. -/
theorem List_init_released (E : Env T) (fuel : Nat) (w : World T) (vs : List T) :
    (∀ w1, List_init E fuel w vs = some (.threw w1) → Released w w1) ∧
      ∀ k x, vs[k]? = some x → E.copyThrows (w.ctors + k) x = true → k ≤ fuel →
        ∃ w1, List_init E fuel w vs = some (.threw w1) := by
  unfold List_init
  cases hi : init E w with
  | threw w0 =>
    obtain rfl := init_threw hi
    refine ⟨?_, fun _ _ _ _ _ => ⟨_, rfl⟩⟩
    intro w1 h
    simp only [Option.some.injEq, Outcome.threw.injEq] at h
    subst h
    exact Released.idle _
  | ok self w0 =>
    obtain ⟨ho, _, hlv0⟩ := Owns.init_spec hi
    obtain ⟨hpick, _, _, _, _, hcell0⟩ := init_ok hi
    obtain ⟨hlog0, hct0⟩ := init_ok_log hi
    have hfresh : self.root_ ∉ w.live := E.pick_fresh _ _ hpick
    simp only
    rcases Owns.init_loop_trace (E := E) vs ho with
      ⟨self1, w1, h1, h2⟩ | ⟨self1, w1, added, fail, xs1, h1, h2, h3, h4, h5, h6, h7, h8, h9⟩
    · rw [h1]
      refine ⟨fun w2 h => by simp at h, ?_⟩
      intro k x hk ht _
      have := h2 k x hk
      rw [hct0, ht] at this
      simp at this
    · rw [h1]
      simp only [List.nil_append] at h3
      have hl : Linked w1 self1.root_ added self1.root_ := h3.linked
      have hn : self1.root_ ∉ added := (List.nodup_cons.mp h3.nodup).1
      have hnd : added.Nodup := (List.nodup_cons.mp h3.nodup).2
      have hrel : Released w (deallocate
          (added.foldl (fun w1 n => deallocate (destroyNode w1 n) n) w1) self1.root_) := by
        rw [h2] at hn ⊢
        have hadded : ∀ a ∈ added, a ∉ w.live := by
          intro a ha hm
          exact h5 a ha (by rw [hlv0]; exact List.mem_cons_of_mem _ hm)
        refine ⟨?_, ?_, ?_⟩
        · show List.filter _ _ = _
          rw [destroy_fold_live, h4, hlv0, List.filter_filter, List.filter_append,
            List.filter_cons]
          have e1 : List.filter (fun a => (a != self.root_ && decide (a ∉ added)))
              added.reverse = [] := by
            rw [List.filter_eq_nil_iff]
            intro a ha
            simp only [List.mem_reverse] at ha
            simp [ha]
          have e2 : List.filter (fun a => (a != self.root_ && decide (a ∉ added)))
              w.live = w.live := by
            rw [List.filter_eq_self]
            intro a ha
            have : a ≠ self.root_ := fun e => hfresh (e ▸ ha)
            have : a ∉ added := fun hm => hadded a hm ha
            simp [*]
          rw [e1, e2]
          simp
        · intro a ha
          have hne : a ≠ self.root_ := fun e => hfresh (e ▸ ha)
          have hna : a ∉ added := fun hm => hadded a hm ha
          rw [deallocate_cell, destroy_fold_cell added w1 a hna,
            h8 a (by rw [hlv0]; exact List.mem_cons_of_mem _ ha) (by simpa using hne),
            hcell0 a hne]
        · refine ⟨[Event.allocate self.root_] ++ added.map Event.allocate ++ fail ++
            added.flatMap (fun n => [Event.destroy n, Event.deallocate n]) ++
            [Event.deallocate self.root_], ?_, ?_, ?_⟩
          · show (added.foldl (fun w1 n => deallocate (destroyNode w1 n) n) w1).log ++ _ = _
            rw [destroy_fold_log, h6, hlog0]
            simp
          · have hD : deallocations ([Event.allocate self.root_] ++ added.map Event.allocate ++
                fail ++ added.flatMap (fun n => [Event.destroy n, Event.deallocate n]) ++
                [Event.deallocate self.root_]) =
                deallocations fail ++ (added ++ [self.root_]) := by
              simp only [deallocations_append, deallocations_map, deallocations_teardown]
              simp [deallocations]
            rw [hD]
            rcases h7 with rfl | ⟨tmp, k1, k2, rfl⟩
            · simp only [deallocations, List.nil_append]
              rw [List.nodup_append]
              refine ⟨hnd, by simp, ?_⟩
              intro a ha hb
              simp only [List.mem_singleton] at hb
              subst hb
              exact hn ha
            · have hts : tmp ≠ self.root_ := by
                rintro rfl
                exact k1 (by rw [hlv0]; simp)
              simp only [deallocations, List.singleton_append]
              rw [List.nodup_cons, List.nodup_append]
              refine ⟨by simp [k2, hts], hnd, by simp, ?_⟩
              intro a ha hb
              simp only [List.mem_singleton] at hb
              subst hb
              exact hn ha
          · have hD : deallocations ([Event.allocate self.root_] ++ added.map Event.allocate ++
                fail ++ added.flatMap (fun n => [Event.destroy n, Event.deallocate n]) ++
                [Event.deallocate self.root_]) =
                deallocations fail ++ (added ++ [self.root_]) := by
              simp only [deallocations_append, deallocations_map, deallocations_teardown]
              simp [deallocations]
            have hA : allocations ([Event.allocate self.root_] ++ added.map Event.allocate ++
                fail ++ added.flatMap (fun n => [Event.destroy n, Event.deallocate n]) ++
                [Event.deallocate self.root_]) =
                self.root_ :: (added ++ allocations fail) := by
              simp only [allocations_append, allocations_map, allocations_teardown]
              simp [allocations]
            rw [hD, hA]
            rcases h7 with rfl | ⟨tmp, k1, k2, rfl⟩
            · simp only [allocations, deallocations, List.nil_append, List.append_nil]
              exact (List.perm_append_singleton _ _).symm
            · simp only [allocations, deallocations, List.singleton_append]
              have p1 : (self.root_ :: (added ++ [tmp])).Perm
                  ((added ++ [tmp]) ++ [self.root_]) :=
                (List.perm_append_singleton _ _).symm
              have p2 : ((added ++ [tmp]) ++ [self.root_]).Perm
                  (([tmp] ++ added) ++ [self.root_]) :=
                List.Perm.append_right _ List.perm_append_comm
              simpa using p1.trans p2
      have hd := destroy_eq hl hn fuel
      constructor
      · intro w2 h
        by_cases hf : added.length ≤ fuel
        · simp only [cleanup, hd.1 hf, Option.some.injEq, Outcome.threw.injEq] at h
          subst h
          exact hrel
        · simp [cleanup, hd.2 (by omega)] at h
      · intro k x hk ht hkf
        have hak : added.length ≤ k := by
          by_contra hlt
          have := h9 k x (by omega) hk
          rw [hct0, ht] at this
          simp at this
        refine ⟨deallocate
          (added.foldl (fun w1 n => deallocate (destroyNode w1 n) n) w1) self1.root_, ?_⟩
        simp only [cleanup, hd.1 (show added.length ≤ fuel by omega)]

theorem eq_threw_of_failed {α : Type} (dw : World T) (r : Option (Outcome T α))
    (h : failed r = true) : r = some (.threw (resultWorld dw r)) := by
  cases r with
  | none => simp [failed] at h
  | some o =>
    cases o with
    | ok a w => simp [failed] at h
    | threw w => rfl

/-- Whatever the copy loop reads, when it has a result it ran like the loop of the
initializer-list constructor on the values it read. -/
theorem copy_loop_some {E : Env T} :
    ∀ (n : Nat) (w : World T) (self : ListObj) (cur : Nat)
      (r : Except (ListObj × World T) (ListObj × World T)),
      copy_loop E n w self cur = some r → ∃ vs, r = init_loop E vs w self
  | 0, w, self, cur, r, h => by
    simp only [copy_loop, Option.some.injEq] at h
    exact ⟨[], h.symm⟩
  | n + 1, w, self, cur, r, h => by
    simp only [copy_loop] at h
    cases hv : (w.cell cur).value with
    | none => simp [hv] at h
    | some v =>
      simp only [hv] at h
      cases hp : push_back E w self v with
      | threw w1 =>
        simp only [hp, Option.some.injEq] at h
        exact ⟨[v], by simp [init_loop, hp, h]⟩
      | ok self1 w1 =>
        simp only [hp] at h
        obtain ⟨vs, hvs⟩ := copy_loop_some n w1 self1 _ r h
        exact ⟨v :: vs, by simp [init_loop, hp, hvs]⟩

theorem List_copy_some {E : Env T} {fuel : Nat} {w : World T} {other : ListObj}
    {o : Outcome T ListObj} (h : List_copy E fuel w other = some o) :
    ∃ vs, List_init E fuel w vs = some o := by
  unfold List_copy at h
  unfold List_init
  cases hi : init E w with
  | threw w1 =>
    simp only [hi] at h
    exact ⟨[], h⟩
  | ok self w1 =>
    simp only [hi] at h
    cases hc : copy_loop E other.size_ w1 self (w1.cell other.root_).next with
    | none => simp [hc] at h
    | some r =>
      obtain ⟨vs, hvs⟩ := copy_loop_some _ _ _ _ r hc
      refine ⟨vs, ?_⟩
      simp only [hc] at h
      simp only [← hvs]
      cases r with
      | ok q => exact h
      | error q => exact h

/-- C11: every bulk constructor call that leaves by an exception, whatever made it throw,
leaves the outstanding blocks exactly as they were before the call, with their contents,
and among the allocator calls it made every block it allocated, the sentinel, the nodes
inserted and the node whose construction failed, was deallocated, no block twice. That
holds for `List(n, v)`, for `List(vs)` and for `List(other)` in every heap. And the
constructors do leave by an exception when the construction of the `k`-th value, counted
from 0, throws: `List(n, v)` with `k < n`, `List(vs)` with `x` the `k`-th of `vs`, and
`List(other)` with a well-formed source whose `k`-th value is `x`. -/
theorem failed_constructor_releases_all (E : Env T) (fuel : Nat) (w : World T) :
    (∀ n v w1, List_count_value E fuel w n v = some (.threw w1) → Released w w1) ∧
      (∀ vs w1, List_init E fuel w vs = some (.threw w1) → Released w w1) ∧
      (∀ other w1, List_copy E fuel w other = some (.threw w1) → Released w w1) ∧
      (∀ n v k, k < n → E.copyThrows (w.ctors + k) v = true → k ≤ fuel →
        ∃ w1, List_count_value E fuel w n v = some (.threw w1) ∧ Released w w1) ∧
      (∀ vs k x, vs[k]? = some x → E.copyThrows (w.ctors + k) x = true → k ≤ fuel →
        ∃ w1, List_init E fuel w vs = some (.threw w1) ∧ Released w w1) ∧
      ∀ other ns xs k x, Owns w other ns xs → xs[k]? = some x →
        E.copyThrows (w.ctors + k) x = true → k ≤ fuel →
        ∃ w1, List_copy E fuel w other = some (.threw w1) ∧ Released w w1 := by
  have hall : ∀ vs w1, List_init E fuel w vs = some (.threw w1) → Released w w1 :=
    fun vs => (List_init_released E fuel w vs).1
  have hthrows : ∀ vs k x, vs[k]? = some x → E.copyThrows (w.ctors + k) x = true → k ≤ fuel →
      ∃ w1, List_init E fuel w vs = some (.threw w1) ∧ Released w w1 := by
    intro vs k x hk ht hf
    obtain ⟨w1, h⟩ := (List_init_released E fuel w vs).2 k x hk ht hf
    exact ⟨w1, h, hall vs w1 h⟩
  refine ⟨?_, hall, ?_, ?_, hthrows, ?_⟩
  · intro n v w1 h
    rw [List_count_value_eq_init] at h
    exact hall _ w1 h
  · intro other w1 h
    obtain ⟨vs, hvs⟩ := List_copy_some h
    exact hall vs w1 hvs
  · intro n v k hn ht hf
    rw [List_count_value_eq_init]
    exact hthrows _ k v (by simp [List.getElem?_replicate, hn]) ht hf
  · intro other ns xs k x ho hk ht hf
    rw [ho.List_copy_eq_init]
    exact hthrows xs k x hk ht hf

theorem failed_constructor_releases_all_witness :
    (∃ w1, List_count_value sampleThrowEnv 4 (World.empty Nat) 4 7 = some (Outcome.threw w1) ∧
        Released (World.empty Nat) w1) ∧
      (∃ w1, List_init sampleThrowEnv 4 (World.empty Nat) [4, 5, 6, 7] =
        some (Outcome.threw w1) ∧ Released (World.empty Nat) w1) ∧
      ∃ w1, List_copy sampleFailEnv 4 sampleFailWorld (ListObj.mk 1 3) =
        some (Outcome.threw w1) ∧ Released sampleFailWorld w1 := by
  have h0 := failed_constructor_releases_all sampleThrowEnv 4 (World.empty Nat)
  have h1 := failed_constructor_releases_all sampleFailEnv 4 sampleFailWorld
  refine ⟨h0.2.2.2.1 4 7 2 (by decide) (by decide!) (by decide),
    h0.2.2.2.2.1 [4, 5, 6, 7] 2 6 (by decide) (by decide!) (by decide), ?_⟩
  have hr : Reachable sampleFailEnv 8 sampleFailStore sampleFailWorld :=
    reachable_of_succeeded sampleFailEnv 8 sampleFailProg (World.empty Nat) (by decide!)
  have hy : sampleFailStore 0 = some (ListObj.mk 1 3) := by decide!
  obtain ⟨ns, xs, ho⟩ := hr.inv.owns hy
  have hxs : xs = [1, 2, 3] := by
    have h2 := ho.toList_eq (le_refl _)
    have h3 : toList (ListObj.mk 1 3).size_ sampleFailWorld (ListObj.mk 1 3) =
        some [1, 2, 3] := by decide!
    rw [h3] at h2
    exact (Option.some.inj h2).symm
  subst hxs
  exact h1.2.2.2.2.2 (ListObj.mk 1 3) ns [1, 2, 3] 1 2 ho (by decide) (by decide!) (by decide)

/-- C12: for two different objects `A` and `B` of a reachable program state, when the
copy constructor that builds the temporary of `A = B` leaves by an exception, the
assignment leaves by that exception with the same heap. In it the outstanding blocks are
exactly those from before the call, every block the temporary allocated was deallocated,
no block twice, and every node of `A`, the sentinel included, has the content it had:
the walks over the nodes and the values of `A` are as before, under the `root_` and
`size_` that `A` has, which the call did not write. -/
theorem failed_assignment_changes_nothing (E : Env T) (fuel0 fuel : Nat) (st : Store)
    (w w1 : World T) (a b : Nat) (A B : ListObj) (hr : Reachable E fuel0 st w) (hab : a ≠ b)
    (hA : st a = some A) (hB : st b = some B)
    (h : List_copy E fuel w B = some (.threw w1)) :
    assign E fuel w A (.distinct B) = some (.threw w1) ∧ Released w w1 ∧
      ∃ ns xs, nodes (size A) w A = some ns ∧ nodes (size A) w1 A = some ns ∧
        toList (size A) w A = some xs ∧ toList (size A) w1 A = some xs ∧
        size A = xs.length ∧ (∀ n ∈ ns, n ∈ w1.live ∧ w1.cell n = w.cell n) ∧
        toList (size B) w1 B = toList (size B) w B := by
  obtain ⟨nsa, xsa, nsb, xsb, hoa, hob, _⟩ := hr.inv.owns_pair hab hA hB
  have hrel : Released w w1 := by
    rw [hob.List_copy_eq_init] at h
    exact (List_init_released E fuel w xsb).1 w1 h
  have hfr : ∀ (l : ListObj) (ns : List Nat) (xs : List T), Owns w l ns xs →
      ∀ n ∈ l.root_ :: ns, n ∈ w1.live ∧ w1.cell n = w.cell n := by
    intro l ns xs ho n hn
    exact ⟨by rw [hrel.1]; exact ho.live n hn, hrel.2.1 n (ho.live n hn)⟩
  have hoa1 : Owns w1 A nsa xsa := hoa.frame (hfr A nsa xsa hoa)
  have hob1 : Owns w1 B nsb xsb := hob.frame (hfr B nsb xsb hob)
  refine ⟨by simp only [assign, h], hrel, A.root_ :: nsa, xsa, hoa.nodes_eq (le_refl _),
    hoa1.nodes_eq (le_refl _), hoa.toList_eq (le_refl _), hoa1.toList_eq (le_refl _), ?_,
    hfr A nsa xsa hoa, ?_⟩
  · show A.size_ = xsa.length
    rw [hoa.size, hoa.length_eq]
  · show toList B.size_ w1 B = toList B.size_ w B
    rw [hob.toList_eq (le_refl _), hob1.toList_eq (le_refl _)]

theorem failed_assignment_changes_nothing_witness :
    Reachable sampleFailEnv 8 sampleFailStore sampleFailWorld ∧ (1 : Nat) ≠ 0 ∧
      sampleFailStore 1 = some (ListObj.mk 5 1) ∧ sampleFailStore 0 = some (ListObj.mk 1 3) ∧
      List_copy sampleFailEnv 4 sampleFailWorld (ListObj.mk 1 3) =
        some (Outcome.threw (resultWorld sampleFailWorld
          (List_copy sampleFailEnv 4 sampleFailWorld (ListObj.mk 1 3)))) ∧
      assign sampleFailEnv 4 sampleFailWorld (ListObj.mk 5 1) (Ref.distinct (ListObj.mk 1 3)) =
        some (Outcome.threw (resultWorld sampleFailWorld
          (List_copy sampleFailEnv 4 sampleFailWorld (ListObj.mk 1 3)))) ∧
      Released sampleFailWorld (resultWorld sampleFailWorld
        (List_copy sampleFailEnv 4 sampleFailWorld (ListObj.mk 1 3))) :=
  have hr : Reachable sampleFailEnv 8 sampleFailStore sampleFailWorld :=
    reachable_of_succeeded sampleFailEnv 8 sampleFailProg (World.empty Nat) (by decide!)
  have hc : List_copy sampleFailEnv 4 sampleFailWorld (ListObj.mk 1 3) =
      some (Outcome.threw (resultWorld sampleFailWorld
        (List_copy sampleFailEnv 4 sampleFailWorld (ListObj.mk 1 3)))) :=
    eq_threw_of_failed sampleFailWorld _ (by decide!)
  have h := failed_assignment_changes_nothing sampleFailEnv 8 4 sampleFailStore sampleFailWorld
    (resultWorld sampleFailWorld (List_copy sampleFailEnv 4 sampleFailWorld (ListObj.mk 1 3)))
    1 0 (ListObj.mk 5 1) (ListObj.mk 1 3) hr (by decide) (by decide!) (by decide!) hc
  ⟨hr, by decide, by decide!, by decide!, hc, h.1, h.2.1⟩

end ListCpp
